import Mathlib

/-!
# A shallow embedding of `sat.cpp` (DPLL with conflict-directed backjumping)

The global arrays of the program become fields of `Formula` (written once by the
loader in `main`) and `State` (mutated by the search).  Arrays are total maps from
indices to values; `std::set<int>` is an ascending duplicate-free list.  Loops that may
in principle run forever (`do_unit_propagations`, the `dfs` recursion) take fuel and
return `none` when it runs out.  A variable index is a `Nat` (`abs(v)-1` for a literal
`v ≠ 0`; the loader never stores the literal `0`, which ends a clause).

The loader.  `clauses` is one block of `C` rows of `MAX_CLAUSE_SIZE = 1000` ints, and
the first pass writes `clauses[i][s++]` with no test against the end of the row:
`store_rows` is that pass on a flat array and `stored_rows` the rows as the second pass
and the search read them, so a clause of more than 1000 literals loses its tail to
the next clause.  `load_formula` and `init_state` take the rows of the block;
`load_rows` and `init_rows` build the formula store and the initial state from the
input clauses.  For an input without a clause of more than 1000 literals both give the
same (`stored_rows_eq`).  `InputFits` collects what the arrays need: no write past the
end of the clause block or of an `appearances[v]`, and the `int` products
`C * MAX_CLAUSE_SIZE` and `V * C` below `2^31`.

The tallies.  `npos_app` / `nneg_app` are indexed by `Int`, because
`modify_signed_appearances` indexes them with the literal itself rather than with
`abs(v)-1`.  In `State` a cell outside `[0, V)` is a cell of its own; in the program
such a write lands on another tally cell or next to the two arrays (padding or
allocator header); the embedding takes it not to reach any other array of the solver.
The tallies are read by `dfs` only (`most_constrained_var` and the choice of `first_try`), so `dfs_seen`
takes what each call of `dfs` reads from the two arrays as a parameter, and the
theorems on runs hold for every such content; `dfs` is the instance in which every
cell is a cell of its own (`dfs_seen_own`).  That is the program when `V ≤ 4` and the
allocator hands out blocks in steps of 16 bytes behind a 16-byte header: the cells
reached, `npos_app[1..4]` and `nneg_app[-4..-1]`, are then tally cells, padding or
header, none of which is another variable's tally.

Machine integers are unbounded `Int`, apart from the product `V*C` that sizes the
propagation queue (`int_mul`, `queue_cells`): `rem`, `satisfier`, `nunsat` and the
queue length stay far from `2^31` on inputs that fit the arrays.
-/

namespace Sat

/-- The formula store: `V`, `C`, `clauses[c]` (with `csizes[c]` its length) and
`appearances[v]` (with `napps[v]` its length). -/
structure Formula where
  V : Nat
  C : Nat
  clauses : Nat → List Int
  appearances : Nat → List Int

/-- The mutable search state: every global of `sat.cpp` that `dfs` may write. -/
structure State where
  assn : Nat → Int
  satisfier : Nat → Int
  rem : Nat → Int
  nunsat : Int
  npos_app : Int → Int
  nneg_app : Int → Int
  propagation_queue : Nat → Int
  npropped : Nat
  npropped_at : Nat → Nat
  propping_clause : Nat → Nat
  conflict : Nat → List Nat
  in_conflict : Nat → List Nat

/-- The variable index `abs(v)-1` of a literal. -/
def varid (lit : Int) : Nat := lit.natAbs - 1

/-- Insertion into a `std::set<int>`: ascending order, no duplicates. -/
def set_insert (a : Nat) : List Nat → List Nat
  | [] => [a]
  | b :: rest =>
    if a < b then a :: b :: rest
    else if a = b then b :: rest
    else b :: set_insert a rest

/-- The two inserts `conflict[v].insert(u); in_conflict[u].insert(v)`. -/
def insert_edge (v u : Nat) (s : State) : State :=
  { s with
    conflict := Function.update s.conflict v (set_insert u (s.conflict v)),
    in_conflict := Function.update s.in_conflict u (set_insert v (s.in_conflict u)) }

/-- The two clears `conflict[v].clear(); in_conflict[v].clear()` done by `dfs`
before it branches on `v` and by `do_unit_propagations` before it assigns `v`. -/
def clear_conflict (v : Nat) (s : State) : State :=
  { s with
    conflict := Function.update s.conflict v [],
    in_conflict := Function.update s.in_conflict v [] }

/-- The expression `app > 0 ? 1 : -1`. -/
def sign_of (app : Int) : Int := if app > 0 then 1 else -1

/-- The test `in_conflict_set(v)`. -/
def in_conflict_set (s : State) (v : Nat) : Bool := !(s.in_conflict v).isEmpty

/-- Inner loop of `augment_conflict`: the elements `it` of `conflict[*o]`. -/
def augment_inner (v : Nat) : List Nat → State → State
  | [], s => s
  | it :: rest, s =>
    if it ≠ v then augment_inner v rest (insert_edge v it s)
    else augment_inner v rest s

/-- Outer loop of `augment_conflict`: the elements `o` of `in_conflict[v]`. -/
def augment_outer (v : Nat) : List Nat → State → State
  | [], s => s
  | o :: rest, s => augment_outer v rest (augment_inner v (s.conflict o) s)

/-- The function `augment_conflict(v)`. -/
def augment_conflict (v : Nat) (s : State) : State :=
  let s1 := augment_outer v (s.in_conflict v) s
  { s1 with in_conflict := Function.update s1.in_conflict v [] }

/-- Loop of `backprop_conflict` over the literals of clause `c`. -/
def backprop_loop (v : Nat) : List Int → State → State
  | [], s => s
  | lit :: rest, s =>
    if varid lit ≠ v then backprop_loop v rest (insert_edge v (varid lit) s)
    else backprop_loop v rest s

/-- The function `backprop_conflict(v, c)`. -/
def backprop_conflict (F : Formula) (v c : Nat) (s : State) : State :=
  augment_conflict v (backprop_loop v (F.clauses c) s)

/-- Loop of `enqueue_unit_propagation`: the first literal with an unset variable is
queued and the loop returns. -/
def enqueue_loop (c : Nat) : List Int → State → State
  | [], s => s
  | lit :: rest, s =>
    if s.assn (varid lit) = 0 then
      { s with
        propagation_queue := Function.update s.propagation_queue s.npropped lit,
        npropped := s.npropped + 1,
        propping_clause := Function.update s.propping_clause (varid lit) c }
    else enqueue_loop c rest s

/-- The function `enqueue_unit_propagation(c)`. -/
def enqueue_unit_propagation (F : Formula) (c : Nat) (s : State) : State :=
  enqueue_loop c (F.clauses c) s

/-- Loop of `modify_signed_appearances`; the tallies are indexed by the literal
`v` itself, as in the source.  A cell at an index outside `[0, V)` is kept as a cell of
its own; `dfs_seen` makes no assumption on where such a write lands. -/
def modify_loop (inc : Int) : List Int → State → State
  | [], s => s
  | lit :: rest, s =>
    if lit < 0 then
      modify_loop inc rest { s with nneg_app := Function.update s.nneg_app lit (s.nneg_app lit + inc) }
    else
      modify_loop inc rest { s with npos_app := Function.update s.npos_app lit (s.npos_app lit + inc) }

/-- The function `modify_signed_appearances(c, inc)`. -/
def modify_signed_appearances (F : Formula) (c : Nat) (inc : Int) (s : State) : State :=
  modify_loop inc (F.clauses c) s

/-- The function `mark_signed_appearances(c)`. -/
def mark_signed_appearances (F : Formula) (c : Nat) (s : State) : State :=
  modify_signed_appearances F c 1 s

/-- The function `unmark_signed_appearances(c)`. -/
def unmark_signed_appearances (F : Formula) (c : Nat) (s : State) : State :=
  modify_signed_appearances F c (-1) s

/-- The statement `rem[c]--`. -/
def rem_dec (c : Nat) (s : State) : State :=
  { s with rem := Function.update s.rem c (s.rem c - 1) }

/-- The statement `rem[c]++`. -/
def rem_inc (c : Nat) (s : State) : State :=
  { s with rem := Function.update s.rem c (s.rem c + 1) }

/-- Case A of `assign` on an unsatisfied clause:
`satisfier[c] = v+1; nunsat--; mark_signed_appearances(c);`. -/
def set_satisfier (F : Formula) (v c : Nat) (s : State) : State :=
  mark_signed_appearances F c
    { s with satisfier := Function.update s.satisfier c ((v : Int) + 1), nunsat := s.nunsat - 1 }

/-- Case A of `unassign_upto` on a clause satisfied by `v`:
`satisfier[c] = 0; nunsat++; unmark_signed_appearances(c);`. -/
def clear_satisfier (F : Formula) (c : Nat) (s : State) : State :=
  unmark_signed_appearances F c
    { s with satisfier := Function.update s.satisfier c 0, nunsat := s.nunsat + 1 }

/-- Case B of `assign`, the tally of `v` itself:
`if(sign < 0) nneg_app[v]--; else npos_app[v]++;`. -/
def assign_own_tally (v : Nat) (sign : Int) (s : State) : State :=
  if sign < 0 then
    { s with nneg_app := Function.update s.nneg_app v (s.nneg_app v - 1) }
  else
    { s with npos_app := Function.update s.npos_app v (s.npos_app v + 1) }

/-- Case B of `unassign_upto`, the tally of `v` itself:
`if(sign<0) nneg_app[v]++; else npos_app[v]++;`. -/
def unassign_own_tally (v : Nat) (sign : Int) (s : State) : State :=
  if sign < 0 then
    { s with nneg_app := Function.update s.nneg_app v (s.nneg_app v + 1) }
  else
    { s with npos_app := Function.update s.npos_app v (s.npos_app v + 1) }

/-- One iteration of the loop of `unassign_upto` on the occurrence entry `a`. -/
def unassign_step (F : Formula) (v : Nat) (sign : Int) (a : Int) (s : State) : State :=
  let c := a.natAbs - 1
  let s1 := rem_inc c s
  if a * sign > 0 then
    if s1.satisfier c = (v : Int) + 1 then clear_satisfier F c s1
    else s1
  else unassign_own_tally v sign s1

/-- Loop of `unassign_upto` over the occurrence entries it visits. -/
def unassign_loop (F : Formula) (v : Nat) (sign : Int) : List Int → State → State
  | [], s => s
  | a :: rest, s => unassign_loop F v sign rest (unassign_step F v sign a s)

/-- The function `unassign_upto(v, sign, upto)`. -/
def unassign_upto (F : Formula) (v : Nat) (sign : Int) (upto : Nat) (s : State) : State :=
  if s.assn v = 0 then s
  else
    unassign_loop F v sign ((F.appearances v).take upto)
      { s with assn := Function.update s.assn v 0 }

/-- The function `unassign(v, sign)`. -/
def unassign (F : Formula) (v : Nat) (sign : Int) (s : State) : State :=
  unassign_upto F v sign (F.appearances v).length s

/-- Loop of `assign`: `i` is the index of the head of the remaining occurrence
entries.  The result is the return value together with the state left behind. -/
def assign_loop (F : Formula) (v : Nat) (sign : Int) : List Int → Nat → State → Bool × State
  | [], _, s => (true, s)
  | a :: rest, i, s =>
    let c := a.natAbs - 1
    let s1 := rem_dec c s
    if a * sign > 0 then
      if s1.satisfier c = 0 then assign_loop F v sign rest (i + 1) (set_satisfier F v c s1)
      else assign_loop F v sign rest (i + 1) s1
    else
      let s2 := assign_own_tally v sign s1
      if s2.satisfier c = 0 then
        if s2.rem c = 0 then
          (false, unassign_upto F v sign (i + 1) (backprop_conflict F v c s2))
        else if s2.rem c = 1 then
          assign_loop F v sign rest (i + 1) (enqueue_unit_propagation F c s2)
        else assign_loop F v sign rest (i + 1) s2
      else assign_loop F v sign rest (i + 1) s2

/-- The function `assign(v, sign)`. -/
def assign (F : Formula) (v : Nat) (sign : Int) (s : State) : Bool × State :=
  if s.assn v ≠ 0 then (true, s)
  else assign_loop F v sign (F.appearances v) 0 { s with assn := Function.update s.assn v sign }

/-- Loop of `undo_unit_propagations(low, high)`: `k` iterations remain, the next
one treats queue index `low + k - 1`. -/
def undo_loop (F : Formula) (low : Nat) : Nat → State → State
  | 0, s => s
  | k + 1, s =>
    let app := s.propagation_queue (low + k)
    let s1 := backprop_conflict F (varid app) (s.propping_clause (varid app)) s
    undo_loop F low k (unassign F (varid app) (sign_of app) s1)

/-- The function `undo_unit_propagations(low, high)`. -/
def undo_unit_propagations (F : Formula) (low high : Nat) (s : State) : State :=
  { undo_loop F low (high - low) s with npropped := low }

/-- The function `do_unit_propagations(from)`, at loop index `i`; the queue may
grow while the loop runs, so the loop takes fuel. -/
def do_unit_propagations (F : Formula) (frm : Nat) : Nat → Nat → State → Option (Bool × State)
  | 0, _, _ => none
  | fuel + 1, i, s =>
    if i < s.npropped then
      let app := s.propagation_queue i
      match assign F (varid app) (sign_of app) (clear_conflict (varid app) s) with
      | (false, s2) => some (false, undo_unit_propagations F frm i s2)
      | (true, s2) => do_unit_propagations F frm fuel (i + 1) s2
    else some (true, s)

/-- Loop of `most_constrained_var`: the pair `(mapp, v)` after the iterations
`i = 0, ..., n-1`. -/
def most_constrained_loop (s : State) : Nat → Int × Int
  | 0 => (0, -1)
  | n + 1 =>
    let r := most_constrained_loop s n
    if s.assn n ≠ 0 then r
    else if s.npos_app n + s.nneg_app n > r.1 then (s.npos_app n + s.nneg_app n, (n : Int))
    else r

/-- The function `most_constrained_var()`. -/
def most_constrained_var (F : Formula) (s : State) : Int :=
  (most_constrained_loop s F.V).2

/-- The function `try_value(v, sign, l)`; `dfs_next` is the recursive call
`dfs(l+1)` and `pf` the fuel given to each `do_unit_propagations` loop. -/
def try_value (F : Formula) (pf : Nat) (dfs_next : State → Option (Bool × State))
    (v : Nat) (sign : Int) (s : State) : Option (Bool × State) :=
  match assign F v sign s with
  | (false, s1) => some (false, s1)
  | (true, s1) =>
    match do_unit_propagations F (s1.npropped_at v) pf (s1.npropped_at v) s1 with
    | none => none
    | some (false, s2) => some (false, unassign F v sign s2)
    | some (true, s2) =>
      match dfs_next s2 with
      | none => none
      | some (true, s3) => some (true, s3)
      | some (false, s3) =>
        some (false, unassign F v sign
          (undo_unit_propagations F (s3.npropped_at v) s3.npropped s3))

/-- The body of `dfs` once a variable `v` has been selected. -/
def dfs_branch (F : Formula) (pf : Nat) (dfs_next : State → Option (Bool × State))
    (v : Nat) (s : State) : Option (Bool × State) :=
  let first_try : Int := if s.npos_app v > s.nneg_app v then 1 else -1
  let second_try : Int := if s.npos_app v > s.nneg_app v then -1 else 1
  let s1 := clear_conflict v { s with npropped_at := Function.update s.npropped_at v s.npropped }
  match try_value F pf dfs_next v first_try s1 with
  | none => none
  | some (true, s2) => some (true, s2)
  | some (false, s2) =>
    if in_conflict_set s2 v then
      try_value F pf dfs_next v second_try (augment_conflict v s2)
    else some (false, s2)

/-- The function `dfs(l)`; the recursion takes fuel (one unit per level). -/
def dfs (F : Formula) (pf : Nat) : Nat → Nat → State → Option (Bool × State)
  | 0, _, _ => none
  | fuel + 1, l, s =>
    if s.nunsat = 0 then some (true, s)
    else
      let v := most_constrained_var F s
      if v = -1 then some (false, s)
      else dfs_branch F pf (dfs F pf fuel (l + 1)) v.toNat s

/-- Encoding of an occurrence of a literal in clause `i` (`app_enc` in `main`). -/
def app_enc (i : Nat) (lit : Int) : Int :=
  if lit < 0 then -((i : Int) + 1) else (i : Int) + 1

/-- Second pass of the loader over one clause: append the encoded occurrence to
the list of the literal's variable. -/
def fill_clause (i : Nat) : List Int → (Nat → List Int) → (Nat → List Int)
  | [], apps => apps
  | lit :: rest, apps =>
    fill_clause i rest
      (Function.update apps (varid lit) (apps (varid lit) ++ [app_enc i lit]))

/-- Second pass of the loader over all clauses, `i` the index of the first one. -/
def fill_appearances : List (List Int) → Nat → (Nat → List Int) → (Nat → List Int)
  | [], _, apps => apps
  | cl :: rest, i, apps => fill_appearances rest (i + 1) (fill_clause i cl apps)

/-- First pass of the loader over one clause: the signed tallies. -/
def count_clause : List Int → (Int → Int) × (Int → Int) → (Int → Int) × (Int → Int)
  | [], t => t
  | lit :: rest, t =>
    if lit < 0 then
      count_clause rest (t.1, Function.update t.2 (varid lit) (t.2 (varid lit) + 1))
    else
      count_clause rest (Function.update t.1 (varid lit) (t.1 (varid lit) + 1), t.2)

/-- First pass of the loader over all clauses. -/
def count_tallies : List (List Int) → (Int → Int) × (Int → Int) → (Int → Int) × (Int → Int)
  | [], t => t
  | cl :: rest, t => count_tallies rest (count_clause cl t)

/-- The formula store that `main` leaves, given `V` and the rows `cls` of the clause
block (`clauses[c][0 .. csizes[c]-1]` for `c < C`): the second pass of the loader fills
`appearances` from these rows.  The rows of an input are `stored_rows`. -/
def load_formula (V : Nat) (cls : List (List Int)) : Formula :=
  { V := V,
    C := cls.length,
    clauses := fun c => cls.getD c [],
    appearances := fill_appearances cls 0 (fun _ => []) }

/-- The state in which `main` calls `dfs(0)`, given the rows `cls` of the clause block,
for an input whose clauses are these rows (no clause of more than `MAX_CLAUSE_SIZE`
literals); `init_rows` is the state for any input.  The queue is a total map: the
number of cells that `calloc` provides is `queue_cells`. -/
def init_state (cls : List (List Int)) : State :=
  { assn := fun _ => 0,
    satisfier := fun _ => 0,
    rem := fun c => ((cls.getD c []).length : Int),
    nunsat := (cls.length : Int),
    npos_app := (count_tallies cls (fun _ => 0, fun _ => 0)).1,
    nneg_app := (count_tallies cls (fun _ => 0, fun _ => 0)).2,
    propagation_queue := fun _ => 0,
    npropped := 0,
    npropped_at := fun _ => 0,
    propping_clause := fun _ => 0,
    conflict := fun _ => [],
    in_conflict := fun _ => [] }

/-- The value printed for variable `i+1` on SAT: `assn[i] > 0 ? 1 : 0`. -/
def report (s : State) (i : Nat) : Bool := decide (s.assn i > 0)

/-- A pure clause evaluator over a 0/1 vector. -/
def eval_clause (a : Nat → Bool) (cl : List Int) : Bool :=
  cl.any (fun l => if l > 0 then a (varid l) else !(a (varid l)))


/-! ## Specification predicates -/

/-- The sign in which a literal appears: `+1` for a positive literal, `-1` for a
negative one. -/
def lit_sign (l : Int) : Int := if l > 0 then 1 else -1

/-- Invariant I5: `u ∈ conflict[v] ⇔ v ∈ in_conflict[u]`. -/
def ConflictSymmetric (s : State) : Prop :=
  ∀ u v : Nat, u ∈ s.conflict v ↔ v ∈ s.in_conflict u

/-- Invariant I6: no variable is in its own `conflict` or `in_conflict` set. -/
def ConflictIrreflexive (s : State) : Prop :=
  ∀ v : Nat, v ∉ s.conflict v ∧ v ∉ s.in_conflict v

/-- The tally sum `npos_app[i] + nneg_app[i]` read by `most_constrained_var`. -/
def tally_sum (s : State) (i : Nat) : Int := s.npos_app i + s.nneg_app i

/-- Number of occurrence entries of the list `L` that point at clause `c`. -/
def occ_count (L : List Int) (c : Nat) : Int :=
  ((L.filter (fun a => decide (a.natAbs - 1 = c))).length : Int)

/-- Whether some entry of `L` points at clause `c` with the sign `sign`. -/
def agrees (L : List Int) (sign : Int) (c : Nat) : Bool :=
  L.any (fun a => decide (a.natAbs - 1 = c) && decide (a * sign > 0))

/-- Number of clauses `c < C` with `sat c = 0`. -/
def zero_count (C : Nat) (sat : Nat → Int) : Int :=
  (((List.range C).filter (fun c => decide (sat c = 0))).length : Int)

/-- Number of literals of clause `c` whose variable is unset. -/
def unset_count (F : Formula) (s : State) (c : Nat) : Int :=
  (((F.clauses c).filter (fun l => decide (s.assn (varid l) = 0))).length : Int)

/-- The occurrence lists agree with the clauses: the entries of `appearances[v]`
that point at clause `c` are the encodings of the literals of `c` on variable `v`,
in clause order. -/
def AppsAgree (F : Formula) : Prop :=
  ∀ v c : Nat, (F.appearances v).filter (fun a => decide (a.natAbs - 1 = c))
    = ((F.clauses c).filter (fun l => decide (varid l = v))).map (app_enc c)

/-- A formula as the loader builds it: occurrence lists that agree with the
clauses, no clause beyond index `C`, no literal `0`. -/
structure WellFormed (F : Formula) : Prop where
  agree : AppsAgree F
  range : ∀ c : Nat, F.C ≤ c → F.clauses c = []
  nonzero : ∀ c : Nat, ∀ l ∈ F.clauses c, l ≠ 0

/-- Invariant I1 (rem accuracy), for the clauses `c < C`. -/
def RemAccurate (F : Formula) (s : State) : Prop :=
  ∀ c : Nat, c < F.C → s.rem c = unset_count F s c

/-- Invariant I2 (satisfier accuracy) as the specification words it. -/
def SatisfierAccurate (F : Formula) (s : State) : Prop :=
  ∀ c : Nat, c < F.C →
    (s.satisfier c ≠ 0 ↔ ∃ l ∈ F.clauses c, s.assn (varid l) = lit_sign l)

/-- Every nonzero `satisfier[c]` is `u+1` for a variable `u` that has a literal in
`c` whose sign is the value assigned to `u`. -/
def SatisfierSound (F : Formula) (s : State) : Prop :=
  ∀ c : Nat, s.satisfier c ≠ 0 →
    ∃ l ∈ F.clauses c, s.satisfier c = (varid l : Int) + 1 ∧ s.assn (varid l) = lit_sign l

/-- Invariant I3 (nunsat accuracy). -/
def NunsatAccurate (F : Formula) (s : State) : Prop :=
  s.nunsat = zero_count F.C s.satisfier

/-- Invariant I4 (tally accuracy). -/
def TallyAccurate (F : Formula) (s : State) : Prop :=
  ∀ v : Nat, v < F.V →
    s.npos_app v = (((List.range F.C).filter (fun c =>
        decide (s.satisfier c = 0) && decide (((v : Int) + 1) ∈ F.clauses c))).length : Int)
    ∧ s.nneg_app v = (((List.range F.C).filter (fun c =>
        decide (s.satisfier c = 0) && decide ((-((v : Int) + 1)) ∈ F.clauses c))).length : Int)

/-- Equality of the components `assn`, `rem`, `satisfier`, `nunsat`. -/
structure SameCore (s t : State) : Prop where
  assn : t.assn = s.assn
  rem : t.rem = s.rem
  satisfier : t.satisfier = s.satisfier
  nunsat : t.nunsat = s.nunsat

/-- Equality of the conflict tracker. -/
structure SameTracker (s t : State) : Prop where
  conflict : t.conflict = s.conflict
  in_conflict : t.in_conflict = s.in_conflict

/-- Equality of the propagation queue, its length and `propping_clause`. -/
structure SameQueue (s t : State) : Prop where
  propagation_queue : t.propagation_queue = s.propagation_queue
  npropped : t.npropped = s.npropped
  propping_clause : t.propping_clause = s.propping_clause

/-- Equality of the tallies. -/
structure SameTally (s t : State) : Prop where
  npos_app : t.npos_app = s.npos_app
  nneg_app : t.nneg_app = s.nneg_app

/-- The queue only grows from `s` to `t`: entries below the old length stay. -/
structure QueueGrows (s t : State) : Prop where
  le : s.npropped ≤ t.npropped
  old : ∀ j : Nat, j < s.npropped → t.propagation_queue j = s.propagation_queue j

/-- The state `t` is what the loop of `assign(v, sign)` makes of `s` when it runs
over the occurrence entries `L` without returning. -/
structure AssignEffect (F : Formula) (v : Nat) (sign : Int) (L : List Int) (s t : State) :
    Prop where
  assn : t.assn = s.assn
  rem : ∀ c : Nat, t.rem c = s.rem c - occ_count L c
  satisfier : ∀ c : Nat, t.satisfier c =
    if s.satisfier c = 0 ∧ agrees L sign c = true then (v : Int) + 1 else s.satisfier c
  nunsat : t.nunsat - zero_count F.C t.satisfier = s.nunsat - zero_count F.C s.satisfier
  npropped_at : t.npropped_at = s.npropped_at
  tracker : SameTracker s t
  grows : QueueGrows s t
  fresh : ∀ j : Nat, s.npropped ≤ j → j < t.npropped →
    s.assn (varid (t.propagation_queue j)) = 0 ∧
    ∃ c : Nat, t.propagation_queue j ∈ F.clauses c ∧ t.rem c ≤ 1 ∧
      (t.rem c = 1 → t.satisfier c = 0)

/-- The state `u` is what the loop of `unassign_upto(v, sign, _)` makes of `t` when
it runs over the occurrence entries `L`. -/
structure UnassignEffect (F : Formula) (v : Nat) (sign : Int) (L : List Int) (t u : State) :
    Prop where
  assn : u.assn = t.assn
  rem : ∀ c : Nat, u.rem c = t.rem c + occ_count L c
  satisfier : ∀ c : Nat, u.satisfier c =
    if t.satisfier c = (v : Int) + 1 ∧ agrees L sign c = true then 0 else t.satisfier c
  nunsat : u.nunsat - zero_count F.C u.satisfier = t.nunsat - zero_count F.C t.satisfier
  npropped_at : u.npropped_at = t.npropped_at
  tracker : SameTracker t u
  queue : SameQueue t u

/-- No clause visited by the entries `L` is left both unsatisfied and without an
unset variable: the loop of `assign` did not meet a conflict. -/
def NoConflict (L : List Int) (t : State) : Prop :=
  ∀ c : Nat, 0 < occ_count L c → t.satisfier c ≠ 0 ∨ t.rem c ≠ 0

/-- What the loop of `assign(v, sign)` returns on the entries `L` (the first of them
at index `i`) from state `s`: either `true` after all of `L`, or `false` at the
first conflict, after the roll-back `unassign_upto(v, sign, index+1)`. -/
def AssignLoopResult (F : Formula) (v : Nat) (sign : Int) (L : List Int) (i : Nat) (s : State)
    (r : Bool × State) : Prop :=
  (r.1 = true ∧ AssignEffect F v sign L s r.2 ∧ NoConflict L r.2)
  ∨ (r.1 = false ∧ ∃ (L1 : List Int) (a : Int) (L2 : List Int) (t : State),
      L = L1 ++ a :: L2 ∧ ¬ (a * sign > 0) ∧ AssignEffect F v sign (L1 ++ [a]) s t
      ∧ t.satisfier (a.natAbs - 1) = 0 ∧ t.rem (a.natAbs - 1) = 0
      ∧ r.2 = unassign_upto F v sign (i + L1.length + 1)
          (backprop_conflict F v (a.natAbs - 1) t))

/-- Number of literals of clause `c` on variable `v`. -/
def var_count (F : Formula) (v c : Nat) : Int :=
  (((F.clauses c).filter (fun l => decide (varid l = v))).length : Int)

/-- Invariant I1 for every index: beyond `C` there are no clauses and `rem` is 0. -/
def RemAll (F : Formula) (s : State) : Prop :=
  ∀ c : Nat, s.rem c = unset_count F s c

/-- The invariant of the assignment state that the search keeps at every call of
`dfs`: `rem` counts the unset literals, a nonzero satisfier names a satisfying
variable, `nunsat` counts the clauses without satisfier. -/
structure Inv (F : Formula) (s : State) : Prop where
  rem : RemAll F s
  sat : SatisfierSound F s
  nunsat : NunsatAccurate F s

/-- The state `t` extends `s`: variables set in `s` keep their value, satisfiers
set in `s` stay, and a satisfier new in `t` names a variable unset in `s`. -/
structure Ext (s t : State) : Prop where
  assn : ∀ u : Nat, s.assn u ≠ 0 → t.assn u = s.assn u
  sat_keep : ∀ c : Nat, s.satisfier c ≠ 0 → t.satisfier c = s.satisfier c
  sat_new : ∀ c : Nat, s.satisfier c = 0 →
    t.satisfier c = 0 ∨ ∃ u : Nat, t.satisfier c = (u : Int) + 1 ∧ s.assn u = 0

/-- What `undo_unit_propagations(low, high)` needs in order to bring the core back
to that of the base state `b`: the queue entries in `[low, high)` are on variables
unset in `b`, each is unset or set with the sign of its entry, and every variable
set now was set in `b` or sits in the range. -/
structure UndoReady (F : Formula) (b : State) (low high : Nat) (s : State) : Prop where
  inv : Inv F s
  ext : Ext b s
  entries : ∀ j : Nat, low ≤ j → j < high →
    b.assn (varid (s.propagation_queue j)) = 0 ∧
    (s.assn (varid (s.propagation_queue j)) = sign_of (s.propagation_queue j)
      ∨ s.assn (varid (s.propagation_queue j)) = 0)
  accounted : ∀ u : Nat, s.assn u ≠ 0 →
    b.assn u ≠ 0 ∨ ∃ j : Nat, low ≤ j ∧ j < high ∧ varid (s.propagation_queue j) = u

/-- The loop invariant of `do_unit_propagations(p0)` at index `i`, relative to the
base state `b` in which the loop was entered. -/
structure PropReady (F : Formula) (b : State) (p0 i : Nat) (s : State) : Prop where
  inv : Inv F s
  ext : Ext b s
  low : p0 ≤ i
  high : i ≤ s.npropped
  fresh : ∀ j : Nat, p0 ≤ j → j < s.npropped → b.assn (varid (s.propagation_queue j)) = 0
  done : ∀ j : Nat, p0 ≤ j → j < i →
    s.assn (varid (s.propagation_queue j)) = sign_of (s.propagation_queue j)
  pending : ∀ j : Nat, i ≤ j → j < s.npropped →
    s.assn (varid (s.propagation_queue j)) = sign_of (s.propagation_queue j)
    ∨ (s.assn (varid (s.propagation_queue j)) = 0
        ∧ ∃ c : Nat, s.propagation_queue j ∈ F.clauses c ∧ s.rem c = 1 ∧ s.satisfier c = 0)
  accounted : ∀ u : Nat, s.assn u ≠ 0 →
    b.assn u ≠ 0 ∨ ∃ j : Nat, p0 ≤ j ∧ j < i ∧ varid (s.propagation_queue j) = u

/-- What a call `dfs(l)` from state `s` guarantees about its result `r`: on `true`
the invariant holds with `nunsat = 0`; on `false` the core is as at entry, the queue
has only grown by entries on unset variables, and the stamps of set variables are
kept. -/
def DfsPost (F : Formula) (s : State) (r : Bool × State) : Prop :=
  (r.1 = true → Inv F r.2 ∧ r.2.nunsat = 0)
  ∧ (r.1 = false → SameCore s r.2 ∧ QueueGrows s r.2
      ∧ (∀ j : Nat, s.npropped ≤ j → j < r.2.npropped →
          r.2.assn (varid (r.2.propagation_queue j)) = 0)
      ∧ (∀ u : Nat, s.assn u ≠ 0 → r.2.npropped_at u = s.npropped_at u))

/-- The contract of a search function: `DfsPost` from every state that satisfies
the invariant. -/
def DfsSpec (F : Formula) (f : State → Option (Bool × State)) : Prop :=
  ∀ (s : State) (r : Bool × State), Inv F s → f s = some r → DfsPost F s r

/-- What a call `try_value(v, sign, l)` from state `s` guarantees. -/
def TryPost (F : Formula) (v : Nat) (s : State) (r : Bool × State) : Prop :=
  (r.1 = true → Inv F r.2 ∧ r.2.nunsat = 0)
  ∧ (r.1 = false → SameCore s r.2 ∧ QueueGrows s r.2
      ∧ (∀ j : Nat, s.npropped ≤ j → j < r.2.npropped →
          r.2.assn (varid (r.2.propagation_queue j)) = 0)
      ∧ (∀ u : Nat, s.assn u ≠ 0 ∨ u = v → r.2.npropped_at u = s.npropped_at u)
      ∧ (r.2.in_conflict v = [] ∨ r.2.npropped = s.npropped))

/-- A property of the conflict tracker that every mutation of the tracker keeps:
the edge inserts `w → v` with `w ≠ v`, the clear of `in_conflict[v]` at the end of
`augment_conflict`, the two clears of `dfs` and `do_unit_propagations`; and that
does not depend on the other components of the state. -/
structure TrackerStable (P : State → Prop) : Prop where
  edge : ∀ (s : State) (v w : Nat), w ≠ v → P s → P (insert_edge v w s)
  consume : ∀ (s : State) (v : Nat), P s →
    P { s with in_conflict := Function.update s.in_conflict v [] }
  clear : ∀ (s : State) (v : Nat), P s → P (clear_conflict v s)
  frame : ∀ (s t : State), SameTracker s t → P s → P t

/-- Every occurrence entry points at a clause of the formula: its magnitude is in
`[1..C]` once it is nonzero. -/
def AppsInRange (F : Formula) : Prop :=
  ∀ v : Nat, ∀ a ∈ F.appearances v, a.natAbs - 1 < F.C

/-- A state over the clause list `cls` (whose clause 0 is `[1, 2]`) in which variable
1 is true, variable 0 is unset, and `satisfier[0]` is `1`, that is, names the unset
variable 0.  It satisfies I1, I2 and I3 but no run of the search reaches it. -/
def stale_satisfier_state (cls : List (List Int)) : State :=
  { init_state cls with
    assn := fun v => if v = 1 then 1 else 0,
    rem := fun _ => 1,
    satisfier := fun c => if c = 0 then 1 else 0,
    nunsat := (cls.length : Int) - 1 }

/-- The value `first_try` that `dfs` computes for the variable `v` it branches on:
`+1` when `npos_app[v] > nneg_app[v]`, else `-1`. -/
def first_try (s : State) (v : Nat) : Int := if s.npos_app v > s.nneg_app v then 1 else -1

/-- The value `second_try` that `dfs` computes for the variable `v` it branches on. -/
def second_try (s : State) (v : Nat) : Int := if s.npos_app v > s.nneg_app v then -1 else 1

/-- The state in which `dfs` makes its first call of `try_value` for `v`: the stamp
`npropped_at[v] = npropped` and the two clears are done. -/
def branch_entry (v : Nat) (s : State) : State :=
  clear_conflict v { s with npropped_at := Function.update s.npropped_at v s.npropped }

/-- The occurrence list that the specification describes for variable `v`: the
literals on `v`, clause after clause (the first clause has index `i`) and in clause
order, each encoded as `c+1` when positive in clause `c` and `-(c+1)` when negative. -/
def occurrences (v : Nat) : List (List Int) → Nat → List Int
  | [], _ => []
  | cl :: rest, i =>
    (cl.filter (fun l => decide (varid l = v))).map
        (fun l => if l > 0 then (i : Int) + 1 else -((i : Int) + 1))
      ++ occurrences v rest (i + 1)

/-- The number of literal occurrences of variable `v` over all clauses. -/
def occurrence_count (v : Nat) (cls : List (List Int)) : Nat :=
  (cls.map (fun cl => (cl.filter (fun l => decide (varid l = v))).length)).sum

/-- The clause list of `p cnf 3 3 / 3 -2 0 / 2 -1 0 / -3 0`: the first value tried at
the root fails after a propagation and leaves a non-empty conflict set. -/
def backjump_example : List (List Int) := [[3, -2], [2, -1], [-3]]

/-- The clause list of `p cnf 3 3 / 1 0 / -1 2 0 / -2 3 0` (a unit-propagation
chain). -/
def chain_example : List (List Int) := [[1], [-1, 2], [-2, 3]]

/-- The state left by the first `try_value` of the root call `dfs(0)` on the clause
list `cls` with `V` variables, where the root branches on `v`. -/
def first_try_state (V : Nat) (cls : List (List Int)) (pf fuel v : Nat) : State :=
  ((try_value (load_formula V cls) pf (dfs (load_formula V cls) pf fuel 1) v
      (first_try (init_state cls) v) (branch_entry v (init_state cls))).getD
    (false, init_state cls)).2

/-- The clause list of `p cnf 2 4 / -2 0 / -2 0 / -1 2 0 / 2 0`: the first `assign` of
the run queues a propagation and then meets a conflict. -/
def stale_queue_example : List (List Int) := [[-2], [-2], [-1, 2], [2]]

/-- A tracker state with the edges `0 → 1` and `0 → 2` (`conflict[0] = {1, 2}`,
`in_conflict[1] = in_conflict[2] = {0}`), as left by `backprop_conflict(0, c)` on a
clause over the variables 0, 1, 2. -/
def augment_example_state : State :=
  { init_state [] with
    conflict := fun v => if v = 0 then [1, 2] else [],
    in_conflict := fun u => if u = 1 then [0] else if u = 2 then [0] else [] }

/-- Number of clauses `c < C` with `rem c ≤ 1`. -/
def low_count (C : Nat) (rem : Nat → Int) : Nat :=
  ((List.range C).filter (fun c => decide (rem c ≤ 1))).length

/-- Number of variables `u < V` that are unset. -/
def unset_vars (V : Nat) (assn : Nat → Int) : Nat :=
  ((List.range V).filter (fun u => decide (assn u = 0))).length

/-- The queue is no longer than the number of clauses that have at most one unset
literal left. -/
def CapInv (F : Formula) (s : State) : Prop :=
  s.npropped ≤ low_count F.C s.rem

/-- From `s` to `t` no queue cell at an index `≥ B` has changed. -/
def QueueAbove (B : Nat) (s t : State) : Prop :=
  ∀ j : Nat, B ≤ j → t.propagation_queue j = s.propagation_queue j

/-- The capacity contract of a search function: from a state that satisfies the
invariant and `CapInv`, no queue cell at an index `≥ C` is written and the queue
length on return is at most `C`. -/
def CapSpec (F : Formula) (f : State → Option (Bool × State)) : Prop :=
  ∀ (s : State) (r : Bool × State), Inv F s → CapInv F s → f s = some r →
    QueueAbove F.C s r.2 ∧ r.2.npropped ≤ F.C

/-- The constant `MAX_CLAUSE_SIZE`: the length of a row of the clause block. -/
def MAX_CLAUSE_SIZE : Nat := 1000

/-- The writes `clauses[i][s++] = v` of the first pass for one clause: its literals go
to consecutive cells of the block, from `base = i * MAX_CLAUSE_SIZE` on, with no test
against the end of the row. -/
def write_row : Nat → List Int → (Nat → Int) → (Nat → Int)
  | _, [], mem => mem
  | base, v :: rest, mem => write_row (base + 1) rest (Function.update mem base v)

/-- The first pass of the loader over all clauses (`i` is the index of the first one):
the clause block as a flat array of `int`. -/
def store_rows : List (List Int) → Nat → (Nat → Int) → (Nat → Int)
  | [], _, mem => mem
  | cl :: rest, i, mem => store_rows rest (i + 1) (write_row (i * MAX_CLAUSE_SIZE) cl mem)

/-- The row `clauses[c][0 .. len-1]` as the second pass and the search read it. -/
def read_row (mem : Nat → Int) (c len : Nat) : List Int :=
  (List.range len).map (fun j => mem (c * MAX_CLAUSE_SIZE + j))

/-- The clauses held by the clause block after the first pass: row `c` read over its
`csizes[c]` cells, `csizes[c]` being the number of literals read for clause `c`.  Every
cell read was written by the pass, so the content `malloc` left does not matter. -/
def stored_rows (cls : List (List Int)) : List (List Int) :=
  (List.range cls.length).map
    (fun c => read_row (store_rows cls 0 (fun _ => 0)) c (cls.getD c []).length)

/-- The formula store built by `main` from the input clauses `cls`: the second pass
runs over the rows of the clause block. -/
def load_rows (V : Nat) (cls : List (List Int)) : Formula :=
  load_formula V (stored_rows cls)

/-- The state in which `main` calls `dfs(0)` on the input clauses `cls`: `rem[c]` is
`csizes[c]`, and the tallies were counted in the first pass from the literals as they
were read. -/
def init_rows (cls : List (List Int)) : State :=
  { init_state (stored_rows cls) with
    npos_app := (count_tallies cls (fun _ => 0, fun _ => 0)).1,
    nneg_app := (count_tallies cls (fun _ => 0, fun _ => 0)).2 }

/-- The input fits the arrays the loader allocates: no clause reaches past the end of
the clause block (`C * MAX_CLAUSE_SIZE` ints); the second pass, which runs over the rows
of the block, writes no more entries to `appearances[v]` than the `napps[v]` counted
from the literals read; and the sizes `C * MAX_CLAUSE_SIZE` and `V * C` that `main`
computes as `int` products stay below `2^31`. -/
def InputFits (V : Nat) (cls : List (List Int)) : Prop :=
  (∀ c : Nat, c < cls.length →
      c * MAX_CLAUSE_SIZE + (cls.getD c []).length ≤ cls.length * MAX_CLAUSE_SIZE)
  ∧ (∀ v : Nat, v < V → occurrence_count v (stored_rows cls) ≤ occurrence_count v cls)
  ∧ cls.length * MAX_CLAUSE_SIZE < 2 ^ 31
  ∧ V * cls.length < 2 ^ 31

/-- The clause list of an input with a clause of 1001 literals:
`p cnf 2 3`, the clause `1 1 ... 1 0` (1001 times `1`), then `-1 2 0` and `-1 -2 0`. -/
def long_clause_example : List (List Int) :=
  [List.replicate 1000 1 ++ [1], [-1, 2], [-1, -2]]

/-- The state `s` with the tally arrays replaced by `t`: what `dfs` finds when it reads
`npos_app` and `nneg_app`. -/
def see (t : (Int → Int) × (Int → Int)) (s : State) : State :=
  { s with npos_app := t.1, nneg_app := t.2 }

/-- The body of `dfs` once the variable `v` and the two values `ft` (`first_try`) and
`st` (`second_try`) are fixed; `next1` and `next2` are the calls `dfs(l+1)` made under
the first and under the second `try_value`. -/
def branch_on (F : Formula) (pf : Nat) (next1 next2 : State → Option (Bool × State))
    (v : Nat) (ft st : Int) (s : State) : Option (Bool × State) :=
  match try_value F pf next1 v ft (branch_entry v s) with
  | none => none
  | some (true, s2) => some (true, s2)
  | some (false, s2) =>
    if in_conflict_set s2 v then
      try_value F pf next2 v st (augment_conflict v s2)
    else some (false, s2)

/-- The function `dfs(l)` when the content of the tally arrays at each call is left
open.  In the program the writes of `modify_signed_appearances` at the index of the
literal land on other tally cells or outside the arrays, so what `dfs` reads from
`npos_app` and `nneg_app` depends on the layout of the allocations; `tv path s` gives
the two arrays as the call at position `path` of the call tree (`false` for a call
under a first `try_value`, `true` under a second one) finds them.  Nothing else reads
the tallies. -/
def dfs_seen (F : Formula) (pf : Nat) (tv : List Bool → State → (Int → Int) × (Int → Int)) :
    Nat → List Bool → Nat → State → Option (Bool × State)
  | 0, _, _, _ => none
  | fuel + 1, path, l, s =>
    if s.nunsat = 0 then some (true, s)
    else
      let v := most_constrained_var F (see (tv path s) s)
      if v = -1 then some (false, s)
      else
        branch_on F pf (dfs_seen F pf tv fuel (path ++ [false]) (l + 1))
          (dfs_seen F pf tv fuel (path ++ [true]) (l + 1)) v.toNat
          (first_try (see (tv path s) s) v.toNat) (second_try (see (tv path s) s) v.toNat) s

/-- The tallies as the embedding keeps them: the view under which `dfs_seen` is
`dfs`. -/
def own_tallies (_path : List Bool) (s : State) : (Int → Int) × (Int → Int) :=
  (s.npos_app, s.nneg_app)

/-- The run of `main` after parsing: the two passes of the loader, then `dfs(0)`; `tv`
gives the content of the tally arrays at each call of `dfs`. -/
def solve (V : Nat) (cls : List (List Int))
    (tv : List Bool → State → (Int → Int) × (Int → Int)) (pf fuel : Nat) :
    Option (Bool × State) :=
  dfs_seen (load_rows V cls) pf tv fuel [] 0 (init_rows cls)

/-- The `int` product `a * b` as the machine computes it: the product modulo `2^32`,
read as a 32-bit two's-complement number. -/
def int_mul (a b : Int) : Int := (a * b + 2 ^ 31) % 2 ^ 32 - 2 ^ 31

/-- The number of `int` cells behind `propagation_queue` after
`calloc(V*C, sizeof(int))`: the count is the `int` product `V*C`; a negative count,
converted to `size_t`, asks for more bytes than can be addressed, `calloc` returns the
null pointer and the queue has no cell. -/
def queue_cells (V C : Nat) : Nat := (int_mul V C).toNat

/-- The clause list of an input with `V = C = 46341`: `p cnf 46341 46341`, the clauses
`1 2 0` and `-1 3 0`, then 46339 empty clauses (`0`). -/
def wrap_example : List (List Int) := [[1, 2], [-1, 3]] ++ List.replicate 46339 []

/-! ## The conflict tracker -/

theorem mem_set_insert (a x : Nat) (l : List Nat) : x ∈ set_insert a l ↔ x = a ∨ x ∈ l := by
  induction l with
  | nil => simp [set_insert]
  | cons b rest ih =>
    unfold set_insert
    split_ifs with h1 h2
    · simp
    · subst h2; simp
    · simp only [List.mem_cons, ih]; tauto

theorem mem_conflict_insert_edge (v u0 : Nat) (s : State) (u w : Nat) :
    u ∈ (insert_edge v u0 s).conflict w ↔ (w = v ∧ u = u0) ∨ u ∈ s.conflict w := by
  unfold insert_edge
  by_cases h : w = v
  · subst h; simp [mem_set_insert]
  · simp [Function.update_noteq h, h]

theorem mem_in_conflict_insert_edge (v u0 : Nat) (s : State) (u w : Nat) :
    w ∈ (insert_edge v u0 s).in_conflict u ↔ (w = v ∧ u = u0) ∨ w ∈ s.in_conflict u := by
  unfold insert_edge
  by_cases h : u = u0
  · subst h; simp [mem_set_insert]
  · simp [Function.update_noteq h, h]

/-- Anything kept by every edge insert `w → v` with `w ≠ v` is kept by the inner
loop of `augment_conflict`. -/
theorem augment_inner_keeps (P : State → Prop) (v : Nat)
    (hE : ∀ s w, w ≠ v → P s → P (insert_edge v w s)) :
    ∀ (L : List Nat) (s : State), P s → P (augment_inner v L s) := by
  intro L
  induction L with
  | nil => intro s h; exact h
  | cons it rest ih =>
    intro s h
    unfold augment_inner
    split_ifs with hne
    · exact ih _ (hE s it hne h)
    · exact ih _ h

theorem augment_outer_keeps (P : State → Prop) (v : Nat)
    (hE : ∀ s w, w ≠ v → P s → P (insert_edge v w s)) :
    ∀ (L : List Nat) (s : State), P s → P (augment_outer v L s) := by
  intro L
  induction L with
  | nil => intro s h; exact h
  | cons o rest ih =>
    intro s h
    unfold augment_outer
    exact ih _ (augment_inner_keeps P v hE _ s h)

theorem backprop_loop_keeps (P : State → Prop) (v : Nat)
    (hE : ∀ s w, w ≠ v → P s → P (insert_edge v w s)) :
    ∀ (L : List Int) (s : State), P s → P (backprop_loop v L s) := by
  intro L
  induction L with
  | nil => intro s h; exact h
  | cons lit rest ih =>
    intro s h
    unfold backprop_loop
    split_ifs with hne
    · exact ih _ (hE s (varid lit) hne h)
    · exact ih _ h

theorem insert_edge_symmetric (v w : Nat) (s : State) (h : ConflictSymmetric s) :
    ConflictSymmetric (insert_edge v w s) := by
  intro a b
  rw [mem_conflict_insert_edge, mem_in_conflict_insert_edge, h a b]

theorem insert_edge_irreflexive (v w : Nat) (s : State) (hne : w ≠ v)
    (h : ConflictIrreflexive s) : ConflictIrreflexive (insert_edge v w s) := by
  intro a
  rw [mem_conflict_insert_edge, mem_in_conflict_insert_edge]
  have := h a
  constructor
  · rintro (⟨h1, h2⟩ | h3)
    · exact hne (h2.symm.trans h1)
    · exact this.1 h3
  · rintro (⟨h1, h2⟩ | h3)
    · exact hne (h2.symm.trans h1)
    · exact this.2 h3

/-! ## Frame facts: which components an operation leaves alone -/

theorem SameCore.core_refl (s : State) : SameCore s s := ⟨rfl, rfl, rfl, rfl⟩

theorem SameCore.core_trans {s t u : State} (h1 : SameCore s t) (h2 : SameCore t u) : SameCore s u :=
  ⟨h2.assn.trans h1.assn, h2.rem.trans h1.rem, h2.satisfier.trans h1.satisfier,
    h2.nunsat.trans h1.nunsat⟩

theorem SameCore.core_symm {s t : State} (h : SameCore s t) : SameCore t s :=
  ⟨h.assn.symm, h.rem.symm, h.satisfier.symm, h.nunsat.symm⟩

theorem SameTracker.tracker_refl (s : State) : SameTracker s s := ⟨rfl, rfl⟩

theorem SameTracker.tracker_trans {s t u : State} (h1 : SameTracker s t) (h2 : SameTracker t u) :
    SameTracker s u :=
  ⟨h2.conflict.trans h1.conflict, h2.in_conflict.trans h1.in_conflict⟩

theorem SameQueue.queue_refl (s : State) : SameQueue s s := ⟨rfl, rfl, rfl⟩

theorem SameQueue.queue_trans {s t u : State} (h1 : SameQueue s t) (h2 : SameQueue t u) :
    SameQueue s u :=
  ⟨h2.propagation_queue.trans h1.propagation_queue, h2.npropped.trans h1.npropped,
    h2.propping_clause.trans h1.propping_clause⟩

theorem SameTally.tally_refl (s : State) : SameTally s s := ⟨rfl, rfl⟩

theorem SameTally.tally_trans {s t u : State} (h1 : SameTally s t) (h2 : SameTally t u) :
    SameTally s u :=
  ⟨h2.npos_app.trans h1.npos_app, h2.nneg_app.trans h1.nneg_app⟩

/-- Everything outside the conflict tracker. -/
theorem tracker_only_refl (s : State) :
    SameCore s s ∧ SameQueue s s ∧ SameTally s s ∧ s.npropped_at = s.npropped_at :=
  ⟨SameCore.core_refl s, SameQueue.queue_refl s, SameTally.tally_refl s, rfl⟩

theorem insert_edge_frame (v w : Nat) (s : State) :
    SameCore s (insert_edge v w s) ∧ SameQueue s (insert_edge v w s)
      ∧ SameTally s (insert_edge v w s) ∧ (insert_edge v w s).npropped_at = s.npropped_at :=
  ⟨⟨rfl, rfl, rfl, rfl⟩, ⟨rfl, rfl, rfl⟩, ⟨rfl, rfl⟩, rfl⟩

theorem clear_conflict_frame (v : Nat) (s : State) :
    SameCore s (clear_conflict v s) ∧ SameQueue s (clear_conflict v s)
      ∧ SameTally s (clear_conflict v s) ∧ (clear_conflict v s).npropped_at = s.npropped_at :=
  ⟨⟨rfl, rfl, rfl, rfl⟩, ⟨rfl, rfl, rfl⟩, ⟨rfl, rfl⟩, rfl⟩

theorem augment_outer_frame (v : Nat) (L : List Nat) (s : State) :
    SameCore s (augment_outer v L s) ∧ SameQueue s (augment_outer v L s)
      ∧ SameTally s (augment_outer v L s) ∧ (augment_outer v L s).npropped_at = s.npropped_at := by
  refine augment_outer_keeps
    (fun t => SameCore s t ∧ SameQueue s t ∧ SameTally s t ∧ t.npropped_at = s.npropped_at) v
    ?_ L s (tracker_only_refl s)
  intro t w _ h
  obtain ⟨h1, h2, h3, h4⟩ := h
  obtain ⟨g1, g2, g3, g4⟩ := insert_edge_frame v w t
  exact ⟨h1.core_trans g1, h2.queue_trans g2, h3.tally_trans g3, g4.trans h4⟩

theorem augment_conflict_frame (v : Nat) (s : State) :
    SameCore s (augment_conflict v s) ∧ SameQueue s (augment_conflict v s)
      ∧ SameTally s (augment_conflict v s) ∧ (augment_conflict v s).npropped_at = s.npropped_at := by
  obtain ⟨h1, h2, h3, h4⟩ := augment_outer_frame v (s.in_conflict v) s
  exact ⟨⟨h1.assn, h1.rem, h1.satisfier, h1.nunsat⟩,
    ⟨h2.propagation_queue, h2.npropped, h2.propping_clause⟩, ⟨h3.npos_app, h3.nneg_app⟩, h4⟩

theorem backprop_loop_frame (v : Nat) (L : List Int) (s : State) :
    SameCore s (backprop_loop v L s) ∧ SameQueue s (backprop_loop v L s)
      ∧ SameTally s (backprop_loop v L s) ∧ (backprop_loop v L s).npropped_at = s.npropped_at := by
  refine backprop_loop_keeps
    (fun t => SameCore s t ∧ SameQueue s t ∧ SameTally s t ∧ t.npropped_at = s.npropped_at) v
    ?_ L s (tracker_only_refl s)
  intro t w _ h
  obtain ⟨h1, h2, h3, h4⟩ := h
  obtain ⟨g1, g2, g3, g4⟩ := insert_edge_frame v w t
  exact ⟨h1.core_trans g1, h2.queue_trans g2, h3.tally_trans g3, g4.trans h4⟩

theorem backprop_conflict_frame (F : Formula) (v c : Nat) (s : State) :
    SameCore s (backprop_conflict F v c s) ∧ SameQueue s (backprop_conflict F v c s)
      ∧ SameTally s (backprop_conflict F v c s)
      ∧ (backprop_conflict F v c s).npropped_at = s.npropped_at := by
  obtain ⟨h1, h2, h3, h4⟩ := backprop_loop_frame v (F.clauses c) s
  obtain ⟨g1, g2, g3, g4⟩ := augment_conflict_frame v (backprop_loop v (F.clauses c) s)
  exact ⟨h1.core_trans g1, h2.queue_trans g2, h3.tally_trans g3, g4.trans h4⟩

theorem augment_conflict_in_conflict_self (v : Nat) (s : State) :
    (augment_conflict v s).in_conflict v = [] := by
  simp [augment_conflict]

theorem backprop_conflict_in_conflict_self (F : Formula) (v c : Nat) (s : State) :
    (backprop_conflict F v c s).in_conflict v = [] :=
  augment_conflict_in_conflict_self v _

theorem modify_loop_frame (inc : Int) (L : List Int) (s : State) :
    SameCore s (modify_loop inc L s) ∧ SameQueue s (modify_loop inc L s)
      ∧ SameTracker s (modify_loop inc L s) ∧ (modify_loop inc L s).npropped_at = s.npropped_at := by
  induction L generalizing s with
  | nil => exact ⟨SameCore.core_refl s, SameQueue.queue_refl s, SameTracker.tracker_refl s, rfl⟩
  | cons lit rest ih =>
    unfold modify_loop
    split_ifs
    · obtain ⟨h1, h2, h3, h4⟩ := ih { s with nneg_app := Function.update s.nneg_app lit (s.nneg_app lit + inc) }
      exact ⟨⟨h1.assn, h1.rem, h1.satisfier, h1.nunsat⟩,
        ⟨h2.propagation_queue, h2.npropped, h2.propping_clause⟩,
        ⟨h3.conflict, h3.in_conflict⟩, h4⟩
    · obtain ⟨h1, h2, h3, h4⟩ := ih { s with npos_app := Function.update s.npos_app lit (s.npos_app lit + inc) }
      exact ⟨⟨h1.assn, h1.rem, h1.satisfier, h1.nunsat⟩,
        ⟨h2.propagation_queue, h2.npropped, h2.propping_clause⟩,
        ⟨h3.conflict, h3.in_conflict⟩, h4⟩

theorem mark_frame (F : Formula) (c : Nat) (s : State) :
    SameCore s (mark_signed_appearances F c s) ∧ SameQueue s (mark_signed_appearances F c s)
      ∧ SameTracker s (mark_signed_appearances F c s)
      ∧ (mark_signed_appearances F c s).npropped_at = s.npropped_at :=
  modify_loop_frame 1 (F.clauses c) s

theorem unmark_frame (F : Formula) (c : Nat) (s : State) :
    SameCore s (unmark_signed_appearances F c s) ∧ SameQueue s (unmark_signed_appearances F c s)
      ∧ SameTracker s (unmark_signed_appearances F c s)
      ∧ (unmark_signed_appearances F c s).npropped_at = s.npropped_at :=
  modify_loop_frame (-1) (F.clauses c) s

/-! ## Counting lemmas -/

theorem occ_count_nil (c : Nat) : occ_count [] c = 0 := by simp [occ_count]

theorem occ_count_cons (a : Int) (L : List Int) (c : Nat) :
    occ_count (a :: L) c = (if a.natAbs - 1 = c then 1 else 0) + occ_count L c := by
  unfold occ_count
  by_cases h : a.natAbs - 1 = c
  · simp [List.filter_cons, h]; ring
  · simp [List.filter_cons, h]

theorem occ_count_append (L M : List Int) (c : Nat) :
    occ_count (L ++ M) c = occ_count L c + occ_count M c := by
  simp [occ_count, List.filter_append]

theorem occ_count_nonneg (L : List Int) (c : Nat) : 0 ≤ occ_count L c := by
  simp [occ_count]

theorem agrees_nil (sign : Int) (c : Nat) : agrees [] sign c = false := by simp [agrees]

theorem agrees_cons (a : Int) (L : List Int) (sign : Int) (c : Nat) :
    agrees (a :: L) sign c = ((decide (a.natAbs - 1 = c) && decide (a * sign > 0)) || agrees L sign c) := by
  simp [agrees]

theorem agrees_append (L M : List Int) (sign : Int) (c : Nat) :
    agrees (L ++ M) sign c = (agrees L sign c || agrees M sign c) := by
  simp [agrees]

theorem agrees_eq_true_iff (L : List Int) (sign : Int) (c : Nat) :
    agrees L sign c = true ↔ ∃ a ∈ L, a.natAbs - 1 = c ∧ a * sign > 0 := by
  simp [agrees]

theorem agrees_false_of_occ_count_zero (L : List Int) (sign : Int) (c : Nat)
    (h : occ_count L c = 0) : agrees L sign c = false := by
  by_contra hne
  have ht : agrees L sign c = true := by simpa using hne
  obtain ⟨a, ha, hc, _⟩ := (agrees_eq_true_iff L sign c).1 ht
  have hmem : a ∈ L.filter (fun a => decide (a.natAbs - 1 = c)) := by
    simp [List.mem_filter, ha, hc]
  have hpos : 0 < (L.filter (fun a => decide (a.natAbs - 1 = c))).length :=
    List.length_pos_of_mem hmem
  unfold occ_count at h
  omega

theorem zero_count_succ (C : Nat) (sat : Nat → Int) :
    zero_count (C + 1) sat = zero_count C sat + (if sat C = 0 then 1 else 0) := by
  unfold zero_count
  rw [List.range_succ, List.filter_append]
  by_cases h : sat C = 0
  · simp [h]
  · simp [h]

theorem zero_count_update_of_le (C c : Nat) (x : Int) (sat : Nat → Int) (h : C ≤ c) :
    zero_count C (Function.update sat c x) = zero_count C sat := by
  induction C with
  | zero => simp [zero_count]
  | succ n ih =>
    rw [zero_count_succ, zero_count_succ, ih (by omega)]
    have : n ≠ c := by omega
    rw [Function.update_noteq this]

theorem zero_count_update_set (C c : Nat) (x : Int) (sat : Nat → Int) (hc : c < C)
    (h0 : sat c = 0) (hx : x ≠ 0) :
    zero_count C (Function.update sat c x) = zero_count C sat - 1 := by
  induction C with
  | zero => omega
  | succ n ih =>
    rw [zero_count_succ, zero_count_succ]
    by_cases hn : n = c
    · subst hn
      rw [zero_count_update_of_le n n x sat (le_refl n)]
      simp [h0, hx]
    · rw [ih (by omega), Function.update_noteq hn]
      ring

theorem zero_count_update_clear (C c : Nat) (sat : Nat → Int) (hc : c < C)
    (h0 : sat c ≠ 0) :
    zero_count C (Function.update sat c 0) = zero_count C sat + 1 := by
  induction C with
  | zero => omega
  | succ n ih =>
    rw [zero_count_succ, zero_count_succ]
    by_cases hn : n = c
    · subst hn
      rw [zero_count_update_of_le n n 0 sat (le_refl n)]
      simp [h0]
    · rw [ih (by omega), Function.update_noteq hn]
      ring

/-! ## The loops of `assign` and `unassign_upto`, clause by clause -/

theorem QueueGrows.grows_refl (s : State) : QueueGrows s s := ⟨le_refl _, fun _ _ => rfl⟩

theorem QueueGrows.grows_trans {s t u : State} (h1 : QueueGrows s t) (h2 : QueueGrows t u) :
    QueueGrows s u :=
  ⟨le_trans h1.le h2.le, fun j hj => (h2.old j (lt_of_lt_of_le hj h1.le)).trans (h1.old j hj)⟩

theorem SameQueue.grows {s t : State} (h : SameQueue s t) : QueueGrows s t :=
  ⟨le_of_eq h.npropped.symm, fun j _ => by rw [h.propagation_queue]⟩

theorem enqueue_loop_spec (c : Nat) (L : List Int) (s : State) :
    SameCore s (enqueue_loop c L s) ∧ SameTracker s (enqueue_loop c L s)
      ∧ SameTally s (enqueue_loop c L s)
      ∧ (enqueue_loop c L s).npropped_at = s.npropped_at
      ∧ QueueGrows s (enqueue_loop c L s)
      ∧ ∀ j : Nat, s.npropped ≤ j → j < (enqueue_loop c L s).npropped →
          (enqueue_loop c L s).propagation_queue j ∈ L
          ∧ s.assn (varid ((enqueue_loop c L s).propagation_queue j)) = 0 := by
  induction L with
  | nil =>
    refine ⟨SameCore.core_refl s, SameTracker.tracker_refl s, SameTally.tally_refl s, rfl, QueueGrows.grows_refl s, ?_⟩
    intro j h1 h2
    simp only [enqueue_loop] at h2
    omega
  | cons lit rest ih =>
    unfold enqueue_loop
    split_ifs with h0
    · refine ⟨⟨rfl, rfl, rfl, rfl⟩, ⟨rfl, rfl⟩, ⟨rfl, rfl⟩, rfl, ⟨?_, ?_⟩, ?_⟩
      · simp
      · intro j hj
        have : j ≠ s.npropped := by omega
        simp [Function.update_noteq this]
      · intro j h1 h2
        have hj : j = s.npropped := by simp at h2; omega
        subst hj
        simp [h0]
    · obtain ⟨h1, h2, h3, h4, h5, h6⟩ := ih
      refine ⟨h1, h2, h3, h4, h5, ?_⟩
      intro j hj1 hj2
      obtain ⟨g1, g2⟩ := h6 j hj1 hj2
      exact ⟨List.mem_cons_of_mem _ g1, g2⟩

theorem AssignEffect.assign_nil (F : Formula) (v : Nat) (sign : Int) (s : State) :
    AssignEffect F v sign [] s s := by
  refine ⟨rfl, ?_, ?_, rfl, rfl, SameTracker.tracker_refl s, QueueGrows.grows_refl s, ?_⟩
  · intro c; simp [occ_count_nil]
  · intro c; simp [agrees_nil]
  · intro j h1 h2; omega

theorem AssignEffect.assign_append {F : Formula} {v : Nat} {sign : Int} {L M : List Int}
    {s t u : State} (h1 : AssignEffect F v sign L s t) (h2 : AssignEffect F v sign M t u) :
    AssignEffect F v sign (L ++ M) s u := by
  have hv : (v : Int) + 1 ≠ 0 := by omega
  refine ⟨h2.assn.trans h1.assn, ?_, ?_, h2.nunsat.trans h1.nunsat,
    h2.npropped_at.trans h1.npropped_at, h1.tracker.tracker_trans h2.tracker,
    h1.grows.grows_trans h2.grows, ?_⟩
  · intro c
    rw [h2.rem c, h1.rem c, occ_count_append]; ring
  · intro c
    rw [h2.satisfier c, h1.satisfier c, agrees_append]
    by_cases hs : s.satisfier c = 0
    · by_cases hL : agrees L sign c = true
      · simp [hs, hL, hv]
      · have hL' : agrees L sign c = false := by simpa using hL
        simp [hs, hL']
    · simp [hs]
  · intro j hj1 hj2
    by_cases hj : j < t.npropped
    · obtain ⟨g1, c, g2, g3, g4⟩ := h1.fresh j hj1 hj
      have hq : u.propagation_queue j = t.propagation_queue j := h2.grows.old j hj
      rw [hq]
      refine ⟨g1, c, g2, ?_, ?_⟩
      · rw [h2.rem c]
        have := occ_count_nonneg M c
        omega
      · intro hu
        rw [h2.rem c] at hu
        have hn := occ_count_nonneg M c
        have hM : occ_count M c = 0 := by omega
        have ht : t.rem c = 1 := by omega
        rw [h2.satisfier c, agrees_false_of_occ_count_zero M sign c hM]
        simp [g4 ht]
    · obtain ⟨g1, g2⟩ := h2.fresh j (by omega) hj2
      rw [h1.assn] at g1
      exact ⟨g1, g2⟩

/-- One iteration of the loop of `assign` that does not return: the `rem`
decrement, the satisfier update of case A, the stamp, tracker and queue facts. -/
theorem AssignEffect.assign_single {F : Formula} {v : Nat} {sign : Int} {a : Int} {s t : State}
    (hc : a.natAbs - 1 < F.C)
    (hassn : t.assn = s.assn)
    (hrem : t.rem = Function.update s.rem (a.natAbs - 1) (s.rem (a.natAbs - 1) - 1))
    (hsat : t.satisfier = if a * sign > 0 ∧ s.satisfier (a.natAbs - 1) = 0
      then Function.update s.satisfier (a.natAbs - 1) ((v : Int) + 1) else s.satisfier)
    (hnun : t.nunsat = if a * sign > 0 ∧ s.satisfier (a.natAbs - 1) = 0
      then s.nunsat - 1 else s.nunsat)
    (hstamp : t.npropped_at = s.npropped_at)
    (htr : SameTracker s t)
    (hq : QueueGrows s t)
    (hfresh : ∀ j : Nat, s.npropped ≤ j → j < t.npropped →
      s.assn (varid (t.propagation_queue j)) = 0 ∧
      t.propagation_queue j ∈ F.clauses (a.natAbs - 1) ∧ t.rem (a.natAbs - 1) = 1 ∧
      t.satisfier (a.natAbs - 1) = 0) :
    AssignEffect F v sign [a] s t := by
  have hv : (v : Int) + 1 ≠ 0 := by omega
  refine ⟨hassn, ?_, ?_, ?_, hstamp, htr, hq, ?_⟩
  · intro c
    rw [hrem, occ_count_cons, occ_count_nil]
    by_cases h : a.natAbs - 1 = c
    · subst h; simp
    · simp [Function.update_noteq (Ne.symm h), h]
  · intro c
    rw [hsat, agrees_cons, agrees_nil]
    by_cases hpos : a * sign > 0
    · by_cases h : a.natAbs - 1 = c
      · subst h
        by_cases h0 : s.satisfier (a.natAbs - 1) = 0
        · simp [hpos, h0]
        · simp [hpos, h0]
      · by_cases h0 : s.satisfier (a.natAbs - 1) = 0
        · simp [hpos, h0, h, Function.update_noteq (Ne.symm h)]
        · simp [hpos, h0, h]
    · simp [hpos]
  · rw [hsat, hnun]
    by_cases hpos : a * sign > 0
    · by_cases h0 : s.satisfier (a.natAbs - 1) = 0
      · simp only [hpos, h0, and_self, if_true]
        rw [zero_count_update_set F.C _ _ _ hc h0 hv]
        ring
      · simp [hpos, h0]
    · simp [hpos]
  · intro j hj1 hj2
    obtain ⟨g1, g2, g3, g4⟩ := hfresh j hj1 hj2
    exact ⟨g1, a.natAbs - 1, g2, by omega, fun _ => g4⟩

theorem assign_own_tally_frame (v : Nat) (sign : Int) (s : State) :
    SameCore s (assign_own_tally v sign s) ∧ SameQueue s (assign_own_tally v sign s)
      ∧ SameTracker s (assign_own_tally v sign s)
      ∧ (assign_own_tally v sign s).npropped_at = s.npropped_at := by
  unfold assign_own_tally
  split_ifs <;> exact ⟨⟨rfl, rfl, rfl, rfl⟩, ⟨rfl, rfl, rfl⟩, ⟨rfl, rfl⟩, rfl⟩

theorem unassign_own_tally_frame (v : Nat) (sign : Int) (s : State) :
    SameCore s (unassign_own_tally v sign s) ∧ SameQueue s (unassign_own_tally v sign s)
      ∧ SameTracker s (unassign_own_tally v sign s)
      ∧ (unassign_own_tally v sign s).npropped_at = s.npropped_at := by
  unfold unassign_own_tally
  split_ifs <;> exact ⟨⟨rfl, rfl, rfl, rfl⟩, ⟨rfl, rfl, rfl⟩, ⟨rfl, rfl⟩, rfl⟩

theorem set_satisfier_frame (F : Formula) (v c : Nat) (s : State) :
    (set_satisfier F v c s).assn = s.assn ∧ (set_satisfier F v c s).rem = s.rem
      ∧ (set_satisfier F v c s).satisfier = Function.update s.satisfier c ((v : Int) + 1)
      ∧ (set_satisfier F v c s).nunsat = s.nunsat - 1
      ∧ SameQueue s (set_satisfier F v c s) ∧ SameTracker s (set_satisfier F v c s)
      ∧ (set_satisfier F v c s).npropped_at = s.npropped_at := by
  obtain ⟨h1, h2, h3, h4⟩ := mark_frame F c
    { s with satisfier := Function.update s.satisfier c ((v : Int) + 1), nunsat := s.nunsat - 1 }
  exact ⟨h1.assn, h1.rem, h1.satisfier, h1.nunsat,
    ⟨h2.propagation_queue, h2.npropped, h2.propping_clause⟩, ⟨h3.conflict, h3.in_conflict⟩, h4⟩

theorem clear_satisfier_frame (F : Formula) (c : Nat) (s : State) :
    (clear_satisfier F c s).assn = s.assn ∧ (clear_satisfier F c s).rem = s.rem
      ∧ (clear_satisfier F c s).satisfier = Function.update s.satisfier c 0
      ∧ (clear_satisfier F c s).nunsat = s.nunsat + 1
      ∧ SameQueue s (clear_satisfier F c s) ∧ SameTracker s (clear_satisfier F c s)
      ∧ (clear_satisfier F c s).npropped_at = s.npropped_at := by
  obtain ⟨h1, h2, h3, h4⟩ := unmark_frame F c
    { s with satisfier := Function.update s.satisfier c 0, nunsat := s.nunsat + 1 }
  exact ⟨h1.assn, h1.rem, h1.satisfier, h1.nunsat,
    ⟨h2.propagation_queue, h2.npropped, h2.propping_clause⟩, ⟨h3.conflict, h3.in_conflict⟩, h4⟩

theorem assign_step_a_sat {F : Formula} {v : Nat} {sign : Int} {a : Int} {s : State}
    (hc : a.natAbs - 1 < F.C) (hpos : a * sign > 0) (h0 : s.satisfier (a.natAbs - 1) = 0) :
    AssignEffect F v sign [a] s
      (set_satisfier F v (a.natAbs - 1) (rem_dec (a.natAbs - 1) s)) := by
  obtain ⟨h1, h2, h3, h4, h5, h6, h7⟩ :=
    set_satisfier_frame F v (a.natAbs - 1) (rem_dec (a.natAbs - 1) s)
  refine AssignEffect.assign_single hc h1 h2 ?_ ?_ h7 ⟨h6.conflict, h6.in_conflict⟩
    (SameQueue.grows ⟨h5.propagation_queue, h5.npropped, h5.propping_clause⟩) ?_
  · rw [h3]; simp [hpos, h0, rem_dec]
  · rw [h4]; simp [hpos, h0, rem_dec]
  · intro j hj1 hj2
    rw [h5.npropped] at hj2
    simp [rem_dec] at hj2
    omega

theorem assign_step_a_skip {F : Formula} {v : Nat} {sign : Int} {a : Int} {s : State}
    (hc : a.natAbs - 1 < F.C) (h0 : ¬ s.satisfier (a.natAbs - 1) = 0) :
    AssignEffect F v sign [a] s (rem_dec (a.natAbs - 1) s) := by
  refine AssignEffect.assign_single hc rfl rfl ?_ ?_ rfl ⟨rfl, rfl⟩ ⟨le_refl _, fun _ _ => rfl⟩ ?_
  · simp [h0, rem_dec]
  · simp [h0, rem_dec]
  · intro j hj1 hj2
    simp [rem_dec] at hj2
    omega

theorem assign_step_b_plain {F : Formula} {v : Nat} {sign : Int} {a : Int} {s : State}
    (hc : a.natAbs - 1 < F.C) (hpos : ¬ a * sign > 0) :
    AssignEffect F v sign [a] s
      (assign_own_tally v sign (rem_dec (a.natAbs - 1) s)) := by
  obtain ⟨h1, h2, h3, h4⟩ := assign_own_tally_frame v sign (rem_dec (a.natAbs - 1) s)
  refine AssignEffect.assign_single hc h1.assn h1.rem ?_ ?_ h4 ⟨h3.conflict, h3.in_conflict⟩
    (SameQueue.grows ⟨h2.propagation_queue, h2.npropped, h2.propping_clause⟩) ?_
  · rw [h1.satisfier]; simp [hpos, rem_dec]
  · rw [h1.nunsat]; simp [hpos, rem_dec]
  · intro j hj1 hj2
    rw [h2.npropped] at hj2
    simp [rem_dec] at hj2
    omega

theorem assign_step_b_unit {F : Formula} {v : Nat} {sign : Int} {a : Int} {s : State}
    (hc : a.natAbs - 1 < F.C) (hpos : ¬ a * sign > 0)
    (h0 : (assign_own_tally v sign (rem_dec (a.natAbs - 1) s)).satisfier (a.natAbs - 1) = 0)
    (h1 : (assign_own_tally v sign (rem_dec (a.natAbs - 1) s)).rem (a.natAbs - 1) = 1) :
    AssignEffect F v sign [a] s
      (enqueue_unit_propagation F (a.natAbs - 1)
        (assign_own_tally v sign (rem_dec (a.natAbs - 1) s))) := by
  obtain ⟨g1, g2, g3, g4⟩ := assign_own_tally_frame v sign (rem_dec (a.natAbs - 1) s)
  obtain ⟨e1, e2, e3, e4, e5, e6⟩ := enqueue_loop_spec (a.natAbs - 1) (F.clauses (a.natAbs - 1))
    (assign_own_tally v sign (rem_dec (a.natAbs - 1) s))
  unfold enqueue_unit_propagation
  refine AssignEffect.assign_single hc (e1.assn.trans g1.assn) (e1.rem.trans g1.rem) ?_ ?_
    (e4.trans g4) (SameTracker.tracker_trans ⟨g3.conflict, g3.in_conflict⟩ e2)
    (QueueGrows.grows_trans
      (SameQueue.grows ⟨g2.propagation_queue, g2.npropped, g2.propping_clause⟩) e5) ?_
  · rw [e1.satisfier, g1.satisfier]; simp [hpos, rem_dec]
  · rw [e1.nunsat, g1.nunsat]; simp [hpos, rem_dec]
  · intro j hj1 hj2
    have hj1' : (assign_own_tally v sign (rem_dec (a.natAbs - 1) s)).npropped ≤ j := by
      rw [g2.npropped]; exact hj1
    obtain ⟨m1, m2⟩ := e6 j hj1' hj2
    rw [g1.assn] at m2
    refine ⟨m2, m1, ?_, ?_⟩
    · rw [e1.rem]; exact h1
    · rw [e1.satisfier]; exact h0

theorem NoConflict.noconflict_nil (t : State) : NoConflict [] t := by
  intro c h
  rw [occ_count_nil] at h
  omega

theorem NoConflict.noconflict_append {F : Formula} {v : Nat} {sign : Int} {L M : List Int} {s t : State}
    (h1 : NoConflict L s) (he : AssignEffect F v sign M s t) (h2 : NoConflict M t) :
    NoConflict (L ++ M) t := by
  intro c hc
  rw [occ_count_append] at hc
  by_cases hM : 0 < occ_count M c
  · exact h2 c hM
  · have hn := occ_count_nonneg M c
    have hM0 : occ_count M c = 0 := by omega
    have hL : 0 < occ_count L c := by omega
    have hsat : t.satisfier c = s.satisfier c := by
      rw [he.satisfier c, agrees_false_of_occ_count_zero M sign c hM0]
      simp
    have hrem : t.rem c = s.rem c := by rw [he.rem c, hM0]; ring
    rw [hsat, hrem]
    exact h1 c hL

theorem NoConflict.noconflict_single {a : Int} {t : State}
    (h : t.satisfier (a.natAbs - 1) ≠ 0 ∨ t.rem (a.natAbs - 1) ≠ 0) : NoConflict [a] t := by
  intro c hc
  rw [occ_count_cons, occ_count_nil] at hc
  by_cases hac : a.natAbs - 1 = c
  · subst hac; exact h
  · simp [hac] at hc

theorem AssignLoopResult.cons {F : Formula} {v : Nat} {sign : Int} {a : Int} {rest : List Int}
    {i : Nat} {s s1 : State} {r : Bool × State}
    (hstep : AssignEffect F v sign [a] s s1)
    (hnc : s1.satisfier (a.natAbs - 1) ≠ 0 ∨ s1.rem (a.natAbs - 1) ≠ 0)
    (h : AssignLoopResult F v sign rest (i + 1) s1 r) :
    AssignLoopResult F v sign (a :: rest) i s r := by
  rcases h with ⟨hb, he, hn⟩ | ⟨hb, L1, b, L2, t, hL, hneg, he, hs, hr, hres⟩
  · left
    exact ⟨hb, hstep.assign_append he, (NoConflict.noconflict_single hnc).noconflict_append he hn⟩
  · right
    refine ⟨hb, a :: L1, b, L2, t, ?_, hneg, ?_, hs, hr, ?_⟩
    · simp [hL]
    · exact hstep.assign_append he
    · rw [hres]
      have : i + 1 + L1.length + 1 = i + (a :: L1).length + 1 := by simp; omega
      rw [this]

theorem assign_loop_spec (F : Formula) (v : Nat) (sign : Int) :
    ∀ (L : List Int) (i : Nat) (s : State), (∀ a ∈ L, a.natAbs - 1 < F.C) →
      AssignLoopResult F v sign L i s (assign_loop F v sign L i s) := by
  intro L
  induction L with
  | nil =>
    intro i s _
    left
    exact ⟨rfl, AssignEffect.assign_nil F v sign s, NoConflict.noconflict_nil s⟩
  | cons a rest ih =>
    intro i s hr
    have hc : a.natAbs - 1 < F.C := hr a (List.mem_cons_self _ _)
    have hrest : ∀ b ∈ rest, b.natAbs - 1 < F.C := fun b hb => hr b (List.mem_cons_of_mem _ hb)
    have hv : (v : Int) + 1 ≠ 0 := by omega
    rw [assign_loop]
    simp only []
    by_cases hpos : a * sign > 0
    · rw [if_pos hpos]
      by_cases h0 : (rem_dec (a.natAbs - 1) s).satisfier (a.natAbs - 1) = 0
      · rw [if_pos h0]
        refine AssignLoopResult.cons (assign_step_a_sat hc hpos h0) ?_ (ih _ _ hrest)
        left
        rw [(set_satisfier_frame F v (a.natAbs - 1) (rem_dec (a.natAbs - 1) s)).2.2.1]
        simpa using hv
      · rw [if_neg h0]
        exact AssignLoopResult.cons (assign_step_a_skip hc h0) (Or.inl h0) (ih _ _ hrest)
    · rw [if_neg hpos]
      by_cases h0 : (assign_own_tally v sign (rem_dec (a.natAbs - 1) s)).satisfier
          (a.natAbs - 1) = 0
      · rw [if_pos h0]
        by_cases hz : (assign_own_tally v sign (rem_dec (a.natAbs - 1) s)).rem (a.natAbs - 1) = 0
        · rw [if_pos hz]
          right
          refine ⟨rfl, [], a, rest, _, rfl, hpos, ?_, h0, hz, ?_⟩
          · exact assign_step_b_plain hc hpos
          · simp
        · rw [if_neg hz]
          by_cases h1 : (assign_own_tally v sign (rem_dec (a.natAbs - 1) s)).rem
              (a.natAbs - 1) = 1
          · rw [if_pos h1]
            refine AssignLoopResult.cons (assign_step_b_unit hc hpos h0 h1) ?_ (ih _ _ hrest)
            right
            unfold enqueue_unit_propagation
            rw [(enqueue_loop_spec (a.natAbs - 1) (F.clauses (a.natAbs - 1)) _).1.rem]
            exact hz
          · rw [if_neg h1]
            exact AssignLoopResult.cons (assign_step_b_plain hc hpos) (Or.inr hz) (ih _ _ hrest)
      · rw [if_neg h0]
        exact AssignLoopResult.cons (assign_step_b_plain hc hpos) (Or.inl h0) (ih _ _ hrest)

theorem UnassignEffect.unassign_nil (F : Formula) (v : Nat) (sign : Int) (t : State) :
    UnassignEffect F v sign [] t t := by
  refine ⟨rfl, ?_, ?_, rfl, rfl, SameTracker.tracker_refl t, SameQueue.queue_refl t⟩
  · intro c; simp [occ_count_nil]
  · intro c; simp [agrees_nil]

theorem UnassignEffect.unassign_append {F : Formula} {v : Nat} {sign : Int} {L M : List Int}
    {s t u : State} (h1 : UnassignEffect F v sign L s t) (h2 : UnassignEffect F v sign M t u) :
    UnassignEffect F v sign (L ++ M) s u := by
  have hv : (0 : Int) ≠ (v : Int) + 1 := by omega
  refine ⟨h2.assn.trans h1.assn, ?_, ?_, h2.nunsat.trans h1.nunsat,
    h2.npropped_at.trans h1.npropped_at, h1.tracker.tracker_trans h2.tracker,
    h1.queue.queue_trans h2.queue⟩
  · intro c
    rw [h2.rem c, h1.rem c, occ_count_append]; ring
  · intro c
    rw [h2.satisfier c, h1.satisfier c, agrees_append]
    by_cases hs : s.satisfier c = (v : Int) + 1
    · by_cases hL : agrees L sign c = true
      · simp [hs, hL, hv]
      · have hL' : agrees L sign c = false := by simpa using hL
        simp [hs, hL']
    · simp [hs]

theorem unassign_step_spec {F : Formula} {v : Nat} {sign : Int} {a : Int} {t : State}
    (hc : a.natAbs - 1 < F.C) :
    UnassignEffect F v sign [a] t (unassign_step F v sign a t) := by
  have hv : (v : Int) + 1 ≠ 0 := by omega
  unfold unassign_step
  simp only []
  by_cases hpos : a * sign > 0
  · rw [if_pos hpos]
    by_cases h0 : (rem_inc (a.natAbs - 1) t).satisfier (a.natAbs - 1) = (v : Int) + 1
    · rw [if_pos h0]
      obtain ⟨h1, h2, h3, h4, h5, h6, h7⟩ :=
        clear_satisfier_frame F (a.natAbs - 1) (rem_inc (a.natAbs - 1) t)
      have h0' : t.satisfier (a.natAbs - 1) = (v : Int) + 1 := h0
      refine ⟨h1, ?_, ?_, ?_, h7, ⟨h6.conflict, h6.in_conflict⟩,
        ⟨h5.propagation_queue, h5.npropped, h5.propping_clause⟩⟩
      · intro c
        rw [h2, occ_count_cons, occ_count_nil]
        by_cases h : a.natAbs - 1 = c
        · subst h; simp [rem_inc]
        · simp [rem_inc, Function.update_noteq (Ne.symm h), h]
      · intro c
        rw [h3, agrees_cons, agrees_nil]
        by_cases h : a.natAbs - 1 = c
        · subst h; simp [rem_inc, hpos, h0']
        · simp [rem_inc, Function.update_noteq (Ne.symm h), h]
      · rw [h3, h4]
        have hne : t.satisfier (a.natAbs - 1) ≠ 0 := by rw [h0']; exact hv
        have := zero_count_update_clear F.C (a.natAbs - 1) t.satisfier hc hne
        simp only [rem_inc]
        rw [this]; ring
    · rw [if_neg h0]
      have h0' : ¬ t.satisfier (a.natAbs - 1) = (v : Int) + 1 := h0
      refine ⟨rfl, ?_, ?_, rfl, rfl, ⟨rfl, rfl⟩, ⟨rfl, rfl, rfl⟩⟩
      · intro c
        rw [occ_count_cons, occ_count_nil]
        by_cases h : a.natAbs - 1 = c
        · subst h; simp [rem_inc]
        · simp [rem_inc, Function.update_noteq (Ne.symm h), h]
      · intro c
        rw [agrees_cons, agrees_nil]
        by_cases h : a.natAbs - 1 = c
        · subst h; simp [rem_inc, h0']
        · simp [rem_inc, h]
  · rw [if_neg hpos]
    obtain ⟨h1, h2, h3, h4⟩ := unassign_own_tally_frame v sign (rem_inc (a.natAbs - 1) t)
    refine ⟨h1.assn, ?_, ?_, ?_, h4, ⟨h3.conflict, h3.in_conflict⟩,
      ⟨h2.propagation_queue, h2.npropped, h2.propping_clause⟩⟩
    · intro c
      rw [h1.rem, occ_count_cons, occ_count_nil]
      by_cases h : a.natAbs - 1 = c
      · subst h; simp [rem_inc]
      · simp [rem_inc, Function.update_noteq (Ne.symm h), h]
    · intro c
      rw [h1.satisfier, agrees_cons, agrees_nil]
      simp [rem_inc, hpos]
    · rw [h1.satisfier, h1.nunsat]
      simp [rem_inc]

theorem unassign_loop_spec (F : Formula) (v : Nat) (sign : Int) :
    ∀ (L : List Int) (t : State), (∀ a ∈ L, a.natAbs - 1 < F.C) →
      UnassignEffect F v sign L t (unassign_loop F v sign L t) := by
  intro L
  induction L with
  | nil => intro t _; exact UnassignEffect.unassign_nil F v sign t
  | cons a rest ih =>
    intro t hr
    have hc : a.natAbs - 1 < F.C := hr a (List.mem_cons_self _ _)
    have hrest : ∀ b ∈ rest, b.natAbs - 1 < F.C := fun b hb => hr b (List.mem_cons_of_mem _ hb)
    rw [unassign_loop]
    exact (unassign_step_spec hc).unassign_append (ih _ hrest)

/-! ## Well-formed formulas: occurrence entries and literals -/

theorem app_enc_natAbs (c : Nat) (l : Int) : (app_enc c l).natAbs - 1 = c := by
  unfold app_enc
  split_ifs <;> omega

theorem app_enc_pos_iff (c : Nat) (l : Int) : 0 < app_enc c l ↔ ¬ l < 0 := by
  unfold app_enc
  split_ifs with h <;> constructor <;> intro h' <;> omega

theorem app_enc_mul_pos (c : Nat) (l : Int) (hl : l ≠ 0) (sign : Int) (hs : sign = 1 ∨ sign = -1) :
    app_enc c l * sign > 0 ↔ lit_sign l = sign := by
  unfold app_enc lit_sign
  rcases hs with hs | hs
  · subst hs
    rw [mul_one]
    split_ifs <;> constructor <;> intro h <;> first | omega | exact h.elim
  · subst hs
    rw [mul_neg, mul_one]
    split_ifs <;> constructor <;> intro h <;> first | omega | exact h.elim

theorem lit_sign_ne_zero (l : Int) : lit_sign l ≠ 0 := by
  unfold lit_sign
  split_ifs <;> omega

theorem lit_sign_cases (l : Int) : lit_sign l = 1 ∨ lit_sign l = -1 := by
  unfold lit_sign
  split_ifs <;> simp

theorem sign_of_cases (l : Int) : sign_of l = 1 ∨ sign_of l = -1 := by
  unfold sign_of
  split_ifs <;> simp

theorem sign_of_eq_lit_sign (l : Int) : sign_of l = lit_sign l := rfl

theorem WellFormed.entry {F : Formula} (h : WellFormed F) {v : Nat} {a : Int}
    (ha : a ∈ F.appearances v) :
    a.natAbs - 1 < F.C ∧ ∃ l ∈ F.clauses (a.natAbs - 1), varid l = v ∧ app_enc (a.natAbs - 1) l = a := by
  have hmem : a ∈ (F.appearances v).filter (fun b => decide (b.natAbs - 1 = a.natAbs - 1)) := by
    simp [List.mem_filter, ha]
  rw [h.agree v (a.natAbs - 1)] at hmem
  obtain ⟨l, hl, hal⟩ := List.mem_map.1 hmem
  have hl' := List.mem_filter.1 hl
  refine ⟨?_, l, hl'.1, by simpa using hl'.2, hal⟩
  by_contra hge
  have := h.range (a.natAbs - 1) (by omega)
  rw [this] at hl'
  simp at hl'

theorem WellFormed.in_range {F : Formula} (h : WellFormed F) (v : Nat) :
    ∀ a ∈ F.appearances v, a.natAbs - 1 < F.C :=
  fun _ ha => (h.entry ha).1

theorem WellFormed.take_in_range {F : Formula} (h : WellFormed F) (v n : Nat) :
    ∀ a ∈ (F.appearances v).take n, a.natAbs - 1 < F.C :=
  fun _ ha => (h.entry (List.mem_of_mem_take ha)).1

theorem WellFormed.literal {F : Formula} (h : WellFormed F) {c : Nat} {l : Int}
    (hl : l ∈ F.clauses c) : app_enc c l ∈ F.appearances (varid l) := by
  have hmem : app_enc c l ∈ ((F.clauses c).filter (fun m => decide (varid m = varid l))).map
      (app_enc c) :=
    List.mem_map.2 ⟨l, by simp [List.mem_filter, hl], rfl⟩
  rw [← h.agree (varid l) c] at hmem
  exact (List.mem_filter.1 hmem).1

theorem WellFormed.occ_count_eq {F : Formula} (h : WellFormed F) (v c : Nat) :
    occ_count (F.appearances v) c = var_count F v c := by
  unfold occ_count var_count
  rw [h.agree v c, List.length_map]

theorem WellFormed.agrees_iff {F : Formula} (h : WellFormed F) (v c : Nat) (sign : Int)
    (hs : sign = 1 ∨ sign = -1) :
    agrees (F.appearances v) sign c = true ↔
      ∃ l ∈ F.clauses c, varid l = v ∧ lit_sign l = sign := by
  rw [agrees_eq_true_iff]
  constructor
  · rintro ⟨a, ha, hc, hpos⟩
    obtain ⟨_, l, hl, hv, hal⟩ := h.entry ha
    rw [hc] at hl hal
    refine ⟨l, hl, hv, ?_⟩
    rw [← hal] at hpos
    exact (app_enc_mul_pos c l (h.nonzero c l hl) sign hs).1 hpos
  · rintro ⟨l, hl, hv, hsg⟩
    refine ⟨app_enc c l, ?_, app_enc_natAbs c l, ?_⟩
    · rw [← hv]; exact h.literal hl
    · exact (app_enc_mul_pos c l (h.nonzero c l hl) sign hs).2 hsg

theorem filter_unset_update_set (L : List Int) (assn : Nat → Int) (v : Nat) (x : Int)
    (h0 : assn v = 0) (hx : x ≠ 0) :
    ((L.filter (fun l => decide (Function.update assn v x (varid l) = 0))).length : Int)
      = ((L.filter (fun l => decide (assn (varid l) = 0))).length : Int)
        - ((L.filter (fun l => decide (varid l = v))).length : Int) := by
  induction L with
  | nil => simp
  | cons l rest ih =>
    by_cases hv : varid l = v
    · subst hv
      simp only [List.filter_cons, Function.update_same, hx, decide_False, h0, decide_True,
        if_true, List.length_cons, Bool.false_eq_true, if_false]
      push_cast
      rw [ih]; ring
    · by_cases h1 : assn (varid l) = 0
      · simp only [List.filter_cons, hv, Function.update_noteq hv, h1, decide_True, if_true,
          decide_False, List.length_cons, Bool.false_eq_true, if_false]
        push_cast
        rw [ih]; ring
      · simp only [List.filter_cons, hv, Function.update_noteq hv, h1, decide_False,
          Bool.false_eq_true, if_false]
        rw [ih]

theorem filter_unset_update_clear (L : List Int) (assn : Nat → Int) (v : Nat)
    (h0 : assn v ≠ 0) :
    ((L.filter (fun l => decide (Function.update assn v 0 (varid l) = 0))).length : Int)
      = ((L.filter (fun l => decide (assn (varid l) = 0))).length : Int)
        + ((L.filter (fun l => decide (varid l = v))).length : Int) := by
  induction L with
  | nil => simp
  | cons l rest ih =>
    by_cases hv : varid l = v
    · subst hv
      simp only [List.filter_cons, Function.update_same, h0, decide_False, decide_True,
        if_true, List.length_cons, Bool.false_eq_true, if_false]
      push_cast
      rw [ih]; ring
    · by_cases h1 : assn (varid l) = 0
      · simp only [List.filter_cons, hv, Function.update_noteq hv, h1, decide_True, if_true,
          decide_False, List.length_cons, Bool.false_eq_true, if_false]
        push_cast
        rw [ih]; ring
      · simp only [List.filter_cons, hv, Function.update_noteq hv, h1, decide_False,
          Bool.false_eq_true, if_false]
        rw [ih]

theorem unset_count_set {F : Formula} {s t : State} {v : Nat} {x : Int}
    (ht : t.assn = Function.update s.assn v x) (h0 : s.assn v = 0) (hx : x ≠ 0) (c : Nat) :
    unset_count F t c = unset_count F s c - var_count F v c := by
  unfold unset_count var_count
  rw [ht]
  exact filter_unset_update_set (F.clauses c) s.assn v x h0 hx

theorem unset_count_clear {F : Formula} {s t : State} {v : Nat}
    (ht : t.assn = Function.update s.assn v 0) (h0 : s.assn v ≠ 0) (c : Nat) :
    unset_count F t c = unset_count F s c + var_count F v c := by
  unfold unset_count var_count
  rw [ht]
  exact filter_unset_update_clear (F.clauses c) s.assn v h0

theorem unset_count_congr {F : Formula} {s t : State} (h : t.assn = s.assn) (c : Nat) :
    unset_count F t c = unset_count F s c := by
  unfold unset_count
  rw [h]

theorem unassign_upto_noop (F : Formula) (v : Nat) (sign : Int) (upto : Nat) (s : State)
    (h : s.assn v = 0) : unassign_upto F v sign upto s = s := by
  unfold unassign_upto
  rw [if_pos h]

theorem unassign_upto_spec {F : Formula} (hwf : WellFormed F) (v : Nat) (sign : Int)
    (upto : Nat) (s : State) (h : s.assn v ≠ 0) :
    UnassignEffect F v sign ((F.appearances v).take upto)
      { s with assn := Function.update s.assn v 0 } (unassign_upto F v sign upto s) := by
  unfold unassign_upto
  rw [if_neg h]
  exact unassign_loop_spec F v sign _ _ (hwf.take_in_range v upto)

theorem unassign_spec {F : Formula} (hwf : WellFormed F) (v : Nat) (sign : Int)
    (s : State) (h : s.assn v ≠ 0) :
    UnassignEffect F v sign (F.appearances v)
      { s with assn := Function.update s.assn v 0 } (unassign F v sign s) := by
  have := unassign_upto_spec hwf v sign (F.appearances v).length s h
  rw [List.take_length] at this
  exact this

theorem unassign_noop (F : Formula) (v : Nat) (sign : Int) (s : State)
    (h : s.assn v = 0) : unassign F v sign s = s :=
  unassign_upto_noop F v sign _ s h

theorem assign_noop (F : Formula) (v : Nat) (sign : Int) (s : State)
    (h : s.assn v ≠ 0) : assign F v sign s = (true, s) := by
  unfold assign
  rw [if_pos h]

theorem assign_spec {F : Formula} (hwf : WellFormed F) (v : Nat) (sign : Int)
    (s : State) (h : s.assn v = 0) :
    AssignLoopResult F v sign (F.appearances v) 0
      { s with assn := Function.update s.assn v sign } (assign F v sign s) := by
  unfold assign
  rw [if_neg (by simpa using h)]
  exact assign_loop_spec F v sign _ 0 _ (hwf.in_range v)

/-- A successful `assign` of an unset variable. -/
theorem assign_true {F : Formula} (hwf : WellFormed F) {v : Nat} {sign : Int}
    {s t : State} (h : s.assn v = 0) (hres : assign F v sign s = (true, t)) :
    AssignEffect F v sign (F.appearances v) { s with assn := Function.update s.assn v sign } t
      ∧ NoConflict (F.appearances v) t := by
  have := assign_spec hwf v sign s h
  rw [hres] at this
  rcases this with ⟨_, h1, h2⟩ | ⟨hb, _⟩
  · exact ⟨h1, h2⟩
  · simp at hb

/-- A failed `assign`: everything it did to `assn` and `rem` is rolled back, a
satisfier is left as it was or is cleared from `v+1` to `0`. -/
theorem assign_false {F : Formula} (hwf : WellFormed F) {v : Nat} {sign : Int}
    {s s' : State} (h : s.assn v = 0) (hsign : sign ≠ 0)
    (hres : assign F v sign s = (false, s')) :
    s'.assn = s.assn ∧ s'.rem = s.rem
      ∧ (∀ c : Nat, s'.satisfier c = s.satisfier c
          ∨ (s.satisfier c = (v : Int) + 1 ∧ s'.satisfier c = 0))
      ∧ s'.nunsat - zero_count F.C s'.satisfier = s.nunsat - zero_count F.C s.satisfier
      ∧ s'.npropped_at = s.npropped_at
      ∧ s'.in_conflict v = []
      ∧ QueueGrows s s'
      ∧ (∀ j : Nat, s.npropped ≤ j → j < s'.npropped →
          s.assn (varid (s'.propagation_queue j)) = 0
          ∧ varid (s'.propagation_queue j) ≠ v) := by
  have hspec := assign_spec hwf v sign s h
  rw [hres] at hspec
  rcases hspec with ⟨hb, _⟩ | ⟨_, L1, a, L2, t, hL, hneg, he, hs0, hr0, hres'⟩
  · simp at hb
  simp only [] at hres'
  obtain ⟨b1, b2, b3, b4⟩ := backprop_conflict_frame F v (a.natAbs - 1) t
  have htv : (backprop_conflict F v (a.natAbs - 1) t).assn v ≠ 0 := by
    rw [b1.assn, he.assn]; simpa using hsign
  have hu := unassign_upto_spec hwf v sign (0 + L1.length + 1)
    (backprop_conflict F v (a.natAbs - 1) t) htv
  rw [← hres'] at hu
  have htake : (F.appearances v).take (0 + L1.length + 1) = L1 ++ [a] := by
    rw [hL]
    have : L1 ++ a :: L2 = (L1 ++ [a]) ++ L2 := by simp
    rw [this]
    exact List.take_left' (by simp)
  rw [htake] at hu
  have hv : (v : Int) + 1 ≠ 0 := by omega
  refine ⟨?_, ?_, ?_, ?_, ?_, ?_, ?_, ?_⟩
  · rw [hu.assn]
    simp only []
    rw [b1.assn, he.assn]
    simp only []
    ext u
    by_cases huv : u = v
    · subst huv; simp [h]
    · simp [Function.update_noteq huv]
  · ext c
    rw [hu.rem c]
    simp only []
    rw [b1.rem, he.rem c]
    simp
  · intro c
    rw [hu.satisfier c]
    simp only []
    rw [b1.satisfier, he.satisfier c]
    simp only []
    by_cases hs : s.satisfier c = 0
    · by_cases hag : agrees (L1 ++ [a]) sign c = true
      · simp [hs, hag]
      · have hag' : agrees (L1 ++ [a]) sign c = false := by simpa using hag
        left
        simp [hs, hag', hv.symm]
    · by_cases hsv : s.satisfier c = (v : Int) + 1
      · by_cases hag : agrees (L1 ++ [a]) sign c = true
        · right; simp [hs, hsv, hag, hv]
        · have hag' : agrees (L1 ++ [a]) sign c = false := by simpa using hag
          left; simp [hs, hag']
      · left; simp [hs, hsv]
  · rw [hu.nunsat]
    simp only []
    rw [b1.satisfier, b1.nunsat, he.nunsat]
  · rw [hu.npropped_at]
    simp only []
    rw [b4, he.npropped_at]
  · rw [hu.tracker.in_conflict]
    exact backprop_conflict_in_conflict_self F v _ t
  · refine ⟨?_, ?_⟩
    · rw [hu.queue.npropped]
      simp only []
      rw [b2.npropped]
      exact he.grows.le
    · intro j hj
      rw [hu.queue.propagation_queue]
      simp only []
      rw [b2.propagation_queue]
      exact he.grows.old j hj
  · intro j hj1 hj2
    rw [hu.queue.npropped] at hj2
    simp only [] at hj2
    rw [b2.npropped] at hj2
    rw [hu.queue.propagation_queue]
    simp only []
    rw [b2.propagation_queue]
    have := (he.fresh j hj1 hj2).1
    simp only [] at this
    by_cases hx : varid (t.propagation_queue j) = v
    · rw [hx] at this
      simp at this
      exact absurd this hsign
    · rw [Function.update_noteq hx] at this
      exact ⟨this, hx⟩

/-! ## The invariant of the assignment state -/

theorem Inv.inv_congr {F : Formula} {s t : State} (h : SameCore s t) (hi : Inv F s) : Inv F t := by
  refine ⟨?_, ?_, ?_⟩
  · intro c
    rw [h.rem, unset_count_congr h.assn]
    exact hi.rem c
  · intro c hc
    rw [h.satisfier] at hc ⊢
    obtain ⟨l, hl, h1, h2⟩ := hi.sat c hc
    exact ⟨l, hl, h1, by rw [h.assn]; exact h2⟩
  · unfold NunsatAccurate
    rw [h.nunsat, h.satisfier]
    exact hi.nunsat

theorem Ext.ext_refl (s : State) : Ext s s :=
  ⟨fun _ _ => rfl, fun _ _ => rfl, fun _ h => Or.inl h⟩

theorem Ext.ext_congr {s t u : State} (h : SameCore t u) (he : Ext s t) : Ext s u := by
  refine ⟨?_, ?_, ?_⟩
  · intro x hx; rw [h.assn]; exact he.assn x hx
  · intro c hc; rw [h.satisfier]; exact he.sat_keep c hc
  · intro c hc; rw [h.satisfier]; exact he.sat_new c hc

/-- If `t` extends `s`, both satisfy the invariant and assign the same variables,
then the four core components are equal. -/
theorem Ext.same_core {F : Formula} {s t : State} (hs : Inv F s) (ht : Inv F t)
    (he : Ext s t) (ha : t.assn = s.assn) : SameCore s t := by
  have hsat : t.satisfier = s.satisfier := by
    ext c
    by_cases hc : s.satisfier c = 0
    · rcases he.sat_new c hc with h0 | ⟨u, hu, hu0⟩
      · rw [h0, hc]
      · have hne : t.satisfier c ≠ 0 := by rw [hu]; omega
        obtain ⟨l, _, h1, h2⟩ := ht.sat c hne
        have hul : u = varid l := by rw [hu] at h1; omega
        rw [ha, ← hul, hu0] at h2
        exact absurd h2.symm (lit_sign_ne_zero l)
    · exact he.sat_keep c hc
  refine ⟨ha, ?_, hsat, ?_⟩
  · ext c
    rw [ht.rem c, hs.rem c, unset_count_congr ha]
  · rw [ht.nunsat, hs.nunsat, hsat]

theorem satisfier_ne_of_unset {F : Formula} {s : State} (hs : SatisfierSound F s) {v : Nat}
    (h0 : s.assn v = 0) (c : Nat) : s.satisfier c ≠ (v : Int) + 1 := by
  intro h
  have hne : s.satisfier c ≠ 0 := by rw [h]; omega
  obtain ⟨l, _, h1, h2⟩ := hs c hne
  have : v = varid l := by rw [h] at h1; omega
  rw [← this, h0] at h2
  exact lit_sign_ne_zero l h2.symm

/-- A failed `assign` of an unset variable leaves `assn`, `rem`, `satisfier` and
`nunsat` as they were, when no satisfier names the variable. -/
theorem assign_false_core {F : Formula} (hwf : WellFormed F) {v : Nat} {sign : Int}
    {s s' : State} (hv : ∀ c : Nat, s.satisfier c ≠ (v : Int) + 1)
    (h : s.assn v = 0) (hsign : sign ≠ 0)
    (hres : assign F v sign s = (false, s')) : SameCore s s' := by
  obtain ⟨h1, h2, h3, h4, _⟩ := assign_false hwf h hsign hres
  have hsat : s'.satisfier = s.satisfier := by
    ext c
    rcases h3 c with h | ⟨h, _⟩
    · exact h
    · exact absurd h (hv c)
  refine ⟨h1, h2, hsat, ?_⟩
  rw [hsat] at h4
  omega

theorem assign_true_inv {F : Formula} (hwf : WellFormed F) {v : Nat} {sign : Int}
    {s t : State} (hi : Inv F s) (h : s.assn v = 0) (hsign : sign = 1 ∨ sign = -1)
    (hres : assign F v sign s = (true, t)) :
    Inv F t ∧ t.assn = Function.update s.assn v sign := by
  obtain ⟨he, _⟩ := assign_true hwf h hres
  have hassn : t.assn = Function.update s.assn v sign := he.assn
  have hs0 : sign ≠ 0 := by rcases hsign with h | h <;> rw [h] <;> decide
  refine ⟨⟨?_, ?_, ?_⟩, hassn⟩
  · intro c
    rw [he.rem c, unset_count_set hassn h hs0 c, hwf.occ_count_eq]
    simp only []
    rw [hi.rem c]
  · intro c hc
    rw [he.satisfier c] at hc ⊢
    simp only [] at hc ⊢
    by_cases hcond : s.satisfier c = 0 ∧ agrees (F.appearances v) sign c = true
    · rw [if_pos hcond]
      obtain ⟨l, hl, hlv, hls⟩ := (hwf.agrees_iff v c sign hsign).1 hcond.2
      refine ⟨l, hl, by rw [hlv], ?_⟩
      rw [hassn, hlv, Function.update_same, hls]
    · rw [if_neg hcond] at hc ⊢
      obtain ⟨l, hl, h1, h2⟩ := hi.sat c hc
      refine ⟨l, hl, h1, ?_⟩
      have hne : varid l ≠ v := by
        intro hlv
        rw [hlv, h] at h2
        exact lit_sign_ne_zero l h2.symm
      rw [hassn, Function.update_noteq hne]
      exact h2
  · have := he.nunsat
    simp only [] at this
    unfold NunsatAccurate
    have h2 := hi.nunsat
    unfold NunsatAccurate at h2
    omega

theorem assign_true_ext {F : Formula} (hwf : WellFormed F) {v : Nat} {sign : Int}
    {b s t : State} (hb : Ext b s) (hbv : b.assn v = 0) (h : s.assn v = 0)
    (hres : assign F v sign s = (true, t)) : Ext b t := by
  obtain ⟨he, _⟩ := assign_true hwf h hres
  refine ⟨?_, ?_, ?_⟩
  · intro u hu
    have hne : u ≠ v := by rintro rfl; exact hu hbv
    rw [he.assn]
    simp only []
    rw [Function.update_noteq hne]
    exact hb.assn u hu
  · intro c hc
    have h1 := hb.sat_keep c hc
    rw [he.satisfier c]
    simp only []
    have : s.satisfier c ≠ 0 := by rw [h1]; exact hc
    rw [if_neg (fun hh => this hh.1)]
    exact h1
  · intro c hc
    rw [he.satisfier c]
    simp only []
    rcases hb.sat_new c hc with h0 | ⟨u, hu, hu0⟩
    · by_cases hag : agrees (F.appearances v) sign c = true
      · right; exact ⟨v, by simp [h0, hag], hbv⟩
      · left; simp [h0, hag]
    · right
      have : s.satisfier c ≠ 0 := by rw [hu]; omega
      exact ⟨u, by rw [if_neg (fun hh => this hh.1)]; exact hu, hu0⟩

theorem unassign_inv {F : Formula} (hwf : WellFormed F) {v : Nat} {sign : Int}
    {s : State} (hi : Inv F s) (h : s.assn v = sign ∨ s.assn v = 0)
    (hsign : sign = 1 ∨ sign = -1) : Inv F (unassign F v sign s) := by
  by_cases h0 : s.assn v = 0
  · rw [unassign_noop F v sign s h0]; exact hi
  have hv : s.assn v = sign := by rcases h with h | h; exact h; exact absurd h h0
  have he := unassign_spec hwf v sign s h0
  have hassn : (unassign F v sign s).assn = Function.update s.assn v 0 := he.assn
  refine ⟨?_, ?_, ?_⟩
  · intro c
    rw [he.rem c, unset_count_clear hassn h0 c, hwf.occ_count_eq]
    simp only []
    rw [hi.rem c]
  · intro c hc
    rw [he.satisfier c] at hc ⊢
    simp only [] at hc ⊢
    by_cases hcond : s.satisfier c = (v : Int) + 1 ∧ agrees (F.appearances v) sign c = true
    · rw [if_pos hcond] at hc; exact absurd rfl hc
    · rw [if_neg hcond] at hc ⊢
      obtain ⟨l, hl, h1, h2⟩ := hi.sat c hc
      refine ⟨l, hl, h1, ?_⟩
      have hne : varid l ≠ v := by
        intro hlv
        apply hcond
        refine ⟨by rw [h1, hlv], ?_⟩
        exact (hwf.agrees_iff v c sign hsign).2 ⟨l, hl, hlv, by rw [← h2, hlv, hv]⟩
      rw [hassn, Function.update_noteq hne]
      exact h2
  · have := he.nunsat
    simp only [] at this
    unfold NunsatAccurate
    have h2 := hi.nunsat
    unfold NunsatAccurate at h2
    omega

theorem unassign_assn {F : Formula} (hwf : WellFormed F) (v : Nat) (sign : Int) (s : State) :
    (unassign F v sign s).assn = Function.update s.assn v 0 := by
  by_cases h0 : s.assn v = 0
  · rw [unassign_noop F v sign s h0]
    ext u
    by_cases hu : u = v
    · subst hu; simp [h0]
    · simp [Function.update_noteq hu]
  · exact (unassign_spec hwf v sign s h0).assn

theorem unassign_ext {F : Formula} (hwf : WellFormed F) {v : Nat} {sign : Int}
    {b s : State} (hb : Ext b s) (hbs : SatisfierSound F b) (hbv : b.assn v = 0) :
    Ext b (unassign F v sign s) := by
  by_cases h0 : s.assn v = 0
  · rw [unassign_noop F v sign s h0]; exact hb
  have he := unassign_spec hwf v sign s h0
  refine ⟨?_, ?_, ?_⟩
  · intro u hu
    have hne : u ≠ v := by rintro rfl; exact hu hbv
    rw [he.assn]
    simp only []
    rw [Function.update_noteq hne]
    exact hb.assn u hu
  · intro c hc
    have h1 := hb.sat_keep c hc
    rw [he.satisfier c]
    simp only []
    have : s.satisfier c ≠ (v : Int) + 1 := by
      rw [h1]; exact satisfier_ne_of_unset hbs hbv c
    rw [if_neg (fun hh => this hh.1)]
    exact h1
  · intro c hc
    rw [he.satisfier c]
    simp only []
    by_cases hcond : s.satisfier c = (v : Int) + 1 ∧ agrees (F.appearances v) sign c = true
    · left; rw [if_pos hcond]
    · rw [if_neg hcond]; exact hb.sat_new c hc

theorem unassign_frame {F : Formula} (hwf : WellFormed F) (v : Nat) (sign : Int) (s : State) :
    SameQueue s (unassign F v sign s) ∧ SameTracker s (unassign F v sign s)
      ∧ (unassign F v sign s).npropped_at = s.npropped_at := by
  by_cases h0 : s.assn v = 0
  · rw [unassign_noop F v sign s h0]
    exact ⟨SameQueue.queue_refl s, SameTracker.tracker_refl s, rfl⟩
  · have he := unassign_spec hwf v sign s h0
    exact ⟨⟨he.queue.propagation_queue, he.queue.npropped, he.queue.propping_clause⟩,
      ⟨he.tracker.conflict, he.tracker.in_conflict⟩, he.npropped_at⟩

/-! ## Unit clauses: the conflict that keeps the queue consistent -/

/-- In a clause with `rem[c] = 1` the unset literal is the only literal on an
unset variable. -/
theorem unit_clause_unset {F : Formula} {s : State} (hrem : RemAll F s) {c : Nat} {l : Int}
    (hl : l ∈ F.clauses c) (hu : s.assn (varid l) = 0) (hr : s.rem c = 1) :
    (F.clauses c).filter (fun m => decide (s.assn (varid m) = 0)) = [l] := by
  have hlen : ((F.clauses c).filter (fun m => decide (s.assn (varid m) = 0))).length = 1 := by
    have := hrem c
    unfold unset_count at this
    rw [hr] at this
    exact_mod_cast this.symm
  obtain ⟨a, ha⟩ := List.length_eq_one.1 hlen
  have hmem : l ∈ (F.clauses c).filter (fun m => decide (s.assn (varid m) = 0)) := by
    simp [List.mem_filter, hl, hu]
  rw [ha] at hmem ⊢
  simp at hmem
  rw [hmem]

theorem unit_clause_unique {F : Formula} {s : State} (hrem : RemAll F s) {c : Nat} {l m : Int}
    (hl : l ∈ F.clauses c) (hu : s.assn (varid l) = 0) (hr : s.rem c = 1)
    (hm : m ∈ F.clauses c) (hmu : s.assn (varid m) = 0) : m = l := by
  have h := unit_clause_unset hrem hl hu hr
  have hmem : m ∈ (F.clauses c).filter (fun m => decide (s.assn (varid m) = 0)) := by
    simp [List.mem_filter, hm, hmu]
  rw [h] at hmem
  simpa using hmem

theorem var_count_unit {F : Formula} {s : State} (hrem : RemAll F s) {c : Nat} {l : Int}
    (hl : l ∈ F.clauses c) (hu : s.assn (varid l) = 0) (hr : s.rem c = 1) (x : Nat)
    (hx : s.assn x = 0) :
    var_count F x c = if varid l = x then 1 else 0 := by
  have h := unit_clause_unset hrem hl hu hr
  have hfil : (F.clauses c).filter (fun m => decide (varid m = x))
      = ((F.clauses c).filter (fun m => decide (s.assn (varid m) = 0))).filter
          (fun m => decide (varid m = x)) := by
    rw [List.filter_filter]
    apply List.filter_congr
    intro m _
    by_cases hmx : varid m = x
    · simp [hmx, hx]
    · simp [hmx]
  unfold var_count
  rw [hfil, h]
  by_cases hlx : varid l = x
  · simp [hlx]
  · simp [hlx]

/-- The conflict: assigning to `x` the sign opposite to its literal in a unit
clause makes `assign` return false. -/
theorem assign_conflict {F : Formula} (hwf : WellFormed F) {x : Nat} {sign : Int} {s : State}
    (hrem : RemAll F s) (h0 : s.assn x = 0) (hsign : sign = 1 ∨ sign = -1)
    {c : Nat} {l : Int} (hl : l ∈ F.clauses c) (hlx : varid l = x) (hr : s.rem c = 1)
    (hs : s.satisfier c = 0) (hls : lit_sign l ≠ sign) :
    (assign F x sign s).1 = false := by
  by_contra hne
  have htrue : (assign F x sign s).1 = true := by simpa using hne
  have hres : assign F x sign s = (true, (assign F x sign s).2) := by
    rw [← htrue]
  obtain ⟨he, hnc⟩ := assign_true hwf h0 hres
  have hlu : s.assn (varid l) = 0 := by rw [hlx]; exact h0
  have hvc : var_count F x c = 1 := by
    rw [var_count_unit hrem hl hlu hr x h0]; simp [hlx]
  have hocc : occ_count (F.appearances x) c = 1 := by rw [hwf.occ_count_eq, hvc]
  have hag : agrees (F.appearances x) sign c = false := by
    by_contra hag
    have hag' : agrees (F.appearances x) sign c = true := by simpa using hag
    obtain ⟨m, hm, hmx, hms⟩ := (hwf.agrees_iff x c sign hsign).1 hag'
    have : m = l := unit_clause_unique hrem hl hlu hr hm (by rw [hmx]; exact h0)
    rw [this] at hms
    exact hls hms
  rcases hnc c (by rw [hocc]; decide) with h1 | h1
  · apply h1
    rw [he.satisfier c]
    simp [hs, hag]
  · apply h1
    rw [he.rem c, hocc]
    simp only []
    rw [hr]; ring

/-- A successful `assign` of `x` leaves a clause that is unit on another variable
untouched. -/
theorem assign_true_other_unit {F : Formula} (hwf : WellFormed F) {x : Nat} {sign : Int}
    {s t : State} (hrem : RemAll F s) (h0 : s.assn x = 0)
    (hres : assign F x sign s = (true, t))
    {c : Nat} {l : Int} (hl : l ∈ F.clauses c) (hlu : s.assn (varid l) = 0)
    (hlx : varid l ≠ x) (hr : s.rem c = 1) :
    t.rem c = s.rem c ∧ t.satisfier c = s.satisfier c := by
  obtain ⟨he, _⟩ := assign_true hwf h0 hres
  have hvc : var_count F x c = 0 := by
    rw [var_count_unit hrem hl hlu hr x h0]; simp [hlx]
  have hocc : occ_count (F.appearances x) c = 0 := by rw [hwf.occ_count_eq, hvc]
  refine ⟨?_, ?_⟩
  · rw [he.rem c, hocc]; simp
  · rw [he.satisfier c, agrees_false_of_occ_count_zero _ sign c hocc]
    simp

/-! ## Undoing unit propagations -/

theorem assn_eq_of_accounted {b s : State} (he : Ext b s)
    (hacc : ∀ u : Nat, s.assn u ≠ 0 → b.assn u ≠ 0) : s.assn = b.assn := by
  ext u
  by_cases hb : b.assn u = 0
  · by_contra hs
    exact hacc u (by rw [hb] at hs; exact hs) hb
  · exact he.assn u hb

theorem undo_loop_spec {F : Formula} (hwf : WellFormed F) {b : State} (hb : Inv F b)
    (low : Nat) :
    ∀ (k : Nat) (s : State), UndoReady F b low (low + k) s →
      SameCore b (undo_loop F low k s)
        ∧ (undo_loop F low k s).propagation_queue = s.propagation_queue
        ∧ (undo_loop F low k s).npropped_at = s.npropped_at := by
  intro k
  induction k with
  | zero =>
    intro s h
    refine ⟨?_, rfl, rfl⟩
    show SameCore b s
    apply Ext.same_core hb h.inv h.ext
    apply assn_eq_of_accounted h.ext
    intro u hu
    rcases h.accounted u hu with h1 | ⟨j, h1, h2, _⟩
    · exact h1
    · omega
  | succ k ih =>
    intro s h
    rw [undo_loop]
    obtain ⟨b1, b2, b3, b4⟩ := backprop_conflict_frame F (varid (s.propagation_queue (low + k)))
      (s.propping_clause (varid (s.propagation_queue (low + k)))) s
    obtain ⟨u1, u2, u3⟩ := unassign_frame hwf (varid (s.propagation_queue (low + k)))
      (sign_of (s.propagation_queue (low + k)))
      (backprop_conflict F (varid (s.propagation_queue (low + k)))
        (s.propping_clause (varid (s.propagation_queue (low + k)))) s)
    have hassn := unassign_assn hwf (varid (s.propagation_queue (low + k)))
      (sign_of (s.propagation_queue (low + k)))
      (backprop_conflict F (varid (s.propagation_queue (low + k)))
        (s.propping_clause (varid (s.propagation_queue (low + k)))) s)
    rw [b1.assn] at hassn
    have hq : (unassign F (varid (s.propagation_queue (low + k)))
        (sign_of (s.propagation_queue (low + k)))
        (backprop_conflict F (varid (s.propagation_queue (low + k)))
          (s.propping_clause (varid (s.propagation_queue (low + k)))) s)).propagation_queue
        = s.propagation_queue := by
      rw [u1.propagation_queue, b2.propagation_queue]
    obtain ⟨e1, e2⟩ := h.entries (low + k) (by omega) (by omega)
    have hready : UndoReady F b low (low + k)
        (unassign F (varid (s.propagation_queue (low + k)))
          (sign_of (s.propagation_queue (low + k)))
          (backprop_conflict F (varid (s.propagation_queue (low + k)))
            (s.propping_clause (varid (s.propagation_queue (low + k)))) s)) := by
      refine ⟨?_, ?_, ?_, ?_⟩
      · apply unassign_inv hwf (Inv.inv_congr b1 h.inv) _ (sign_of_cases _)
        rw [b1.assn]; exact e2
      · exact unassign_ext hwf (Ext.ext_congr b1 h.ext) hb.sat e1
      · intro j hj1 hj2
        rw [hq, hassn]
        obtain ⟨f1, f2⟩ := h.entries j hj1 (by omega)
        refine ⟨f1, ?_⟩
        by_cases hx : varid (s.propagation_queue j) = varid (s.propagation_queue (low + k))
        · right; rw [hx, Function.update_same]
        · rw [Function.update_noteq hx]; exact f2
      · intro u hu
        rw [hassn] at hu
        have hne : u ≠ varid (s.propagation_queue (low + k)) := by
          rintro rfl
          simp at hu
        rw [Function.update_noteq hne] at hu
        rcases h.accounted u hu with h1 | ⟨j, h1, h2, h3⟩
        · left; exact h1
        · right
          refine ⟨j, h1, ?_, by rw [hq]; exact h3⟩
          by_contra hge
          have : j = low + k := by omega
          rw [this] at h3
          exact hne h3.symm
    obtain ⟨r1, r2, r3⟩ := ih _ hready
    exact ⟨r1, r2.trans hq, r3.trans (u3.trans b4)⟩

theorem undo_unit_propagations_spec {F : Formula} (hwf : WellFormed F) {b : State}
    (hb : Inv F b) {low high : Nat} {s : State} (hle : low ≤ high)
    (h : UndoReady F b low high s) :
    SameCore b (undo_unit_propagations F low high s)
      ∧ (undo_unit_propagations F low high s).npropped = low
      ∧ (undo_unit_propagations F low high s).propagation_queue = s.propagation_queue
      ∧ (undo_unit_propagations F low high s).npropped_at = s.npropped_at := by
  have hk : low + (high - low) = high := by omega
  rw [← hk] at h
  obtain ⟨r1, r2, r3⟩ := undo_loop_spec hwf hb low (high - low) s h
  unfold undo_unit_propagations
  exact ⟨⟨r1.assn, r1.rem, r1.satisfier, r1.nunsat⟩, rfl, r2, r3⟩

/-! ## Draining the propagation queue -/

theorem Inv.unset_count_pos {F : Formula} {s : State} {c : Nat} {l : Int}
    (hl : l ∈ F.clauses c) (hu : s.assn (varid l) = 0) : 1 ≤ unset_count F s c := by
  unfold unset_count
  have hmem : l ∈ (F.clauses c).filter (fun m => decide (s.assn (varid m) = 0)) := by
    simp [List.mem_filter, hl, hu]
  have := List.length_pos_of_mem hmem
  omega

/-- One successful iteration of `do_unit_propagations` keeps the loop invariant. -/
theorem prop_step {F : Formula} (hwf : WellFormed F) {b : State} {p0 i : Nat} {s s2 : State}
    (h : PropReady F b p0 i s) (hi : i < s.npropped)
    (hA : assign F (varid (s.propagation_queue i)) (sign_of (s.propagation_queue i))
      (clear_conflict (varid (s.propagation_queue i)) s) = (true, s2)) :
    PropReady F b p0 (i + 1) s2 ∧ QueueGrows s s2 ∧ s2.npropped_at = s.npropped_at := by
  obtain ⟨c1, c2, c3, c4⟩ := clear_conflict_frame (varid (s.propagation_queue i)) s
  by_cases hx : s.assn (varid (s.propagation_queue i)) = 0
  · -- the variable is unset: a real assignment
    have hx' : (clear_conflict (varid (s.propagation_queue i)) s).assn
        (varid (s.propagation_queue i)) = 0 := hx
    obtain ⟨he, _⟩ := assign_true hwf hx' hA
    obtain ⟨hinv, hassn⟩ := assign_true_inv hwf (Inv.inv_congr c1 h.inv) hx' (sign_of_cases _) hA
    have hassn' : s2.assn = Function.update s.assn (varid (s.propagation_queue i))
        (sign_of (s.propagation_queue i)) := hassn
    have hbx : b.assn (varid (s.propagation_queue i)) = 0 := h.fresh i h.low hi
    have hgrow : QueueGrows s s2 := ⟨he.grows.le, he.grows.old⟩
    have hsg0 : sign_of (s.propagation_queue i) ≠ 0 := by
      rcases sign_of_cases (s.propagation_queue i) with h1 | h1 <;> rw [h1] <;> decide
    have hunset_b : ∀ u : Nat, s.assn u = 0 → b.assn u = 0 := by
      intro u hu
      by_contra hb
      rw [h.ext.assn u hb] at hu
      exact hb hu
    refine ⟨⟨hinv, assign_true_ext hwf (Ext.ext_congr c1 h.ext) hbx hx' hA, by have := h.low; omega,
      by have := hgrow.le; omega, ?_, ?_, ?_, ?_⟩, hgrow, he.npropped_at⟩
    · -- fresh
      intro j hj1 hj2
      by_cases hj : j < s.npropped
      · rw [hgrow.old j hj]; exact h.fresh j hj1 hj
      · obtain ⟨f1, _⟩ := he.fresh j (by show s.npropped ≤ j; omega) hj2
        have f1' : Function.update s.assn (varid (s.propagation_queue i))
            (sign_of (s.propagation_queue i)) (varid (s2.propagation_queue j)) = 0 := f1
        by_cases hjx : varid (s2.propagation_queue j) = varid (s.propagation_queue i)
        · rw [hjx, Function.update_same] at f1'
          exact absurd f1' hsg0
        · rw [Function.update_noteq hjx] at f1'
          exact hunset_b _ f1'
    · -- done
      intro j hj1 hj2
      have hjn : j < s.npropped := by omega
      rw [hgrow.old j hjn, hassn']
      by_cases hji : j = i
      · subst hji; rw [Function.update_same]
      · have hd := h.done j hj1 (by omega)
        have hne : varid (s.propagation_queue j) ≠ varid (s.propagation_queue i) := by
          intro heq
          rw [heq, hx] at hd
          rcases sign_of_cases (s.propagation_queue j) with h1 | h1 <;> rw [h1] at hd <;>
            exact absurd hd (by decide)
        rw [Function.update_noteq hne]; exact hd
    · -- pending
      intro j hj1 hj2
      by_cases hj : j < s.npropped
      · rw [hgrow.old j hj, hassn']
        rcases h.pending j (by omega) hj with hp | ⟨hp, c, hc1, hc2, hc3⟩
        · left
          have hne : varid (s.propagation_queue j) ≠ varid (s.propagation_queue i) := by
            intro heq
            rw [heq, hx] at hp
            rcases sign_of_cases (s.propagation_queue j) with h1 | h1 <;> rw [h1] at hp <;>
              exact absurd hp (by decide)
          rw [Function.update_noteq hne]; exact hp
        · by_cases hjx : varid (s.propagation_queue j) = varid (s.propagation_queue i)
          · left
            rw [hjx, Function.update_same]
            by_contra hsg
            have hconf := assign_conflict hwf (Inv.inv_congr c1 h.inv).rem hx'
              (sign_of_cases (s.propagation_queue i)) hc1 hjx
              (by rw [c1.rem]; exact hc2) (by rw [c1.satisfier]; exact hc3)
              (fun hh => hsg hh.symm)
            rw [hA] at hconf
            simp at hconf
          · right
            rw [Function.update_noteq hjx]
            refine ⟨hp, c, hc1, ?_, ?_⟩
            · have := (assign_true_other_unit hwf (Inv.inv_congr c1 h.inv).rem hx' hA hc1
                (by rw [c1.assn]; exact hp) hjx (by rw [c1.rem]; exact hc2)).1
              rw [this, c1.rem]; exact hc2
            · have := (assign_true_other_unit hwf (Inv.inv_congr c1 h.inv).rem hx' hA hc1
                (by rw [c1.assn]; exact hp) hjx (by rw [c1.rem]; exact hc2)).2
              rw [this, c1.satisfier]; exact hc3
      · obtain ⟨f1, c, f2, f3, f4⟩ := he.fresh j (by show s.npropped ≤ j; omega) hj2
        have f1' : s2.assn (varid (s2.propagation_queue j)) = 0 := by rw [hassn]; exact f1
        right
        refine ⟨f1', c, f2, ?_, ?_⟩
        · have := Inv.unset_count_pos (F := F) f2 f1'
          rw [← hinv.rem c] at this
          omega
        · apply f4
          have := Inv.unset_count_pos (F := F) f2 f1'
          rw [← hinv.rem c] at this
          omega
    · -- accounted
      intro u hu
      rw [hassn'] at hu
      by_cases hux : u = varid (s.propagation_queue i)
      · right
        exact ⟨i, h.low, by omega, by rw [hgrow.old i hi]; exact hux.symm⟩
      · rw [Function.update_noteq hux] at hu
        rcases h.accounted u hu with h1 | ⟨j, h1, h2, h3⟩
        · left; exact h1
        · right
          exact ⟨j, h1, by omega, by rw [hgrow.old j (by omega)]; exact h3⟩
  · -- the variable is already set: `assign` returns at once
    have hx' : (clear_conflict (varid (s.propagation_queue i)) s).assn
        (varid (s.propagation_queue i)) ≠ 0 := hx
    rw [assign_noop F _ _ _ hx'] at hA
    have hs2 : s2 = clear_conflict (varid (s.propagation_queue i)) s := by
      have := congrArg Prod.snd hA
      exact this.symm
    subst hs2
    have hgrow : QueueGrows s (clear_conflict (varid (s.propagation_queue i)) s) :=
      SameQueue.grows c2
    refine ⟨⟨Inv.inv_congr c1 h.inv, Ext.ext_congr c1 h.ext, by have := h.low; omega, by
      rw [c2.npropped]; omega, ?_, ?_, ?_, ?_⟩, hgrow, c4⟩
    · intro j hj1 hj2
      rw [c2.npropped] at hj2
      rw [c2.propagation_queue]; exact h.fresh j hj1 hj2
    · intro j hj1 hj2
      rw [c2.propagation_queue, c1.assn]
      by_cases hji : j = i
      · subst hji
        rcases h.pending j (le_refl _) hi with hp | ⟨hp, _⟩
        · exact hp
        · exact absurd hp hx
      · exact h.done j hj1 (by omega)
    · intro j hj1 hj2
      rw [c2.npropped] at hj2
      rw [c2.propagation_queue, c1.assn, c1.rem, c1.satisfier]
      exact h.pending j (by omega) hj2
    · intro u hu
      rw [c1.assn] at hu
      rw [c2.propagation_queue]
      rcases h.accounted u hu with h1 | ⟨j, h1, h2, h3⟩
      · left; exact h1
      · right; exact ⟨j, h1, by omega, h3⟩

/-- A failed iteration of `do_unit_propagations` leaves a state from which
`undo_unit_propagations(p0, i)` restores the base core. -/
theorem prop_fail {F : Formula} (hwf : WellFormed F) {b : State} {p0 i : Nat} {s s2 : State}
    (h : PropReady F b p0 i s) (hi : i < s.npropped)
    (hA : assign F (varid (s.propagation_queue i)) (sign_of (s.propagation_queue i))
      (clear_conflict (varid (s.propagation_queue i)) s) = (false, s2)) :
    UndoReady F b p0 i s2 ∧ QueueGrows s s2 ∧ s2.npropped_at = s.npropped_at := by
  obtain ⟨c1, c2, c3, c4⟩ := clear_conflict_frame (varid (s.propagation_queue i)) s
  have hx : (clear_conflict (varid (s.propagation_queue i)) s).assn
      (varid (s.propagation_queue i)) = 0 := by
    by_contra hne
    rw [assign_noop F _ _ _ hne] at hA
    simp at hA
  have hsg0 : sign_of (s.propagation_queue i) ≠ 0 := by
    rcases sign_of_cases (s.propagation_queue i) with h1 | h1 <;> rw [h1] <;> decide
  have hcore : SameCore (clear_conflict (varid (s.propagation_queue i)) s) s2 :=
    assign_false_core hwf
      (satisfier_ne_of_unset (Inv.inv_congr c1 h.inv).sat hx) hx hsg0 hA
  obtain ⟨_, _, _, _, f5, _, f7, _⟩ := assign_false hwf hx hsg0 hA
  have hcore' : SameCore s s2 := c1.core_trans hcore
  have hgrow : QueueGrows s s2 := (SameQueue.grows c2).grows_trans f7
  refine ⟨⟨Inv.inv_congr hcore' h.inv, Ext.ext_congr hcore' h.ext, ?_, ?_⟩, hgrow, f5.trans c4⟩
  · intro j hj1 hj2
    have hjn : j < s.npropped := by omega
    rw [hgrow.old j hjn, hcore'.assn]
    exact ⟨h.fresh j hj1 hjn, Or.inl (h.done j hj1 hj2)⟩
  · intro u hu
    rw [hcore'.assn] at hu
    rcases h.accounted u hu with h1 | ⟨j, h1, h2, h3⟩
    · left; exact h1
    · right
      exact ⟨j, h1, h2, by rw [hgrow.old j (by omega)]; exact h3⟩

/-- The contract of `do_unit_propagations(p0)`: on success the loop invariant holds
at the end of the queue; on failure the core of the base state is back and the
queue is cut at `p0`. -/
theorem do_unit_propagations_spec {F : Formula} (hwf : WellFormed F) {b : State}
    (hb : Inv F b) (p0 : Nat) :
    ∀ (fuel i : Nat) (s : State) (r : Bool × State), PropReady F b p0 i s →
      do_unit_propagations F p0 fuel i s = some r →
      (r.1 = true → PropReady F b p0 r.2.npropped r.2 ∧ QueueGrows s r.2
          ∧ r.2.npropped_at = s.npropped_at)
      ∧ (r.1 = false → SameCore b r.2 ∧ r.2.npropped = p0
          ∧ (∀ j : Nat, j < p0 → r.2.propagation_queue j = s.propagation_queue j)
          ∧ r.2.npropped_at = s.npropped_at) := by
  intro fuel
  induction fuel with
  | zero =>
    intro i s r _ hres
    simp [do_unit_propagations] at hres
  | succ fuel ih =>
    intro i s r h hres
    rw [do_unit_propagations] at hres
    by_cases hi : i < s.npropped
    · rw [if_pos hi] at hres
      dsimp only at hres
      cases hA : assign F (varid (s.propagation_queue i)) (sign_of (s.propagation_queue i))
          (clear_conflict (varid (s.propagation_queue i)) s) with
      | mk bA s2 =>
        rw [hA] at hres
        cases bA with
        | false =>
          simp only [Option.some.injEq] at hres
          subst hres
          obtain ⟨hready, hgrow, hstamp⟩ := prop_fail hwf h hi hA
          obtain ⟨u1, u2, u3, u4⟩ := undo_unit_propagations_spec hwf hb h.low hready
          refine ⟨fun hh => by simp at hh, fun _ => ⟨u1, u2, ?_, u4.trans hstamp⟩⟩
          intro j hj
          show (undo_unit_propagations F p0 i s2).propagation_queue j = s.propagation_queue j
          rw [u3]
          exact hgrow.old j (by have := h.low; omega)
        | true =>
          simp only [] at hres
          obtain ⟨hready, hgrow, hstamp⟩ := prop_step hwf h hi hA
          obtain ⟨r1, r2⟩ := ih (i + 1) s2 r hready hres
          refine ⟨fun hh => ?_, fun hh => ?_⟩
          · obtain ⟨q1, q2, q3⟩ := r1 hh
            exact ⟨q1, hgrow.grows_trans q2, q3.trans hstamp⟩
          · obtain ⟨q1, q2, q3, q4⟩ := r2 hh
            refine ⟨q1, q2, ?_, q4.trans hstamp⟩
            intro j hj
            rw [q3 j hj]
            exact hgrow.old j (by have := h.low; omega)
    · rw [if_neg hi] at hres
      simp only [Option.some.injEq] at hres
      subst hres
      refine ⟨fun _ => ⟨?_, QueueGrows.grows_refl s, rfl⟩, fun hh => by simp at hh⟩
      have : i = s.npropped := by have := h.high; omega
      rw [← this]
      exact h

/-! ## `try_value` and `dfs` -/

/-- The closing `unassign(v, sign)` of `try_value`: from a state whose core is the
one right after the successful `assign(v, sign)`, the core before it is back. -/
theorem unassign_after_assign {F : Formula} (hwf : WellFormed F) {v : Nat} {sign : Int}
    {s s1 u : State} (hinv : Inv F s) (hv : s.assn v = 0) (hsign : sign = 1 ∨ sign = -1)
    (hA : assign F v sign s = (true, s1)) (hu : SameCore s1 u) :
    SameCore s (unassign F v sign u) := by
  obtain ⟨hinv1, hassn1⟩ := assign_true_inv hwf hinv hv hsign hA
  have hext1 : Ext s s1 := assign_true_ext hwf (Ext.ext_refl s) hv hv hA
  have hinvu : Inv F u := Inv.inv_congr hu hinv1
  have hextu : Ext s u := Ext.ext_congr hu hext1
  have huv : u.assn v = sign := by rw [hu.assn, hassn1, Function.update_same]
  apply Ext.same_core hinv (unassign_inv hwf hinvu (Or.inl huv) hsign)
    (unassign_ext hwf hextu hinv.sat hv)
  rw [unassign_assn hwf, hu.assn, hassn1]
  ext w
  by_cases hw : w = v
  · subst hw; simp [hv]
  · simp [Function.update_noteq hw]

theorem try_value_spec {F : Formula} (hwf : WellFormed F) (pf : Nat)
    {dfs_next : State → Option (Bool × State)} (hnext : DfsSpec F dfs_next)
    {v : Nat} {sign : Int} {s : State} {r : Bool × State}
    (hinv : Inv F s) (hv : s.assn v = 0) (hstamp : s.npropped_at v = s.npropped)
    (hsign : sign = 1 ∨ sign = -1)
    (hres : try_value F pf dfs_next v sign s = some r) : TryPost F v s r := by
  have hs0 : sign ≠ 0 := by rcases hsign with h | h <;> rw [h] <;> decide
  unfold try_value at hres
  cases hA : assign F v sign s with
  | mk bA s1 =>
  rw [hA] at hres
  cases bA with
  | false =>
    simp only [Option.some.injEq] at hres
    subst hres
    have hcore := assign_false_core hwf (satisfier_ne_of_unset hinv.sat hv) hv hs0 hA
    obtain ⟨_, _, _, _, f5, f6, f7, f8⟩ := assign_false hwf hv hs0 hA
    refine ⟨fun hh => by simp at hh, fun _ => ⟨hcore, f7, ?_, ?_, Or.inl f6⟩⟩
    · intro j hj1 hj2
      show s1.assn (varid (s1.propagation_queue j)) = 0
      rw [hcore.assn]
      exact (f8 j hj1 hj2).1
    · intro u _
      show s1.npropped_at u = s.npropped_at u
      rw [f5]
  | true =>
    dsimp only at hres
    obtain ⟨he, _⟩ := assign_true hwf hv hA
    obtain ⟨hinv1, hassn1⟩ := assign_true_inv hwf hinv hv hsign hA
    have hstamp1 : s1.npropped_at = s.npropped_at := he.npropped_at
    have hgrow1 : QueueGrows s s1 := ⟨he.grows.le, he.grows.old⟩
    have hp0 : s1.npropped_at v = s.npropped := by rw [hstamp1, hstamp]
    rw [hp0] at hres
    have hready : PropReady F s1 s.npropped s.npropped s1 := by
      refine ⟨hinv1, Ext.ext_refl s1, le_refl _, hgrow1.le, ?_, ?_, ?_, ?_⟩
      · intro j hj1 hj2
        have := (he.fresh j hj1 hj2).1
        rw [hassn1]; exact this
      · intro j hj1 hj2; omega
      · intro j hj1 hj2
        obtain ⟨f1, c, f2, f3, f4⟩ := he.fresh j hj1 hj2
        have f1' : s1.assn (varid (s1.propagation_queue j)) = 0 := by rw [hassn1]; exact f1
        right
        have hpos := Inv.unset_count_pos (F := F) f2 f1'
        rw [← hinv1.rem c] at hpos
        exact ⟨f1', c, f2, by omega, f4 (by omega)⟩
      · intro u hu; left; exact hu
    cases hD : do_unit_propagations F s.npropped pf s.npropped s1 with
    | none => rw [hD] at hres; simp at hres
    | some rd =>
    obtain ⟨bD, s2⟩ := rd
    rw [hD] at hres
    obtain ⟨d1, d2⟩ := do_unit_propagations_spec hwf hinv1 s.npropped pf s.npropped s1
      (bD, s2) hready hD
    cases bD with
    | false =>
      simp only [Option.some.injEq] at hres
      subst hres
      obtain ⟨q1, q2, q3, q4⟩ := d2 rfl
      obtain ⟨u1, u2, u3⟩ := unassign_frame hwf v sign s2
      have hcore := unassign_after_assign hwf hinv hv hsign hA q1
      refine ⟨fun hh => by simp at hh, fun _ => ⟨hcore, ⟨?_, ?_⟩, ?_, ?_, Or.inr ?_⟩⟩
      · show s.npropped ≤ (unassign F v sign s2).npropped
        rw [u1.npropped, q2]
      · intro j hj
        show (unassign F v sign s2).propagation_queue j = s.propagation_queue j
        rw [u1.propagation_queue, q3 j hj]
        exact hgrow1.old j hj
      · intro j hj1 hj2
        have : (unassign F v sign s2).npropped = s.npropped := by rw [u1.npropped, q2]
        have hj2' : j < (unassign F v sign s2).npropped := hj2
        omega
      · intro u _
        show (unassign F v sign s2).npropped_at u = s.npropped_at u
        rw [u3, q4, hstamp1]
      · show (unassign F v sign s2).npropped = s.npropped
        rw [u1.npropped, q2]
    | true =>
      dsimp only at hres
      obtain ⟨p1, p2, p3⟩ := d1 rfl
      have p1' : PropReady F s1 s.npropped s2.npropped s2 := p1
      have p2' : QueueGrows s1 s2 := p2
      have p3' : s2.npropped_at = s1.npropped_at := p3
      cases hN : dfs_next s2 with
      | none => rw [hN] at hres; simp at hres
      | some rn =>
      obtain ⟨bN, s3⟩ := rn
      rw [hN] at hres
      obtain ⟨n1, n2⟩ := hnext s2 (bN, s3) p1'.inv hN
      cases bN with
      | true =>
        simp only [Option.some.injEq] at hres
        subst hres
        exact ⟨fun _ => n1 rfl, fun hh => by simp at hh⟩
      | false =>
        simp only [Option.some.injEq] at hres
        subst hres
        obtain ⟨m1, m2, m3, m4⟩ := n2 rfl
        have m1' : SameCore s2 s3 := m1
        have m2' : QueueGrows s2 s3 := m2
        have hv2 : s2.assn v ≠ 0 := by
          have h1 : s1.assn v = sign := by rw [hassn1, Function.update_same]
          rw [p1'.ext.assn v (by rw [h1]; exact hs0), h1]
          exact hs0
        have hst3 : s3.npropped_at v = s.npropped := by
          have := m4 v hv2
          rw [this, p3', hp0]
        have hunset1 : ∀ u : Nat, s3.assn u = 0 → s1.assn u = 0 := by
          intro u hu
          by_contra hne
          rw [m1'.assn, p1'.ext.assn u hne] at hu
          exact hne hu
        have hle3 : s.npropped ≤ s3.npropped := by
          have := p1'.low; have := m2'.le; omega
        have hready3 : UndoReady F s1 s.npropped s3.npropped s3 := by
          refine ⟨Inv.inv_congr m1' p1'.inv, Ext.ext_congr m1' p1'.ext, ?_, ?_⟩
          · intro j hj1 hj2
            by_cases hj : j < s2.npropped
            · rw [m2'.old j hj, m1'.assn]
              exact ⟨p1'.fresh j hj1 hj, Or.inl (p1'.done j hj1 hj)⟩
            · have := m3 j (by omega) hj2
              exact ⟨hunset1 _ this, Or.inr this⟩
          · intro u hu
            rw [m1'.assn] at hu
            rcases p1'.accounted u hu with h1 | ⟨j, h1, h2, h3⟩
            · left; exact h1
            · right
              exact ⟨j, h1, by have := m2'.le; omega, by rw [m2'.old j h2]; exact h3⟩
        rw [hst3]
        obtain ⟨w1, w2, w3, w4⟩ := undo_unit_propagations_spec hwf hinv1 hle3 hready3
        obtain ⟨u1, u2, u3⟩ := unassign_frame hwf v sign
          (undo_unit_propagations F s.npropped s3.npropped s3)
        have hcore := unassign_after_assign hwf hinv hv hsign hA w1
        refine ⟨fun hh => by simp at hh, fun _ => ⟨hcore, ⟨?_, ?_⟩, ?_, ?_, Or.inr ?_⟩⟩
        · show s.npropped ≤ (unassign F v sign _).npropped
          rw [u1.npropped, w2]
        · intro j hj
          show (unassign F v sign _).propagation_queue j = s.propagation_queue j
          rw [u1.propagation_queue, w3, m2'.old j (by have := p1'.low; omega),
            p2'.old j (by have := hgrow1.le; omega)]
          exact hgrow1.old j hj
        · intro j hj1 hj2
          have : (unassign F v sign
            (undo_unit_propagations F s.npropped s3.npropped s3)).npropped = s.npropped := by
            rw [u1.npropped, w2]
          have hj2' : j < (unassign F v sign
            (undo_unit_propagations F s.npropped s3.npropped s3)).npropped := hj2
          omega
        · intro u hu
          show (unassign F v sign _).npropped_at u = s.npropped_at u
          rw [u3, w4]
          have hu2 : s2.assn u ≠ 0 := by
            have h1 : s1.assn u ≠ 0 := by
              rw [hassn1]
              rcases hu with hu | hu
              · have hne : u ≠ v := by rintro rfl; exact hu hv
                rw [Function.update_noteq hne]; exact hu
              · rw [hu, Function.update_same]; exact hs0
            rw [p1'.ext.assn u h1]; exact h1
          rw [m4 u hu2, p3', hstamp1]
        · show (unassign F v sign _).npropped = s.npropped
          rw [u1.npropped, w2]

/-! ## Variable selection -/

/-- The loop invariant of `most_constrained_var` after `n` iterations: either no
unset variable with a positive tally sum was met and `(mapp, v) = (0, -1)`, or `v`
is the first unset variable that attains the largest (positive) sum so far. -/
theorem most_constrained_loop_spec (s : State) (n : Nat) :
    ((most_constrained_loop s n).2 = -1 ∧ (most_constrained_loop s n).1 = 0
        ∧ ∀ i : Nat, i < n → s.assn i = 0 → tally_sum s i ≤ 0)
    ∨ (∃ u : Nat, u < n ∧ (most_constrained_loop s n).2 = (u : Int) ∧ s.assn u = 0
        ∧ (most_constrained_loop s n).1 = tally_sum s u ∧ 0 < tally_sum s u
        ∧ (∀ i : Nat, i < n → s.assn i = 0 → tally_sum s i ≤ tally_sum s u)
        ∧ (∀ i : Nat, i < u → s.assn i = 0 → tally_sum s i < tally_sum s u)) := by
  induction n with
  | zero =>
    left
    refine ⟨rfl, rfl, ?_⟩
    intro i hi; omega
  | succ n ih =>
    rw [most_constrained_loop]
    by_cases ha : s.assn n ≠ 0
    · rw [if_pos ha]
      rcases ih with ⟨h1, h2, h3⟩ | ⟨u, h1, h2, h3, h4, h5, h6, h7⟩
      · left
        refine ⟨h1, h2, ?_⟩
        intro i hi hi0
        by_cases hin : i = n
        · subst hin; exact absurd hi0 ha
        · exact h3 i (by omega) hi0
      · right
        refine ⟨u, by omega, h2, h3, h4, h5, ?_, h7⟩
        intro i hi hi0
        by_cases hin : i = n
        · subst hin; exact absurd hi0 ha
        · exact h6 i (by omega) hi0
    · rw [if_neg ha]
      have ha0 : s.assn n = 0 := by simpa using ha
      by_cases hgt : s.npos_app n + s.nneg_app n > (most_constrained_loop s n).1
      · rw [if_pos hgt]
        have hgt' : tally_sum s n > (most_constrained_loop s n).1 := hgt
        right
        rcases ih with ⟨h1, h2, h3⟩ | ⟨u, h1, h2, h3, h4, h5, h6, h7⟩
        · refine ⟨n, by omega, rfl, ha0, rfl, by rw [h2] at hgt'; exact hgt', ?_, ?_⟩
          · intro i hi hi0
            by_cases hin : i = n
            · subst hin; exact le_refl _
            · have := h3 i (by omega) hi0
              rw [h2] at hgt'
              omega
          · intro i hi hi0
            have := h3 i hi hi0
            rw [h2] at hgt'
            omega
        · refine ⟨n, by omega, rfl, ha0, rfl, by rw [h4] at hgt'; omega, ?_, ?_⟩
          · intro i hi hi0
            by_cases hin : i = n
            · subst hin; exact le_refl _
            · have := h6 i (by omega) hi0
              rw [h4] at hgt'
              omega
          · intro i hi hi0
            have := h6 i hi hi0
            rw [h4] at hgt'
            omega
      · rw [if_neg hgt]
        have hle : tally_sum s n ≤ (most_constrained_loop s n).1 := by
          have : ¬ tally_sum s n > (most_constrained_loop s n).1 := hgt
          omega
        rcases ih with ⟨h1, h2, h3⟩ | ⟨u, h1, h2, h3, h4, h5, h6, h7⟩
        · left
          refine ⟨h1, h2, ?_⟩
          intro i hi hi0
          by_cases hin : i = n
          · subst hin; rw [h2] at hle; exact hle
          · exact h3 i (by omega) hi0
        · right
          refine ⟨u, by omega, h2, h3, h4, h5, ?_, h7⟩
          intro i hi hi0
          by_cases hin : i = n
          · subst hin; rw [h4] at hle; exact hle
          · exact h6 i (by omega) hi0

theorem most_constrained_var_unset (F : Formula) (s : State)
    (h : most_constrained_var F s ≠ -1) :
    s.assn (most_constrained_var F s).toNat = 0 ∧ (most_constrained_var F s).toNat < F.V := by
  unfold most_constrained_var at h ⊢
  rcases most_constrained_loop_spec s F.V with ⟨h1, _⟩ | ⟨u, h1, h2, h3, _⟩
  · exact absurd h1 h
  · rw [h2]
    simp only [Int.toNat_ofNat]
    exact ⟨h3, h1⟩

theorem in_conflict_set_true {s : State} {v : Nat} (h : in_conflict_set s v = true) :
    s.in_conflict v ≠ [] := by
  intro hnil
  unfold in_conflict_set at h
  rw [hnil] at h
  simp at h

/-- The body of `dfs` after the selection of an unset variable `v` meets the
contract of `dfs`, given that the recursive call does. -/
theorem dfs_branch_spec {F : Formula} (hwf : WellFormed F) (pf : Nat)
    {dfs_next : State → Option (Bool × State)} (hnext : DfsSpec F dfs_next)
    {v : Nat} {s : State} {r : Bool × State}
    (hinv : Inv F s) (hv : s.assn v = 0)
    (hres : dfs_branch F pf dfs_next v s = some r) : DfsPost F s r := by
  unfold dfs_branch at hres
  dsimp only at hres
  obtain ⟨c1, c2, c3, c4⟩ := clear_conflict_frame v
    { s with npropped_at := Function.update s.npropped_at v s.npropped }
  have hcore1 : SameCore s (clear_conflict v
      { s with npropped_at := Function.update s.npropped_at v s.npropped }) :=
    ⟨c1.assn, c1.rem, c1.satisfier, c1.nunsat⟩
  have hq1 : SameQueue s (clear_conflict v
      { s with npropped_at := Function.update s.npropped_at v s.npropped }) :=
    ⟨c2.propagation_queue, c2.npropped, c2.propping_clause⟩
  have hst1 : (clear_conflict v
      { s with npropped_at := Function.update s.npropped_at v s.npropped }).npropped_at
      = Function.update s.npropped_at v s.npropped := c4
  generalize hs1 : clear_conflict v
      { s with npropped_at := Function.update s.npropped_at v s.npropped } = s1 at *
  have hsgn : ∀ (p q : Int), (if p > q then (1 : Int) else -1) = 1
      ∨ (if p > q then (1 : Int) else -1) = -1 := by
    intro p q; split_ifs <;> simp
  have hsgn' : ∀ (p q : Int), (if p > q then (-1 : Int) else 1) = 1
      ∨ (if p > q then (-1 : Int) else 1) = -1 := by
    intro p q; split_ifs <;> simp
  have hstv : s1.npropped_at v = s1.npropped := by
    rw [hst1, Function.update_same, hq1.npropped]
  have hv1 : s1.assn v = 0 := by rw [hcore1.assn]; exact hv
  cases hT : try_value F pf dfs_next v (if s.npos_app v > s.nneg_app v then 1 else -1) s1 with
  | none => rw [hT] at hres; simp at hres
  | some rt =>
  obtain ⟨bT, s2⟩ := rt
  rw [hT] at hres
  obtain ⟨t1, t2⟩ := try_value_spec hwf pf hnext (Inv.inv_congr hcore1 hinv) hv1 hstv
    (hsgn _ _) hT
  cases bT with
  | true =>
    simp only [Option.some.injEq] at hres
    subst hres
    exact ⟨fun _ => t1 rfl, fun hh => by simp at hh⟩
  | false =>
    dsimp only at hres
    obtain ⟨m1, m2, m3, m4, m5⟩ := t2 rfl
    have m1' : SameCore s1 s2 := m1
    have m2' : QueueGrows s1 s2 := m2
    have hstamp2 : ∀ u : Nat, s.assn u ≠ 0 → s2.npropped_at u = s.npropped_at u := by
      intro u hu
      have hne : u ≠ v := by rintro rfl; exact hu hv
      have := m4 u (Or.inl (by rw [hcore1.assn]; exact hu))
      rw [this, hst1, Function.update_noteq hne]
    by_cases hc : in_conflict_set s2 v = true
    · rw [if_pos hc] at hres
      have hne := in_conflict_set_true hc
      have hnp : s2.npropped = s1.npropped := by
        rcases m5 with h | h
        · exact absurd h hne
        · exact h
      obtain ⟨a1, a2, a3, a4⟩ := augment_conflict_frame v s2
      have hcoreA : SameCore s (augment_conflict v s2) := (hcore1.core_trans m1').core_trans a1
      have hstA : (augment_conflict v s2).npropped_at v = (augment_conflict v s2).npropped := by
        rw [a4, a2.npropped, hnp]
        have := m4 v (Or.inr rfl)
        rw [this]; exact hstv
      have hvA : (augment_conflict v s2).assn v = 0 := by rw [hcoreA.assn]; exact hv
      obtain ⟨e1, e2⟩ := try_value_spec hwf pf hnext (Inv.inv_congr hcoreA hinv) hvA hstA
        (hsgn' _ _) hres
      refine ⟨e1, fun hh => ?_⟩
      obtain ⟨n1, n2, n3, n4, _⟩ := e2 hh
      have hgrowA : QueueGrows s (augment_conflict v s2) :=
        ((SameQueue.grows hq1).grows_trans m2').grows_trans (SameQueue.grows a2)
      refine ⟨hcoreA.core_trans n1, hgrowA.grows_trans n2, ?_, ?_⟩
      · intro j hj1 hj2
        apply n3 j _ hj2
        rw [a2.npropped, hnp, hq1.npropped]; exact hj1
      · intro u hu
        have := n4 u (Or.inl (by rw [hcoreA.assn]; exact hu))
        rw [this, a4]
        exact hstamp2 u hu
    · rw [if_neg hc] at hres
      simp only [Option.some.injEq] at hres
      subst hres
      refine ⟨fun hh => by simp at hh, fun _ => ⟨hcore1.core_trans m1',
        (SameQueue.grows hq1).grows_trans m2', ?_, hstamp2⟩⟩
      intro j hj1 hj2
      apply m3 j _ hj2
      rw [hq1.npropped]; exact hj1

/-- The contract of `dfs`, for every amount of fuel and every level. -/
theorem dfs_spec {F : Formula} (hwf : WellFormed F) (pf : Nat) :
    ∀ (fuel l : Nat), DfsSpec F (dfs F pf fuel l) := by
  intro fuel
  induction fuel with
  | zero =>
    intro l s r _ hres
    simp [dfs] at hres
  | succ fuel ih =>
    intro l s r hinv hres
    rw [dfs] at hres
    by_cases h0 : s.nunsat = 0
    · rw [if_pos h0] at hres
      simp only [Option.some.injEq] at hres
      subst hres
      exact ⟨fun _ => ⟨hinv, h0⟩, fun hh => by simp at hh⟩
    · rw [if_neg h0] at hres
      dsimp only at hres
      by_cases hm : most_constrained_var F s = -1
      · rw [if_pos hm] at hres
        simp only [Option.some.injEq] at hres
        subst hres
        exact ⟨fun hh => by simp at hh, fun _ => ⟨SameCore.core_refl s, QueueGrows.grows_refl s,
          fun j h1 h2 => by have h2' : j < s.npropped := h2; omega, fun _ _ => rfl⟩⟩
      · rw [if_neg hm] at hres
        exact dfs_branch_spec hwf pf (ih (l + 1)) hinv
          (most_constrained_var_unset F s hm).1 hres

/-! ## The loader builds a well-formed formula and a state that satisfies the invariant -/

theorem fill_clause_apply (i : Nat) (cl : List Int) (apps : Nat → List Int) (v : Nat) :
    fill_clause i cl apps v
      = apps v ++ (cl.filter (fun l => decide (varid l = v))).map (app_enc i) := by
  induction cl generalizing apps with
  | nil => simp [fill_clause]
  | cons lit rest ih =>
    rw [fill_clause, ih]
    by_cases h : varid lit = v
    · subst h
      simp [List.filter_cons]
    · simp [List.filter_cons, h, Function.update_noteq (Ne.symm h)]

theorem filter_map_app_enc (i c : Nat) (L : List Int) :
    (L.map (app_enc i)).filter (fun a => decide (a.natAbs - 1 = c))
      = if i = c then L.map (app_enc i) else [] := by
  induction L with
  | nil => simp
  | cons l rest ih =>
    rw [List.map_cons, List.filter_cons, ih, app_enc_natAbs]
    by_cases h : i = c
    · simp [h]
    · simp [h]

theorem getD_nil_of_le (cls : List (List Int)) (c : Nat) (h : cls.length ≤ c) :
    cls.getD c [] = [] := by
  induction cls generalizing c with
  | nil => rfl
  | cons cl rest ih =>
    cases c with
    | zero => simp at h
    | succ c =>
      rw [List.getD_cons_succ]
      exact ih c (by simpa using h)

theorem getD_mem_of_lt (cls : List (List Int)) (c : Nat) (h : c < cls.length) :
    cls.getD c [] ∈ cls := by
  induction cls generalizing c with
  | nil => simp at h
  | cons cl rest ih =>
    cases c with
    | zero => rw [List.getD_cons_zero]; exact List.mem_cons_self _ _
    | succ c =>
      rw [List.getD_cons_succ]
      exact List.mem_cons_of_mem _ (ih c (by simpa using h))

theorem exists_getD_of_mem (cls : List (List Int)) (cl : List Int) (h : cl ∈ cls) :
    ∃ c : Nat, c < cls.length ∧ cls.getD c [] = cl := by
  induction cls with
  | nil => simp at h
  | cons d rest ih =>
    rcases List.mem_cons.1 h with h1 | h1
    · exact ⟨0, by simp, by rw [List.getD_cons_zero, h1]⟩
    · obtain ⟨c, hc1, hc2⟩ := ih h1
      exact ⟨c + 1, by simpa using hc1, by rw [List.getD_cons_succ]; exact hc2⟩

theorem fill_appearances_filter (cls : List (List Int)) (i : Nat) (apps : Nat → List Int)
    (v c : Nat) :
    (fill_appearances cls i apps v).filter (fun a => decide (a.natAbs - 1 = c))
      = (apps v).filter (fun a => decide (a.natAbs - 1 = c))
        ++ (if i ≤ c then
            ((cls.getD (c - i) []).filter (fun l => decide (varid l = v))).map (app_enc c)
           else []) := by
  induction cls generalizing i apps with
  | nil =>
    simp [fill_appearances]
  | cons cl rest ih =>
    rw [fill_appearances, ih, fill_clause_apply, List.filter_append, filter_map_app_enc,
      List.append_assoc]
    congr 1
    by_cases h1 : i = c
    · subst h1
      simp
    · by_cases h2 : i + 1 ≤ c
      · have h3 : i ≤ c := by omega
        have h4 : c - i = (c - (i + 1)) + 1 := by omega
        rw [if_neg h1, if_pos h2, if_pos h3, h4, List.getD_cons_succ]
        simp
      · have h3 : ¬ i ≤ c := by omega
        rw [if_neg h1, if_neg h2, if_neg h3]
        simp

theorem load_formula_well_formed (V : Nat) (cls : List (List Int))
    (h : ∀ cl ∈ cls, ∀ l ∈ cl, l ≠ 0) : WellFormed (load_formula V cls) := by
  refine ⟨?_, ?_, ?_⟩
  · intro v c
    show (fill_appearances cls 0 (fun _ => []) v).filter (fun a => decide (a.natAbs - 1 = c))
      = ((cls.getD c []).filter (fun l => decide (varid l = v))).map (app_enc c)
    rw [fill_appearances_filter]
    simp
  · intro c hc
    exact getD_nil_of_le cls c hc
  · intro c l hl
    have hl' : l ∈ cls.getD c [] := hl
    by_cases hc : c < cls.length
    · exact h _ (getD_mem_of_lt cls c hc) l hl'
    · rw [getD_nil_of_le cls c (by omega)] at hl'
      simp at hl'

theorem zero_count_const (C : Nat) : zero_count C (fun _ => 0) = (C : Int) := by
  induction C with
  | zero => simp [zero_count]
  | succ n ih => rw [zero_count_succ, ih]; simp

theorem zero_count_eq_zero (C : Nat) (sat : Nat → Int) (h : zero_count C sat = 0) :
    ∀ c : Nat, c < C → sat c ≠ 0 := by
  induction C with
  | zero => intro c hc; omega
  | succ n ih =>
    rw [zero_count_succ] at h
    have hn : 0 ≤ zero_count n sat := by unfold zero_count; exact Int.natCast_nonneg _
    intro c hc
    by_cases hcn : c = n
    · subst hcn
      intro h0
      rw [if_pos h0] at h
      omega
    · have : zero_count n sat = 0 := by
        split_ifs at h <;> omega
      exact ih this c (by omega)

theorem init_state_inv (V : Nat) (cls : List (List Int)) :
    Inv (load_formula V cls) (init_state cls) := by
  refine ⟨?_, ?_, ?_⟩
  · intro c
    show ((cls.getD c []).length : Int)
      = (((cls.getD c []).filter (fun l => decide ((0 : Int) = 0))).length : Int)
    simp
  · intro c hc
    exact absurd rfl hc
  · show (cls.length : Int) = zero_count cls.length (fun _ => 0)
    rw [zero_count_const]

/-! ## C1: soundness of the SAT answer -/

theorem eval_clause_of_lit {s : State} {cl : List Int} {l : Int} (hl : l ∈ cl)
    (h : s.assn (varid l) = lit_sign l) : eval_clause (report s) cl = true := by
  unfold eval_clause
  rw [List.any_eq_true]
  refine ⟨l, hl, ?_⟩
  unfold lit_sign at h
  unfold report
  by_cases hp : l > 0
  · rw [if_pos hp] at h
    rw [if_pos hp, h]
    decide
  · rw [if_neg hp] at h
    rw [if_neg hp, h]
    decide

/-- On the unit-propagation chain `p cnf 3 3 / 1 0 / -1 2 0 / -2 3 0` the first
`assign(0, -1)` of `dfs(0)` fails and leaves `in_conflict[0]` empty. -/
theorem chain_first_assign_fails :
    (assign (load_formula 3 [[1], [-1, 2], [-2, 3]]) 0 (-1)
      (clear_conflict 0 { init_state [[1], [-1, 2], [-2, 3]] with
        npropped_at := Function.update (init_state [[1], [-1, 2], [-2, 3]]).npropped_at 0
          (init_state [[1], [-1, 2], [-2, 3]]).npropped })).1
      = false
    ∧ in_conflict_set (assign (load_formula 3 [[1], [-1, 2], [-2, 3]]) 0 (-1)
      (clear_conflict 0 { init_state [[1], [-1, 2], [-2, 3]] with
        npropped_at := Function.update (init_state [[1], [-1, 2], [-2, 3]]).npropped_at 0
          (init_state [[1], [-1, 2], [-2, 3]]).npropped })).2 0
      = false := by
  refine ⟨by decide!, by decide!⟩

/-- C2 (UNSAT soundness) fails on the code: on `p cnf 3 3 / 1 0 / -1 2 0 / -2 3 0`
(the unit-propagation chain of the specification) `dfs(0)` returns `false`, whatever
the fuel, although the assignment that sets the three variables to true satisfies
every clause; the same happens on `p cnf 2 2 / 1 0 / -1 2 0`. -/
theorem dfs_unsat_on_satisfiable (pf fuel : Nat) :
    (dfs (load_formula 3 [[1], [-1, 2], [-2, 3]]) pf (fuel + 1) 0
        (init_state [[1], [-1, 2], [-2, 3]])).map Prod.fst = some false
    ∧ (∀ cl ∈ [[1], [-1, 2], [-2, 3]], eval_clause (fun _ => true) cl = true)
    ∧ (dfs (load_formula 2 [[1], [-1, 2]]) 5 5 0
        (init_state [[1], [-1, 2]])).map Prod.fst = some false
    ∧ (∀ cl ∈ [[1], [-1, 2]], eval_clause (fun _ => true) cl = true) := by
  refine ⟨?_, by decide, by decide!, by decide⟩
  have h0 : ¬ (init_state [[1], [-1, 2], [-2, 3]]).nunsat = 0 := by decide!
  have hm : most_constrained_var (load_formula 3 [[1], [-1, 2], [-2, 3]])
      (init_state [[1], [-1, 2], [-2, 3]]) = 0 := by decide!
  have hne : ¬ most_constrained_var (load_formula 3 [[1], [-1, 2], [-2, 3]])
      (init_state [[1], [-1, 2], [-2, 3]]) = -1 := by rw [hm]; decide
  have hf : (if (init_state [[1], [-1, 2], [-2, 3]]).npos_app ((0 : Nat) : Int)
      > (init_state [[1], [-1, 2], [-2, 3]]).nneg_app ((0 : Nat) : Int) then (1 : Int) else -1)
      = -1 := by decide!
  obtain ⟨h1, h2⟩ := chain_first_assign_fails
  rw [dfs, if_neg h0]
  dsimp only
  rw [if_neg hne, hm]
  unfold dfs_branch try_value
  dsimp only
  rw [Int.toNat_zero, hf]
  cases hA : assign (load_formula 3 [[1], [-1, 2], [-2, 3]]) 0 (-1)
      (clear_conflict 0 { init_state [[1], [-1, 2], [-2, 3]] with
        npropped_at := Function.update (init_state [[1], [-1, 2], [-2, 3]]).npropped_at 0
          (init_state [[1], [-1, 2], [-2, 3]]).npropped }) with
  | mk b t =>
  rw [hA] at h1 h2
  dsimp only at h1 h2
  subst h1
  dsimp only
  rw [h2]
  rfl

/-- C6 (tally accuracy I4) fails on the code: for `p cnf 2 1 / 1 0` I4 holds in
the loader's state, `assign(0, +1)` succeeds and satisfies clause 0, yet
`npos_app[0]` stays 1 and `npos_app[1]` becomes 1 (the tally is indexed with the
literal and incremented), so I4 does not hold afterwards. -/
theorem tally_accuracy_broken_by_assign :
    TallyAccurate (load_formula 2 [[1]]) (init_state [[1]])
    ∧ (assign (load_formula 2 [[1]]) 0 1 (init_state [[1]])).1 = true
    ∧ (assign (load_formula 2 [[1]]) 0 1 (init_state [[1]])).2.satisfier 0 = 1
    ∧ (assign (load_formula 2 [[1]]) 0 1 (init_state [[1]])).2.npos_app 0 = 1
    ∧ (assign (load_formula 2 [[1]]) 0 1 (init_state [[1]])).2.npos_app 1 = 1
    ∧ ¬ TallyAccurate (load_formula 2 [[1]])
        (assign (load_formula 2 [[1]]) 0 1 (init_state [[1]])).2 := by
  refine ⟨?_, by decide!, by decide!, by decide!, by decide!, ?_⟩
  · unfold TallyAccurate; decide!
  · unfold TallyAccurate; decide!

/-! ## C10: most-constrained variable selection -/

/-- C10 as stated fails: in the loader's state of `p cnf 1 1 / 0` (one variable, one
empty clause) variable 0 is unset, yet `most_constrained_var` returns `-1` and
`dfs(0)` returns UNSAT at the selection step. -/
theorem most_constrained_var_minus_one_with_unset :
    most_constrained_var (load_formula 1 [[]]) (init_state [[]]) = -1
    ∧ (0 : Nat) < (load_formula 1 [[]]).V
    ∧ (init_state [[]]).assn 0 = 0
    ∧ (dfs (load_formula 1 [[]]) 5 5 0 (init_state [[]])).map Prod.fst = some false := by
  refine ⟨by decide!, by decide!, by decide!, by decide!⟩

/-- C10, amended.  `most_constrained_var` returns `-1` if and only if no unset
variable has a positive sum `npos_app[v] + nneg_app[v]`; otherwise it returns an
unset variable `v < V` whose sum is maximal among the unset variables and `v` is the
lowest index that attains the maximum.  When `nunsat ≠ 0` and the selection returns
`-1`, `dfs` returns UNSAT with the state untouched; so `dfs` returns UNSAT at the
selection step only when every unset variable has a sum `≤ 0`. -/
theorem most_constrained_var_spec (F : Formula) (s : State) :
    (most_constrained_var F s = -1 ↔
        ∀ i : Nat, i < F.V → s.assn i = 0 → tally_sum s i ≤ 0)
    ∧ (most_constrained_var F s ≠ -1 →
        ∃ v : Nat, most_constrained_var F s = (v : Int) ∧ v < F.V ∧ s.assn v = 0
          ∧ (∀ i : Nat, i < F.V → s.assn i = 0 → tally_sum s i ≤ tally_sum s v)
          ∧ (∀ i : Nat, i < v → s.assn i = 0 → tally_sum s i < tally_sum s v))
    ∧ (∀ pf fuel l : Nat, s.nunsat ≠ 0 → most_constrained_var F s = -1 →
        dfs F pf (fuel + 1) l s = some (false, s)) := by
  refine ⟨?_, ?_, ?_⟩
  · unfold most_constrained_var
    rcases most_constrained_loop_spec s F.V with ⟨h1, _, h3⟩ | ⟨u, h1, h2, h3, _, h5, _, _⟩
    · exact ⟨fun _ => h3, fun _ => h1⟩
    · constructor
      · intro h
        rw [h2] at h
        omega
      · intro h
        have := h u h1 h3
        omega
  · intro hne
    unfold most_constrained_var at hne ⊢
    rcases most_constrained_loop_spec s F.V with ⟨h1, _⟩ | ⟨u, h1, h2, h3, _, _, h6, h7⟩
    · exact absurd h1 hne
    · exact ⟨u, h2, h1, h3, h6, h7⟩
  · intro pf fuel l hn hm
    rw [dfs, if_neg hn]
    dsimp only
    rw [if_pos hm]

/-! ## C7: conflict symmetry -/

theorem init_state_symmetric (cls : List (List Int)) : ConflictSymmetric (init_state cls) := by
  intro u v
  simp [init_state]

/-- C7 as stated fails: from the symmetric state with the single edge `1 ∈ conflict[0]`,
`0 ∈ in_conflict[1]`, the clears of `dfs` / `do_unit_propagations` on variable 0 and
`augment_conflict(1)` (hence also `backprop_conflict(1, c)`) leave a state that is not
symmetric. -/
theorem conflict_symmetry_broken :
    ConflictSymmetric (insert_edge 0 1 (init_state []))
    ∧ ¬ ConflictSymmetric (clear_conflict 0 (insert_edge 0 1 (init_state [])))
    ∧ ¬ ConflictSymmetric (augment_conflict 1 (insert_edge 0 1 (init_state [])))
    ∧ ¬ ConflictSymmetric
        (backprop_conflict (load_formula 2 []) 1 0 (insert_edge 0 1 (init_state []))) := by
  refine ⟨insert_edge_symmetric 0 1 _ (init_state_symmetric []), ?_, ?_, ?_⟩
  · intro h
    have h1 := (h 1 0).2 (by decide!)
    revert h1
    decide!
  · intro h
    have h1 := (h 1 0).1 (by decide!)
    revert h1
    decide!
  · intro h
    have h1 := (h 1 0).1 (by decide!)
    revert h1
    decide!

theorem augment_outer_symmetric (v : Nat) (L : List Nat) (s : State)
    (h : ConflictSymmetric s) : ConflictSymmetric (augment_outer v L s) :=
  augment_outer_keeps ConflictSymmetric v
    (fun t w _ ht => insert_edge_symmetric v w t ht) L s h

theorem backprop_loop_symmetric (v : Nat) (L : List Int) (s : State)
    (h : ConflictSymmetric s) : ConflictSymmetric (backprop_loop v L s) :=
  backprop_loop_keeps ConflictSymmetric v
    (fun t w _ ht => insert_edge_symmetric v w t ht) L s h

theorem augment_conflict_half_symmetric (v : Nat) (s : State) (h : ConflictSymmetric s)
    (u w : Nat) :
    (w ∈ (augment_conflict v s).in_conflict u → u ∈ (augment_conflict v s).conflict w)
    ∧ (u ≠ v → (u ∈ (augment_conflict v s).conflict w
        ↔ w ∈ (augment_conflict v s).in_conflict u)) := by
  have hs := augment_outer_symmetric v (s.in_conflict v) s h
  unfold augment_conflict
  dsimp only
  by_cases huv : u = v
  · subst huv
    refine ⟨?_, fun hne => absurd rfl hne⟩
    intro hw
    simp at hw
  · rw [Function.update_noteq huv]
    exact ⟨(hs u w).2, fun _ => hs u w⟩

/-- C7, amended.  From a symmetric tracker state: every single edge insert keeps the
equivalence `u ∈ conflict[w] ⇔ w ∈ in_conflict[u]` for all pairs; after
`backprop_conflict(v, c)` and after `augment_conflict(v)` the implication
`w ∈ in_conflict[u] ⇒ u ∈ conflict[w]` holds for all pairs and the equivalence for
all pairs with `u ≠ v` (the final clear of `in_conflict[v]` drops the other
direction); after the clears of `conflict[v]` and `in_conflict[v]` done by `dfs` and
`do_unit_propagations` the equivalence holds for all pairs with `u ≠ v` and
`w ≠ v`. -/
theorem conflict_symmetry_kept_away_from_v (F : Formula) (s : State)
    (h : ConflictSymmetric s) (v c : Nat) :
    (∀ w : Nat, ConflictSymmetric (insert_edge v w s))
    ∧ (∀ u w : Nat,
        (w ∈ (backprop_conflict F v c s).in_conflict u
          → u ∈ (backprop_conflict F v c s).conflict w)
        ∧ (u ≠ v → (u ∈ (backprop_conflict F v c s).conflict w
          ↔ w ∈ (backprop_conflict F v c s).in_conflict u)))
    ∧ (∀ u w : Nat,
        (w ∈ (augment_conflict v s).in_conflict u → u ∈ (augment_conflict v s).conflict w)
        ∧ (u ≠ v → (u ∈ (augment_conflict v s).conflict w
          ↔ w ∈ (augment_conflict v s).in_conflict u)))
    ∧ (∀ u w : Nat, u ≠ v → w ≠ v →
        (u ∈ (clear_conflict v s).conflict w ↔ w ∈ (clear_conflict v s).in_conflict u)) := by
  refine ⟨fun w => insert_edge_symmetric v w s h, ?_, ?_, ?_⟩
  · intro u w
    exact augment_conflict_half_symmetric v _ (backprop_loop_symmetric v (F.clauses c) s h) u w
  · intro u w
    exact augment_conflict_half_symmetric v s h u w
  · intro u w hu hw
    unfold clear_conflict
    dsimp only
    rw [Function.update_noteq hw, Function.update_noteq hu]
    exact h u w

/-- Witness for C7 (amended): the state with the single edge `1 ∈ conflict[0]` is
symmetric; after `augment_conflict(1)` the pair `u = 0`, `w = 0` still satisfies the
equivalence. -/
theorem conflict_symmetry_kept_away_from_v_witness :
    ConflictSymmetric (insert_edge 0 1 (init_state []))
    ∧ ((0 : Nat) ∈ (augment_conflict 1 (insert_edge 0 1 (init_state []))).conflict 0
        ↔ (0 : Nat) ∈ (augment_conflict 1 (insert_edge 0 1 (init_state []))).in_conflict 0) :=
  ⟨insert_edge_symmetric 0 1 _ (init_state_symmetric []),
    ((conflict_symmetry_kept_away_from_v (load_formula 2 []) (insert_edge 0 1 (init_state []))
      (insert_edge_symmetric 0 1 _ (init_state_symmetric [])) 1 0).2.2.1 0 0).2 (by decide)⟩

/-! ## Properties of the tracker kept by the whole search -/

theorem augment_conflict_stable {P : State → Prop} (hP : TrackerStable P) (v : Nat)
    (s : State) (h : P s) : P (augment_conflict v s) := by
  unfold augment_conflict
  exact hP.consume _ v (augment_outer_keeps P v (fun t w hw ht => hP.edge t v w hw ht) _ s h)

theorem backprop_conflict_stable {P : State → Prop} (hP : TrackerStable P) (F : Formula)
    (v c : Nat) (s : State) (h : P s) : P (backprop_conflict F v c s) := by
  unfold backprop_conflict
  exact augment_conflict_stable hP v _
    (backprop_loop_keeps P v (fun t w hw ht => hP.edge t v w hw ht) _ s h)

theorem unassign_step_tracker (F : Formula) (v : Nat) (sign : Int) (a : Int) (t : State) :
    SameTracker t (unassign_step F v sign a t) := by
  unfold unassign_step
  dsimp only
  split_ifs
  · obtain ⟨_, _, _, _, _, h6, _⟩ := clear_satisfier_frame F (a.natAbs - 1)
      (rem_inc (a.natAbs - 1) t)
    exact ⟨h6.conflict, h6.in_conflict⟩
  · exact ⟨rfl, rfl⟩
  · obtain ⟨_, _, h3, _⟩ := unassign_own_tally_frame v sign (rem_inc (a.natAbs - 1) t)
    exact ⟨h3.conflict, h3.in_conflict⟩

theorem unassign_loop_tracker (F : Formula) (v : Nat) (sign : Int) (L : List Int) (t : State) :
    SameTracker t (unassign_loop F v sign L t) := by
  induction L generalizing t with
  | nil => exact SameTracker.tracker_refl t
  | cons a rest ih =>
    rw [unassign_loop]
    exact (unassign_step_tracker F v sign a t).tracker_trans (ih _)

theorem unassign_upto_tracker (F : Formula) (v : Nat) (sign : Int) (upto : Nat) (s : State) :
    SameTracker s (unassign_upto F v sign upto s) := by
  unfold unassign_upto
  split_ifs
  · exact SameTracker.tracker_refl s
  · have := unassign_loop_tracker F v sign ((F.appearances v).take upto)
      { s with assn := Function.update s.assn v 0 }
    exact ⟨this.conflict, this.in_conflict⟩

theorem unassign_tracker (F : Formula) (v : Nat) (sign : Int) (s : State) :
    SameTracker s (unassign F v sign s) :=
  unassign_upto_tracker F v sign _ s

theorem assign_loop_stable {P : State → Prop} (hP : TrackerStable P) (F : Formula) (v : Nat)
    (sign : Int) : ∀ (L : List Int) (i : Nat) (s : State), P s →
      P (assign_loop F v sign L i s).2 := by
  intro L
  induction L with
  | nil => intro i s h; exact h
  | cons a rest ih =>
    intro i s h
    rw [assign_loop]
    dsimp only
    have h1 : P (rem_dec (a.natAbs - 1) s) := hP.frame s _ ⟨rfl, rfl⟩ h
    have h2 : P (assign_own_tally v sign (rem_dec (a.natAbs - 1) s)) :=
      hP.frame _ _ (assign_own_tally_frame v sign _).2.2.1 h1
    split_ifs
    · apply ih
      exact hP.frame _ _ (set_satisfier_frame F v (a.natAbs - 1) _).2.2.2.2.2.1 h1
    · exact ih _ _ h1
    · exact hP.frame _ _ (unassign_upto_tracker F v sign _ _)
        (backprop_conflict_stable hP F v _ _ h2)
    · apply ih
      unfold enqueue_unit_propagation
      exact hP.frame _ _ (enqueue_loop_spec _ _ _).2.1 h2
    · exact ih _ _ h2
    · exact ih _ _ h2

theorem assign_stable {P : State → Prop} (hP : TrackerStable P) (F : Formula) (v : Nat)
    (sign : Int) (s : State) (h : P s) : P (assign F v sign s).2 := by
  unfold assign
  split_ifs
  · exact h
  · exact assign_loop_stable hP F v sign _ 0 _ (hP.frame s _ ⟨rfl, rfl⟩ h)

theorem undo_loop_stable {P : State → Prop} (hP : TrackerStable P) (F : Formula) (low : Nat) :
    ∀ (k : Nat) (s : State), P s → P (undo_loop F low k s) := by
  intro k
  induction k with
  | zero => intro s h; exact h
  | succ k ih =>
    intro s h
    rw [undo_loop]
    apply ih
    exact hP.frame _ _ (unassign_tracker F _ _ _) (backprop_conflict_stable hP F _ _ s h)

theorem undo_unit_propagations_stable {P : State → Prop} (hP : TrackerStable P) (F : Formula)
    (low high : Nat) (s : State) (h : P s) : P (undo_unit_propagations F low high s) := by
  exact hP.frame (undo_loop F low (high - low) s) (undo_unit_propagations F low high s)
    ⟨rfl, rfl⟩ (undo_loop_stable hP F low _ s h)

theorem do_unit_propagations_stable {P : State → Prop} (hP : TrackerStable P) (F : Formula)
    (frm : Nat) : ∀ (fuel i : Nat) (s : State) (r : Bool × State), P s →
      do_unit_propagations F frm fuel i s = some r → P r.2 := by
  intro fuel
  induction fuel with
  | zero => intro i s r _ hres; simp [do_unit_propagations] at hres
  | succ fuel ih =>
    intro i s r h hres
    rw [do_unit_propagations] at hres
    by_cases hi : i < s.npropped
    · rw [if_pos hi] at hres
      dsimp only at hres
      have hA := assign_stable hP F (varid (s.propagation_queue i))
        (sign_of (s.propagation_queue i)) _ (hP.clear s (varid (s.propagation_queue i)) h)
      cases hE : assign F (varid (s.propagation_queue i)) (sign_of (s.propagation_queue i))
          (clear_conflict (varid (s.propagation_queue i)) s) with
      | mk bA s2 =>
        rw [hE] at hres hA
        cases bA with
        | false =>
          simp only [Option.some.injEq] at hres
          subst hres
          exact undo_unit_propagations_stable hP F frm i s2 hA
        | true => exact ih (i + 1) s2 r hA hres
    · rw [if_neg hi] at hres
      simp only [Option.some.injEq] at hres
      subst hres
      exact h

theorem try_value_stable {P : State → Prop} (hP : TrackerStable P) (F : Formula) (pf : Nat)
    {dfs_next : State → Option (Bool × State)}
    (hnext : ∀ (s : State) (r : Bool × State), P s → dfs_next s = some r → P r.2)
    (v : Nat) (sign : Int) (s : State) (r : Bool × State) (h : P s)
    (hres : try_value F pf dfs_next v sign s = some r) : P r.2 := by
  unfold try_value at hres
  have hA := assign_stable hP F v sign s h
  cases hE : assign F v sign s with
  | mk bA s1 =>
  rw [hE] at hres hA
  cases bA with
  | false =>
    simp only [Option.some.injEq] at hres
    subst hres
    exact hA
  | true =>
    dsimp only at hres
    cases hD : do_unit_propagations F (s1.npropped_at v) pf (s1.npropped_at v) s1 with
    | none => rw [hD] at hres; simp at hres
    | some rd =>
    obtain ⟨bD, s2⟩ := rd
    rw [hD] at hres
    have h2 : P s2 := do_unit_propagations_stable hP F _ pf _ s1 (bD, s2) hA hD
    cases bD with
    | false =>
      simp only [Option.some.injEq] at hres
      subst hres
      exact hP.frame _ _ (unassign_tracker F v sign s2) h2
    | true =>
      dsimp only at hres
      cases hN : dfs_next s2 with
      | none => rw [hN] at hres; simp at hres
      | some rn =>
      obtain ⟨bN, s3⟩ := rn
      rw [hN] at hres
      have h3 : P s3 := hnext s2 (bN, s3) h2 hN
      cases bN with
      | true =>
        simp only [Option.some.injEq] at hres
        subst hres
        exact h3
      | false =>
        simp only [Option.some.injEq] at hres
        subst hres
        exact hP.frame _ _ (unassign_tracker F v sign _)
          (undo_unit_propagations_stable hP F _ _ s3 h3)

theorem dfs_branch_stable {P : State → Prop} (hP : TrackerStable P) (F : Formula) (pf : Nat)
    {dfs_next : State → Option (Bool × State)}
    (hnext : ∀ (s : State) (r : Bool × State), P s → dfs_next s = some r → P r.2)
    (v : Nat) (s : State) (r : Bool × State) (h : P s)
    (hres : dfs_branch F pf dfs_next v s = some r) : P r.2 := by
  unfold dfs_branch at hres
  dsimp only at hres
  have h1 : P (clear_conflict v
      { s with npropped_at := Function.update s.npropped_at v s.npropped }) :=
    hP.clear _ _ (hP.frame s _ ⟨rfl, rfl⟩ h)
  generalize clear_conflict v
      { s with npropped_at := Function.update s.npropped_at v s.npropped } = s1 at h1 hres
  cases hT : try_value F pf dfs_next v (if s.npos_app v > s.nneg_app v then 1 else -1) s1 with
  | none => rw [hT] at hres; simp at hres
  | some rt =>
  obtain ⟨bT, s2⟩ := rt
  rw [hT] at hres
  have h2 : P s2 := try_value_stable hP F pf hnext _ _ s1 (bT, s2) h1 hT
  cases bT with
  | true =>
    simp only [Option.some.injEq] at hres
    subst hres
    exact h2
  | false =>
    dsimp only at hres
    by_cases hc : in_conflict_set s2 v = true
    · rw [if_pos hc] at hres
      exact try_value_stable hP F pf hnext _ _ _ r (augment_conflict_stable hP _ s2 h2) hres
    · rw [if_neg hc] at hres
      simp only [Option.some.injEq] at hres
      subst hres
      exact h2

theorem dfs_stable {P : State → Prop} (hP : TrackerStable P) (F : Formula) (pf : Nat) :
    ∀ (fuel l : Nat) (s : State) (r : Bool × State), P s →
      dfs F pf fuel l s = some r → P r.2 := by
  intro fuel
  induction fuel with
  | zero => intro l s r _ hres; simp [dfs] at hres
  | succ fuel ih =>
    intro l s r h hres
    rw [dfs] at hres
    by_cases h0 : s.nunsat = 0
    · rw [if_pos h0] at hres
      simp only [Option.some.injEq] at hres
      subst hres
      exact h
    · rw [if_neg h0] at hres
      dsimp only at hres
      by_cases hm : most_constrained_var F s = -1
      · rw [if_pos hm] at hres
        simp only [Option.some.injEq] at hres
        subst hres
        exact h
      · rw [if_neg hm] at hres
        exact dfs_branch_stable hP F pf (ih (l + 1)) _ s r h hres

/-! ## C8: irreflexivity of the conflict sets -/

theorem irreflexive_stable : TrackerStable ConflictIrreflexive := by
  refine ⟨?_, ?_, ?_, ?_⟩
  · intro s v w hw h
    exact insert_edge_irreflexive v w s hw h
  · intro s v h a
    refine ⟨(h a).1, ?_⟩
    dsimp only
    by_cases hav : a = v
    · subst hav; simp
    · rw [Function.update_noteq hav]; exact (h a).2
  · intro s v h a
    unfold clear_conflict
    dsimp only
    by_cases hav : a = v
    · subst hav; simp
    · rw [Function.update_noteq hav, Function.update_noteq hav]; exact h a
  · intro s t hst h a
    rw [hst.conflict, hst.in_conflict]
    exact h a

theorem init_state_irreflexive (cls : List (List Int)) :
    ConflictIrreflexive (init_state cls) := by
  intro v
  simp [init_state]

/-- C8 (irreflexivity, I6).  From a state in which no variable belongs to its own
`conflict` or `in_conflict` set, the same holds after `backprop_conflict(v, c)`,
after `augment_conflict(v)`, after the clears of `dfs` and `do_unit_propagations`,
and hence after `assign`, `undo_unit_propagations`, `do_unit_propagations` and every
call of `dfs`; a run from the loader's state (empty sets) therefore never has `w` in
`conflict[w]`. -/
theorem conflict_irreflexive_kept (F : Formula) (s : State) (h : ConflictIrreflexive s)
    (v c : Nat) :
    ConflictIrreflexive (backprop_conflict F v c s)
    ∧ ConflictIrreflexive (augment_conflict v s)
    ∧ ConflictIrreflexive (clear_conflict v s)
    ∧ (∀ sign : Int, ConflictIrreflexive (assign F v sign s).2)
    ∧ (∀ low high : Nat, ConflictIrreflexive (undo_unit_propagations F low high s))
    ∧ (∀ (frm pf i : Nat) (r : Bool × State),
        do_unit_propagations F frm pf i s = some r → ConflictIrreflexive r.2)
    ∧ (∀ (pf fuel l : Nat) (r : Bool × State),
        dfs F pf fuel l s = some r → ConflictIrreflexive r.2)
    ∧ (∀ (V : Nat) (cls : List (List Int)) (pf fuel : Nat) (r : Bool × State),
        dfs (load_formula V cls) pf fuel 0 (init_state cls) = some r →
          ∀ w : Nat, w ∉ r.2.conflict w ∧ w ∉ r.2.in_conflict w) :=
  ⟨backprop_conflict_stable irreflexive_stable F v c s h,
    augment_conflict_stable irreflexive_stable v s h,
    irreflexive_stable.clear s v h,
    fun sign => assign_stable irreflexive_stable F v sign s h,
    fun low high => undo_unit_propagations_stable irreflexive_stable F low high s h,
    fun frm pf i r hr => do_unit_propagations_stable irreflexive_stable F frm pf i s r h hr,
    fun pf fuel l r hr => dfs_stable irreflexive_stable F pf fuel l s r h hr,
    fun V cls pf fuel r hr =>
      dfs_stable irreflexive_stable (load_formula V cls) pf fuel 0 (init_state cls) r
        (init_state_irreflexive cls) hr⟩

/-- Witness for C8: the loader's state of `p cnf 2 1 / 1 2 0` is irreflexive, and so
is the state after `backprop_conflict(0, 0)`, which puts 1 in `conflict[0]`. -/
theorem conflict_irreflexive_kept_witness :
    ConflictIrreflexive (init_state [[1, 2]])
    ∧ ConflictIrreflexive
        (backprop_conflict (load_formula 2 [[1, 2]]) 0 0 (init_state [[1, 2]]))
    ∧ (backprop_conflict (load_formula 2 [[1, 2]]) 0 0 (init_state [[1, 2]])).conflict 0 = [1] :=
  ⟨init_state_irreflexive [[1, 2]],
    (conflict_irreflexive_kept (load_formula 2 [[1, 2]]) (init_state [[1, 2]])
      (init_state_irreflexive [[1, 2]]) 0 0).1, by decide!⟩

/-! ## C3: rem accuracy (I1) -/

/-- C3 (I1 is preserved by `assign` and by `unassign`).  For every well-formed
formula (occurrence lists that agree with the clauses) and every state in which
`rem[c]` is the number of literals of `c` on unset variables, for all `c < C`:
(a) for every unset `v` and sign `±1` the same holds in the state `assign(v, sign)`
leaves, whether it returns success or failure; (b) for every `v` with
`assn[v] = sign` the same holds after `unassign(v, sign)`. -/
theorem rem_accurate_kept (F : Formula) (hwf : WellFormed F) (s : State)
    (h : RemAccurate F s) :
    (∀ (v : Nat) (sign : Int), s.assn v = 0 → (sign = 1 ∨ sign = -1) →
        RemAccurate F (assign F v sign s).2)
    ∧ (∀ (v : Nat) (sign : Int), s.assn v = sign → (sign = 1 ∨ sign = -1) →
        RemAccurate F (unassign F v sign s)) := by
  refine ⟨?_, ?_⟩
  · intro v sign h0 hsign
    have hs0 : sign ≠ 0 := by rcases hsign with h | h <;> rw [h] <;> decide
    cases hE : assign F v sign s with
    | mk b t =>
    cases b with
    | false =>
      obtain ⟨h1, h2, _⟩ := assign_false hwf h0 hs0 hE
      intro c hc
      show t.rem c = unset_count F t c
      rw [h2, unset_count_congr h1]
      exact h c hc
    | true =>
      obtain ⟨he, _⟩ := assign_true hwf h0 hE
      intro c hc
      show t.rem c = unset_count F t c
      rw [he.rem c, unset_count_set he.assn h0 hs0 c, hwf.occ_count_eq]
      dsimp only
      rw [h c hc]
  · intro v sign hv hsign
    have hs0 : s.assn v ≠ 0 := by rcases hsign with h | h <;> rw [hv, h] <;> decide
    have he := unassign_spec hwf v sign s hs0
    intro c hc
    rw [he.rem c, unset_count_clear he.assn hs0 c, hwf.occ_count_eq]
    dsimp only
    rw [h c hc]

theorem init_state_rem_accurate (V : Nat) (cls : List (List Int)) :
    RemAccurate (load_formula V cls) (init_state cls) :=
  fun c _ => (init_state_inv V cls).rem c

/-- Witness for C3: `p cnf 2 2 / 1 2 0 / -1 0`, `assign(0, -1)` from the loader's
state (a success that makes clause 0 unit). -/
theorem rem_accurate_kept_witness :
    RemAccurate (load_formula 2 [[1, 2], [-1]]) (init_state [[1, 2], [-1]])
    ∧ (init_state [[1, 2], [-1]]).assn 0 = 0
    ∧ RemAccurate (load_formula 2 [[1, 2], [-1]])
        (assign (load_formula 2 [[1, 2], [-1]]) 0 (-1) (init_state [[1, 2], [-1]])).2
    ∧ (assign (load_formula 2 [[1, 2], [-1]]) 0 (-1) (init_state [[1, 2], [-1]])).2.rem 0 = 1 :=
  ⟨init_state_rem_accurate 2 _, rfl,
    (rem_accurate_kept (load_formula 2 [[1, 2], [-1]])
      (load_formula_well_formed 2 _ (by decide)) (init_state [[1, 2], [-1]])
      (init_state_rem_accurate 2 _)).1 0 (-1) rfl (Or.inr rfl), by decide!⟩

/-! ## C5: nunsat accuracy (I3) -/

theorem unassign_upto_nunsat (F : Formula) (hr : AppsInRange F) (v : Nat) (sign : Int)
    (upto : Nat) (s : State) :
    (unassign_upto F v sign upto s).nunsat
        - zero_count F.C (unassign_upto F v sign upto s).satisfier
      = s.nunsat - zero_count F.C s.satisfier := by
  unfold unassign_upto
  split_ifs
  · rfl
  · exact (unassign_loop_spec F v sign _ _
      (fun a ha => hr v a (List.mem_of_mem_take ha))).nunsat

theorem assign_nunsat (F : Formula) (hr : AppsInRange F) (v : Nat) (sign : Int) (s : State) :
    (assign F v sign s).2.nunsat - zero_count F.C (assign F v sign s).2.satisfier
      = s.nunsat - zero_count F.C s.satisfier := by
  unfold assign
  split_ifs
  · rfl
  · rcases assign_loop_spec F v sign (F.appearances v) 0
      { s with assn := Function.update s.assn v sign } (hr v) with
      ⟨_, he, _⟩ | ⟨_, L1, a, L2, t, _, _, he, _, _, hres⟩
    · exact he.nunsat
    · rw [hres, unassign_upto_nunsat F hr]
      obtain ⟨b1, _⟩ := backprop_conflict_frame F v (a.natAbs - 1) t
      rw [b1.nunsat, b1.satisfier]
      exact he.nunsat

/-- C5 (I3 is preserved by `assign` and by `unassign_upto`).  For every formula whose
occurrence entries point at clauses below `C`, every state with
`nunsat = |{c < C : satisfier[c] = 0}|`, every `v`, `sign` and bound `upto`: the same
equation holds in the state `assign(v, sign)` leaves (success or failure) and after
`unassign_upto(v, sign, upto)`. -/
theorem nunsat_accurate_kept (F : Formula) (hr : AppsInRange F) (s : State)
    (h : NunsatAccurate F s) (v : Nat) (sign : Int) (upto : Nat)
    (_hupto : upto ≤ (F.appearances v).length) :
    NunsatAccurate F (assign F v sign s).2
    ∧ NunsatAccurate F (unassign_upto F v sign upto s) := by
  unfold NunsatAccurate at h ⊢
  have h1 := assign_nunsat F hr v sign s
  have h2 := unassign_upto_nunsat F hr v sign upto s
  constructor <;> omega

/-- Witness for C5: `p cnf 2 2 / 1 2 0 / -1 0`, `assign(0, 1)` from the loader's
state fails on clause 1 and leaves `nunsat = 2`. -/
theorem nunsat_accurate_kept_witness :
    NunsatAccurate (load_formula 2 [[1, 2], [-1]]) (init_state [[1, 2], [-1]])
    ∧ (assign (load_formula 2 [[1, 2], [-1]]) 0 1 (init_state [[1, 2], [-1]])).1 = false
    ∧ NunsatAccurate (load_formula 2 [[1, 2], [-1]])
        (assign (load_formula 2 [[1, 2], [-1]]) 0 1 (init_state [[1, 2], [-1]])).2
    ∧ (assign (load_formula 2 [[1, 2], [-1]]) 0 1 (init_state [[1, 2], [-1]])).2.nunsat = 2 :=
  ⟨(init_state_inv 2 _).nunsat, by decide!,
    (nunsat_accurate_kept (load_formula 2 [[1, 2], [-1]])
      (load_formula_well_formed 2 _ (by decide)).in_range (init_state [[1, 2], [-1]])
      (init_state_inv 2 _).nunsat 0 1 2 (by decide!)).1, by decide!⟩

/-! ## C4: satisfier accuracy (I2) -/

theorem assign_true_sound {F : Formula} (hwf : WellFormed F) {v : Nat} {sign : Int}
    {s t : State} (hs : SatisfierSound F s) (h : s.assn v = 0) (hsign : sign = 1 ∨ sign = -1)
    (hres : assign F v sign s = (true, t)) : SatisfierSound F t := by
  obtain ⟨he, _⟩ := assign_true hwf h hres
  have hassn : t.assn = Function.update s.assn v sign := he.assn
  intro c hc
  rw [he.satisfier c] at hc ⊢
  dsimp only at hc ⊢
  by_cases hcond : s.satisfier c = 0 ∧ agrees (F.appearances v) sign c = true
  · rw [if_pos hcond]
    obtain ⟨l, hl, hlv, hls⟩ := (hwf.agrees_iff v c sign hsign).1 hcond.2
    refine ⟨l, hl, by rw [hlv], ?_⟩
    rw [hassn, hlv, Function.update_same, hls]
  · rw [if_neg hcond] at hc ⊢
    obtain ⟨l, hl, h1, h2⟩ := hs c hc
    refine ⟨l, hl, h1, ?_⟩
    have hne : varid l ≠ v := by
      intro hlv
      rw [hlv, h] at h2
      exact lit_sign_ne_zero l h2.symm
    rw [hassn, Function.update_noteq hne]
    exact h2

theorem unassign_sound {F : Formula} (hwf : WellFormed F) {v : Nat} {sign : Int}
    {s : State} (hs : SatisfierSound F s) (hv : s.assn v = sign)
    (hsign : sign = 1 ∨ sign = -1) : SatisfierSound F (unassign F v sign s) := by
  have h0 : s.assn v ≠ 0 := by rcases hsign with h | h <;> rw [hv, h] <;> decide
  have he := unassign_spec hwf v sign s h0
  have hassn : (unassign F v sign s).assn = Function.update s.assn v 0 := he.assn
  intro c hc
  rw [he.satisfier c] at hc ⊢
  dsimp only at hc ⊢
  by_cases hcond : s.satisfier c = (v : Int) + 1 ∧ agrees (F.appearances v) sign c = true
  · rw [if_pos hcond] at hc; exact absurd rfl hc
  · rw [if_neg hcond] at hc ⊢
    obtain ⟨l, hl, h1, h2⟩ := hs c hc
    refine ⟨l, hl, h1, ?_⟩
    have hne : varid l ≠ v := by
      intro hlv
      apply hcond
      refine ⟨by rw [h1, hlv], ?_⟩
      exact (hwf.agrees_iff v c sign hsign).2 ⟨l, hl, hlv, by rw [← h2, hlv, hv]⟩
    rw [hassn, Function.update_noteq hne]
    exact h2

/-- C4 as stated fails twice.  (1) `p cnf 2 1 / 1 2 0`: after `assign(0,1)` and
`assign(1,1)` from the loader's state I1 and I2 hold and `assn[0] = 1`, but after
`unassign(0, 1)` clause 0 has `satisfier = 0` while its literal 2 is true.
(2) `p cnf 2 2 / 1 2 0 / -1 0` in the state where `satisfier[0]` names the unset
variable 0: I1 and I2 hold, `assign(0, 1)` fails on clause 1 and its roll-back
clears `satisfier[0]` although literal 2 is true. -/
theorem satisfier_accuracy_broken :
    (RemAccurate (load_formula 2 [[1, 2]])
        (assign (load_formula 2 [[1, 2]]) 1 1
          (assign (load_formula 2 [[1, 2]]) 0 1 (init_state [[1, 2]])).2).2
      ∧ SatisfierAccurate (load_formula 2 [[1, 2]])
        (assign (load_formula 2 [[1, 2]]) 1 1
          (assign (load_formula 2 [[1, 2]]) 0 1 (init_state [[1, 2]])).2).2
      ∧ (assign (load_formula 2 [[1, 2]]) 1 1
          (assign (load_formula 2 [[1, 2]]) 0 1 (init_state [[1, 2]])).2).2.assn 0 = 1
      ∧ ¬ SatisfierAccurate (load_formula 2 [[1, 2]])
        (unassign (load_formula 2 [[1, 2]]) 0 1
          (assign (load_formula 2 [[1, 2]]) 1 1
            (assign (load_formula 2 [[1, 2]]) 0 1 (init_state [[1, 2]])).2).2))
    ∧ (RemAccurate (load_formula 2 [[1, 2], [-1]]) (stale_satisfier_state [[1, 2], [-1]])
      ∧ SatisfierAccurate (load_formula 2 [[1, 2], [-1]])
          (stale_satisfier_state [[1, 2], [-1]])
      ∧ (stale_satisfier_state [[1, 2], [-1]]).assn 0 = 0
      ∧ (assign (load_formula 2 [[1, 2], [-1]]) 0 1
          (stale_satisfier_state [[1, 2], [-1]])).1 = false
      ∧ ¬ SatisfierAccurate (load_formula 2 [[1, 2], [-1]])
          (assign (load_formula 2 [[1, 2], [-1]]) 0 1
            (stale_satisfier_state [[1, 2], [-1]])).2) := by
  refine ⟨⟨?_, ?_, by decide!, ?_⟩, ⟨?_, ?_, by decide!, by decide!, ?_⟩⟩
  · unfold RemAccurate unset_count; decide!
  · unfold SatisfierAccurate; decide!
  · unfold SatisfierAccurate; decide!
  · unfold RemAccurate unset_count; decide!
  · unfold SatisfierAccurate; decide!
  · unfold SatisfierAccurate; decide!

/-- C4, amended.  For every well-formed formula and every state that satisfies I2 and
in which every nonzero `satisfier[c]` is `u+1` for a variable `u` with a literal in
`c` of the sign assigned to `u`: for every unset `v` and sign `±1`, I2 and this
naming property hold in the state `assign(v, sign)` leaves (success or failure); for
every `v` with `assn[v] = sign`, after `unassign(v, sign)` the naming property holds,
hence every clause with `satisfier[c] ≠ 0` has a true literal; and I2 itself holds
after `unassign(v, sign)` whenever no clause whose satisfier is `v+1` has a true
literal on another variable, which is the case when the assignments made after that
of `v` have been undone first. -/
theorem satisfier_accurate_kept (F : Formula) (hwf : WellFormed F) (s : State)
    (h2 : SatisfierAccurate F s) (hs : SatisfierSound F s) :
    (∀ (v : Nat) (sign : Int), s.assn v = 0 → (sign = 1 ∨ sign = -1) →
        SatisfierAccurate F (assign F v sign s).2 ∧ SatisfierSound F (assign F v sign s).2)
    ∧ (∀ (v : Nat) (sign : Int), s.assn v = sign → (sign = 1 ∨ sign = -1) →
        SatisfierSound F (unassign F v sign s)
        ∧ (∀ c : Nat, c < F.C → (unassign F v sign s).satisfier c ≠ 0 →
            ∃ l ∈ F.clauses c, (unassign F v sign s).assn (varid l) = lit_sign l)
        ∧ ((∀ c : Nat, c < F.C → s.satisfier c = (v : Int) + 1 →
              ∀ l ∈ F.clauses c, varid l ≠ v → s.assn (varid l) ≠ lit_sign l) →
            SatisfierAccurate F (unassign F v sign s))) := by
  refine ⟨?_, ?_⟩
  · intro v sign h0 hsign
    have hs0 : sign ≠ 0 := by rcases hsign with h | h <;> rw [h] <;> decide
    cases hE : assign F v sign s with
    | mk b t =>
    cases b with
    | false =>
      have hcore := assign_false_core hwf (satisfier_ne_of_unset hs h0) h0 hs0 hE
      refine ⟨?_, ?_⟩
      · intro c hc
        show t.satisfier c ≠ 0 ↔ ∃ l ∈ F.clauses c, t.assn (varid l) = lit_sign l
        rw [hcore.satisfier, hcore.assn]
        exact h2 c hc
      · intro c hc
        show ∃ l ∈ F.clauses c, t.satisfier c = (varid l : Int) + 1
          ∧ t.assn (varid l) = lit_sign l
        rw [hcore.satisfier, hcore.assn]
        have hc' : s.satisfier c ≠ 0 := by
          have : t.satisfier c ≠ 0 := hc
          rw [hcore.satisfier] at this; exact this
        exact hs c hc'
    | true =>
      have hsound : SatisfierSound F t := assign_true_sound hwf hs h0 hsign hE
      refine ⟨?_, hsound⟩
      obtain ⟨he, _⟩ := assign_true hwf h0 hE
      have hassn : t.assn = Function.update s.assn v sign := he.assn
      have hv1 : (v : Int) + 1 ≠ 0 := by omega
      intro c hc
      show t.satisfier c ≠ 0 ↔ ∃ l ∈ F.clauses c, t.assn (varid l) = lit_sign l
      constructor
      · intro hne
        obtain ⟨l, hl, _, hl2⟩ := hsound c hne
        exact ⟨l, hl, hl2⟩
      · rintro ⟨l, hl, hl2⟩
        rw [he.satisfier c]
        dsimp only
        by_cases hlv : varid l = v
        · have hag : agrees (F.appearances v) sign c = true := by
            apply (hwf.agrees_iff v c sign hsign).2
            refine ⟨l, hl, hlv, ?_⟩
            rw [hassn, hlv, Function.update_same] at hl2
            exact hl2.symm
          by_cases hz : s.satisfier c = 0
          · rw [if_pos ⟨hz, hag⟩]; exact hv1
          · rw [if_neg (fun hh => hz hh.1)]; exact hz
        · rw [hassn, Function.update_noteq hlv] at hl2
          have hz : s.satisfier c ≠ 0 := (h2 c hc).2 ⟨l, hl, hl2⟩
          rw [if_neg (fun hh => hz hh.1)]; exact hz
  · intro v sign hv hsign
    have hsound := unassign_sound hwf hs hv hsign
    refine ⟨hsound, ?_, ?_⟩
    · intro c _ hne
      obtain ⟨l, hl, _, hl2⟩ := hsound c hne
      exact ⟨l, hl, hl2⟩
    · intro hlast c hc
      have h0 : s.assn v ≠ 0 := by rcases hsign with h | h <;> rw [hv, h] <;> decide
      have he := unassign_spec hwf v sign s h0
      have hassn : (unassign F v sign s).assn = Function.update s.assn v 0 := he.assn
      constructor
      · intro hne
        obtain ⟨l, hl, _, hl2⟩ := hsound c hne
        exact ⟨l, hl, hl2⟩
      · rintro ⟨l, hl, hl2⟩
        have hlv : varid l ≠ v := by
          intro h
          rw [hassn, h, Function.update_same] at hl2
          exact lit_sign_ne_zero l hl2.symm
        rw [hassn, Function.update_noteq hlv] at hl2
        have hz : s.satisfier c ≠ 0 := (h2 c hc).2 ⟨l, hl, hl2⟩
        rw [he.satisfier c]
        dsimp only
        have hcond : ¬ (s.satisfier c = (v : Int) + 1
            ∧ agrees (F.appearances v) sign c = true) :=
          fun hh => hlast c hc hh.1 l hl hlv hl2
        rw [if_neg hcond]
        exact hz

theorem init_state_satisfier_accurate (V : Nat) (cls : List (List Int)) :
    SatisfierAccurate (load_formula V cls) (init_state cls) := by
  intro c _
  constructor
  · intro h; exact absurd rfl h
  · rintro ⟨l, _, hl⟩
    have : (0 : Int) = lit_sign l := hl
    exact absurd this.symm (lit_sign_ne_zero l)

/-- Witness for C4 (amended): `p cnf 2 1 / 1 2 0`, `assign(0, 1)` from the loader's
state, then `unassign(0, 1)` with nothing assigned in between; I2 holds after each. -/
theorem satisfier_accurate_kept_witness :
    SatisfierAccurate (load_formula 2 [[1, 2]]) (init_state [[1, 2]])
    ∧ SatisfierAccurate (load_formula 2 [[1, 2]])
        (assign (load_formula 2 [[1, 2]]) 0 1 (init_state [[1, 2]])).2
    ∧ (assign (load_formula 2 [[1, 2]]) 0 1 (init_state [[1, 2]])).2.satisfier 0 = 1
    ∧ SatisfierAccurate (load_formula 2 [[1, 2]])
        (unassign (load_formula 2 [[1, 2]]) 0 1
          (assign (load_formula 2 [[1, 2]]) 0 1 (init_state [[1, 2]])).2) := by
  have hwf := load_formula_well_formed 2 [[1, 2]] (by decide)
  have h1 := (satisfier_accurate_kept (load_formula 2 [[1, 2]]) hwf (init_state [[1, 2]])
      (init_state_satisfier_accurate 2 _) (init_state_inv 2 _).sat).1 0 1 rfl (Or.inl rfl)
  refine ⟨init_state_satisfier_accurate 2 _, h1.1, by decide!, ?_⟩
  exact ((satisfier_accurate_kept (load_formula 2 [[1, 2]]) hwf _ h1.1 h1.2).2 0 1
    (by decide!) (Or.inl rfl)).2.2 (by decide!)

/-! ## C9: undo isolation (I7) -/

/-- Two ways in which `unassign(v, s)` right after a successful `assign(v, s)` leaves
a component changed.  (1) `p cnf 2 1 / -1 2 0`, loader's state: after `assign(0, 1)`
and `unassign(0, 1)` the tally `npos_app[0]` is 2 instead of 0.  (2) `p cnf 2 1 / 1 2 0`
in the state where `satisfier[0]` names the unset variable 0: `unassign(0, 1)` clears
`satisfier[0]` and raises `nunsat`. -/
theorem undo_isolation_broken :
    (RemAccurate (load_formula 2 [[-1, 2]]) (init_state [[-1, 2]])
      ∧ SatisfierAccurate (load_formula 2 [[-1, 2]]) (init_state [[-1, 2]])
      ∧ NunsatAccurate (load_formula 2 [[-1, 2]]) (init_state [[-1, 2]])
      ∧ (init_state [[-1, 2]]).assn 0 = 0
      ∧ (assign (load_formula 2 [[-1, 2]]) 0 1 (init_state [[-1, 2]])).1 = true
      ∧ (init_state [[-1, 2]]).npos_app 0 = 0
      ∧ (unassign (load_formula 2 [[-1, 2]]) 0 1
          (assign (load_formula 2 [[-1, 2]]) 0 1 (init_state [[-1, 2]])).2).npos_app 0 = 2)
    ∧ (RemAccurate (load_formula 2 [[1, 2]]) (stale_satisfier_state [[1, 2]])
      ∧ SatisfierAccurate (load_formula 2 [[1, 2]]) (stale_satisfier_state [[1, 2]])
      ∧ NunsatAccurate (load_formula 2 [[1, 2]]) (stale_satisfier_state [[1, 2]])
      ∧ (stale_satisfier_state [[1, 2]]).assn 0 = 0
      ∧ (assign (load_formula 2 [[1, 2]]) 0 1 (stale_satisfier_state [[1, 2]])).1 = true
      ∧ (stale_satisfier_state [[1, 2]]).satisfier 0 = 1
      ∧ (unassign (load_formula 2 [[1, 2]]) 0 1
          (assign (load_formula 2 [[1, 2]]) 0 1
            (stale_satisfier_state [[1, 2]])).2).satisfier 0 = 0
      ∧ (stale_satisfier_state [[1, 2]]).nunsat = 0
      ∧ (unassign (load_formula 2 [[1, 2]]) 0 1
          (assign (load_formula 2 [[1, 2]]) 0 1
            (stale_satisfier_state [[1, 2]])).2).nunsat = 1) := by
  refine ⟨⟨?_, ?_, ?_, by decide!, by decide!, by decide!, by decide!⟩,
    ⟨?_, ?_, ?_, by decide!, by decide!, by decide!, by decide!, by decide!, by decide!⟩⟩
  · unfold RemAccurate unset_count; decide!
  · unfold SatisfierAccurate; decide!
  · unfold NunsatAccurate zero_count; decide!
  · unfold RemAccurate unset_count; decide!
  · unfold SatisfierAccurate; decide!
  · unfold NunsatAccurate zero_count; decide!

/-- For every well-formed formula, every state in which no clause has
`satisfier[c] = v+1`, every unset variable `v` and sign `±1`: if `assign(v, sign)`
returns success and `unassign(v, sign)` is executed directly afterwards, then `assn`,
`rem`, `satisfier` and `nunsat` are equal to their values before the `assign`. -/
theorem undo_restores_core (F : Formula) (hwf : WellFormed F) (s : State) (v : Nat)
    (sign : Int) (hv : ∀ c : Nat, s.satisfier c ≠ (v : Int) + 1) (h0 : s.assn v = 0)
    (hsign : sign = 1 ∨ sign = -1) (hres : (assign F v sign s).1 = true) :
    SameCore s (unassign F v sign (assign F v sign s).2) := by
  have hs0 : sign ≠ 0 := by rcases hsign with h | h <;> rw [h] <;> decide
  have hE : assign F v sign s = (true, (assign F v sign s).2) := by rw [← hres]
  obtain ⟨he, _⟩ := assign_true hwf h0 hE
  generalize (assign F v sign s).2 = t at he
  have htv : t.assn v ≠ 0 := by
    rw [he.assn]
    dsimp only
    rw [Function.update_same]; exact hs0
  have hu := unassign_spec hwf v sign t htv
  have hv1 : (0 : Int) ≠ (v : Int) + 1 := by omega
  have hsat : (unassign F v sign t).satisfier = s.satisfier := by
    ext c
    have ht := he.satisfier c
    dsimp only at ht
    rw [hu.satisfier c]
    dsimp only
    by_cases hz : s.satisfier c = 0
    · by_cases hag : agrees (F.appearances v) sign c = true
      · rw [if_pos ⟨hz, hag⟩] at ht
        rw [if_pos ⟨ht, hag⟩, hz]
      · rw [if_neg (fun hh => hag hh.2)] at ht
        rw [if_neg (fun hh => hag hh.2), ht]
    · rw [if_neg (fun hh => hz hh.1)] at ht
      rw [if_neg (fun hh => hv c (by rw [← ht]; exact hh.1)), ht]
  refine ⟨?_, ?_, hsat, ?_⟩
  · rw [hu.assn]
    dsimp only
    rw [he.assn]
    dsimp only
    ext w
    by_cases hw : w = v
    · subst hw; simp [h0]
    · simp [Function.update_noteq hw]
  · ext c
    rw [hu.rem c]
    dsimp only
    rw [he.rem c]
    dsimp only
    ring
  · have h1 := hu.nunsat
    have h2 := he.nunsat
    dsimp only at h1 h2
    rw [hsat] at h1
    omega

/-- An instance of `undo_restores_core`: `p cnf 2 1 / -1 2 0`, `assign(0, 1)` then
`unassign(0, 1)` from the loader's state. -/
theorem undo_restores_core_witness :
    (init_state [[-1, 2]]).assn 0 = 0
    ∧ (assign (load_formula 2 [[-1, 2]]) 0 1 (init_state [[-1, 2]])).1 = true
    ∧ SameCore (init_state [[-1, 2]])
        (unassign (load_formula 2 [[-1, 2]]) 0 1
          (assign (load_formula 2 [[-1, 2]]) 0 1 (init_state [[-1, 2]])).2) :=
  ⟨rfl, by decide!,
    undo_restores_core (load_formula 2 [[-1, 2]]) (load_formula_well_formed 2 _ (by decide))
      (init_state [[-1, 2]]) 0 1 (fun c h => by
        have : (0 : Int) = ((0 : Nat) : Int) + 1 := h
        omega) rfl (Or.inl rfl) (by decide!)⟩

/-- C9 (undo isolation) fails on the code.  On `p cnf 2 1 / -1 2 0`, from the loader's
state (I1, I2 and I3 hold, variable 0 is unset), `assign(0, +1)` succeeds and
`unassign(0, +1)` directly afterwards restores `assn`, `rem`, `satisfier`, `nunsat`
and `nneg_app`, and `npos_app` at every index but 0, yet `npos_app[0]` is 2 where it
was 0: case B does `npos_app[v]++` in `assign` and `npos_app[v]++` again in
`unassign_upto`.  With the sign `-1` the two
case-B statements are `nneg_app[v]--` and `nneg_app[v]++` and everything is restored:
on `p cnf 2 1 / 1 2 0`, after `assign(0, -1)` and `unassign(0, -1)`, the tallies of
both variables are those of the loader. -/
theorem undo_isolation_tally_slip :
    (RemAccurate (load_formula 2 [[-1, 2]]) (init_state [[-1, 2]])
      ∧ SatisfierAccurate (load_formula 2 [[-1, 2]]) (init_state [[-1, 2]])
      ∧ NunsatAccurate (load_formula 2 [[-1, 2]]) (init_state [[-1, 2]])
      ∧ (init_state [[-1, 2]]).assn 0 = 0
      ∧ (assign (load_formula 2 [[-1, 2]]) 0 1 (init_state [[-1, 2]])).1 = true
      ∧ SameCore (init_state [[-1, 2]])
          (unassign (load_formula 2 [[-1, 2]]) 0 1
            (assign (load_formula 2 [[-1, 2]]) 0 1 (init_state [[-1, 2]])).2)
      ∧ (∀ k ∈ [(-2 : Int), -1, 0, 1, 2],
          (unassign (load_formula 2 [[-1, 2]]) 0 1
            (assign (load_formula 2 [[-1, 2]]) 0 1 (init_state [[-1, 2]])).2).nneg_app k
            = (init_state [[-1, 2]]).nneg_app k)
      ∧ (∀ k ∈ [(-2 : Int), -1, 1, 2],
          (unassign (load_formula 2 [[-1, 2]]) 0 1
            (assign (load_formula 2 [[-1, 2]]) 0 1 (init_state [[-1, 2]])).2).npos_app k
            = (init_state [[-1, 2]]).npos_app k)
      ∧ (init_state [[-1, 2]]).npos_app 0 = 0
      ∧ (unassign (load_formula 2 [[-1, 2]]) 0 1
          (assign (load_formula 2 [[-1, 2]]) 0 1 (init_state [[-1, 2]])).2).npos_app 0 = 2)
    ∧ ((init_state [[1, 2]]).assn 0 = 0
      ∧ (assign (load_formula 2 [[1, 2]]) 0 (-1) (init_state [[1, 2]])).1 = true
      ∧ SameCore (init_state [[1, 2]])
          (unassign (load_formula 2 [[1, 2]]) 0 (-1)
            (assign (load_formula 2 [[1, 2]]) 0 (-1) (init_state [[1, 2]])).2)
      ∧ (∀ k ∈ [(-2 : Int), -1, 0, 1, 2],
          (unassign (load_formula 2 [[1, 2]]) 0 (-1)
            (assign (load_formula 2 [[1, 2]]) 0 (-1) (init_state [[1, 2]])).2).nneg_app k
            = (init_state [[1, 2]]).nneg_app k
          ∧ (unassign (load_formula 2 [[1, 2]]) 0 (-1)
            (assign (load_formula 2 [[1, 2]]) 0 (-1) (init_state [[1, 2]])).2).npos_app k
            = (init_state [[1, 2]]).npos_app k)) := by
  refine ⟨⟨?_, ?_, ?_, by decide!, by decide!, ?_, by decide!, by decide!, by decide!,
      by decide!⟩,
    ⟨by decide!, by decide!, ?_, by decide!⟩⟩
  · unfold RemAccurate unset_count; decide!
  · unfold SatisfierAccurate; decide!
  · unfold NunsatAccurate zero_count; decide!
  · exact undo_restores_core (load_formula 2 [[-1, 2]])
      (load_formula_well_formed 2 _ (by decide)) (init_state [[-1, 2]]) 0 1
      (fun c h => by
        have : (0 : Int) = ((0 : Nat) : Int) + 1 := h
        omega) rfl (Or.inl rfl) (by decide!)
  · exact undo_restores_core (load_formula 2 [[1, 2]])
      (load_formula_well_formed 2 _ (by decide)) (init_state [[1, 2]]) 0 (-1)
      (fun c h => by
        have : (0 : Int) = ((0 : Nat) : Int) + 1 := h
        omega) rfl (Or.inr rfl) (by decide!)

/-! ## C11: the value ordering of `dfs` -/

/-- The body of `dfs` after the selection of `v`, written with `first_try`,
`second_try` and `branch_entry`. -/
theorem dfs_branch_eq (F : Formula) (pf : Nat) (dfs_next : State → Option (Bool × State))
    (v : Nat) (s : State) :
    dfs_branch F pf dfs_next v s =
      match try_value F pf dfs_next v (first_try s v) (branch_entry v s) with
      | none => none
      | some (true, s2) => some (true, s2)
      | some (false, s2) =>
        if in_conflict_set s2 v then
          try_value F pf dfs_next v (second_try s v) (augment_conflict v s2)
        else some (false, s2) := rfl

/-- A call of `dfs` that does not return at once is the branch on the selected
variable. -/
theorem dfs_eq_branch (F : Formula) (pf fuel l : Nat) (s : State) (h0 : s.nunsat ≠ 0)
    (hm : most_constrained_var F s ≠ -1) :
    dfs F pf (fuel + 1) l s
      = dfs_branch F pf (dfs F pf fuel (l + 1)) (most_constrained_var F s).toNat s := by
  rw [dfs, if_neg h0]
  dsimp only
  rw [if_neg hm]

/-- C11 as stated fails on a tie: on `p cnf 2 2 / 1 2 0 / -1 2 0` the tallies of
variable 0 are equal (`npos_app[0] = nneg_app[0] = 1`), `dfs(0)` branches on variable 0
and passes `-1` to `try_value` first; the run ends SAT with `assn[0] = -1`, although
`try_value(0, +1, 0)` from the same state succeeds as well, with `assn[0] = 1`. -/
theorem first_try_minus_one_on_tie :
    (init_state [[1, 2], [-1, 2]]).npos_app 0 = (init_state [[1, 2], [-1, 2]]).nneg_app 0
    ∧ most_constrained_var (load_formula 2 [[1, 2], [-1, 2]]) (init_state [[1, 2], [-1, 2]]) = 0
    ∧ first_try (init_state [[1, 2], [-1, 2]]) 0 = -1
    ∧ (dfs (load_formula 2 [[1, 2], [-1, 2]]) 5 5 0 (init_state [[1, 2], [-1, 2]])).map
        (fun r => (r.1, r.2.assn 0)) = some (true, -1)
    ∧ (try_value (load_formula 2 [[1, 2], [-1, 2]]) 5
        (dfs (load_formula 2 [[1, 2], [-1, 2]]) 5 4 1) 0 1
        (branch_entry 0 (init_state [[1, 2], [-1, 2]]))).map
        (fun r => (r.1, r.2.assn 0)) = some (true, 1) := by
  refine ⟨by decide!, by decide!, by decide!, by decide!, by decide!⟩

/-- C11, amended: `dfs` passes `first_try` to its first call of `try_value` and
`second_try` to the second; `first_try` is `+1` exactly when
`npos_app[v] > nneg_app[v]` (strictly), so a tie gives `-1`; and the second value is
the opposite sign. -/
theorem first_try_strict_majority (F : Formula) (pf : Nat)
    (dfs_next : State → Option (Bool × State)) (v : Nat) (s : State) :
    (dfs_branch F pf dfs_next v s =
      match try_value F pf dfs_next v (first_try s v) (branch_entry v s) with
      | none => none
      | some (true, s2) => some (true, s2)
      | some (false, s2) =>
        if in_conflict_set s2 v then
          try_value F pf dfs_next v (second_try s v) (augment_conflict v s2)
        else some (false, s2))
    ∧ (first_try s v = 1 ↔ s.npos_app v > s.nneg_app v)
    ∧ (first_try s v = -1 ↔ s.npos_app v ≤ s.nneg_app v)
    ∧ second_try s v = - first_try s v := by
  refine ⟨rfl, ?_, ?_, ?_⟩
  · unfold first_try
    split_ifs with h
    · simp [h]
    · simp [h]
  · unfold first_try
    split_ifs with h
    · simp only [gt_iff_lt] at h
      constructor
      · intro h1; exact absurd h1 (by decide)
      · intro h1; omega
    · simp only [gt_iff_lt, not_lt] at h
      simp [h]
  · unfold first_try second_try
    split_ifs <;> rfl

/-! ## C13: the occurrence lists built by the loader -/

theorem map_app_enc_eq (i : Nat) (L : List Int) (h : ∀ l ∈ L, l ≠ 0) :
    L.map (app_enc i) = L.map (fun l => if l > 0 then (i : Int) + 1 else -((i : Int) + 1)) := by
  apply List.map_congr_left
  intro l hl
  have h0 := h l hl
  unfold app_enc
  by_cases hneg : l < 0
  · rw [if_pos hneg, if_neg (by omega)]
  · rw [if_neg hneg, if_pos (by omega)]

theorem fill_appearances_eq (v : Nat) (cls : List (List Int))
    (h : ∀ cl ∈ cls, ∀ l ∈ cl, l ≠ 0) (i : Nat) (apps : Nat → List Int) :
    fill_appearances cls i apps v = apps v ++ occurrences v cls i := by
  induction cls generalizing i apps with
  | nil => simp [fill_appearances, occurrences]
  | cons cl rest ih =>
    rw [fill_appearances, ih (fun d hd => h d (List.mem_cons_of_mem _ hd)), fill_clause_apply,
      occurrences, List.append_assoc]
    congr 2
    apply map_app_enc_eq
    intro l hl
    exact h cl (List.mem_cons_self _ _) l (List.mem_of_mem_filter hl)

theorem occurrences_length (v : Nat) (cls : List (List Int)) (i : Nat) :
    (occurrences v cls i).length = occurrence_count v cls := by
  induction cls generalizing i with
  | nil => rfl
  | cons cl rest ih =>
    rw [occurrences, List.length_append, List.length_map, ih]
    simp [occurrence_count]

theorem natAbs_succ_sub (c : Nat) : ((c : Int) + 1).natAbs - 1 = c := by omega

theorem natAbs_neg_succ_sub (c : Nat) : (-((c : Int) + 1)).natAbs - 1 = c := by omega

theorem mem_appearances_iff {F : Formula} (hwf : WellFormed F) (v c : Nat) (a : Int)
    (ha : a.natAbs - 1 = c) :
    a ∈ F.appearances v ↔ ∃ l ∈ F.clauses c, varid l = v ∧ app_enc c l = a := by
  have hag := hwf.agree v c
  constructor
  · intro h
    have h1 : a ∈ (F.appearances v).filter (fun a => decide (a.natAbs - 1 = c)) :=
      List.mem_filter.2 ⟨h, by simpa using ha⟩
    rw [hag] at h1
    obtain ⟨l, hl, hla⟩ := List.mem_map.1 h1
    have hl2 := List.mem_filter.1 hl
    exact ⟨l, hl2.1, by simpa using hl2.2, hla⟩
  · rintro ⟨l, hl, hlv, hla⟩
    have h1 : a ∈ ((F.clauses c).filter (fun l => decide (varid l = v))).map (app_enc c) :=
      List.mem_map.2 ⟨l, List.mem_filter.2 ⟨hl, by simpa using hlv⟩, hla⟩
    rw [← hag] at h1
    exact (List.mem_filter.1 h1).1

/-! ## C14: the backjump decision of `dfs` -/

theorem option_eq_some_getD {α : Type} (o : Option (Bool × α)) (d : Bool × α) (b : Bool)
    (h : o.map Prod.fst = some b) : o = some (b, (o.getD d).2) := by
  cases o with
  | none => simp at h
  | some x =>
    obtain ⟨b1, t⟩ := x
    simp only [Option.map_some', Option.some.injEq] at h
    subst h
    rfl

/-- C14: in a call of `dfs` that branches on `v` (the state is not yet satisfied and
`most_constrained_var` returned `v`) and whose first `try_value(v, first_try, l)`
returned failure in state `s2`: if `in_conflict[v]` is empty in `s2`, `dfs` returns
failure and the state it returns is `s2` itself, so nothing ran after the first
`try_value`; if `in_conflict[v]` is non-empty, the result of `dfs` is the result of
the one call `try_value(v, second_try, l)` made from `augment_conflict(v)` of `s2`. -/
theorem dfs_backjump_decision (F : Formula) (pf fuel l : Nat) (s s2 : State) (v : Nat)
    (h0 : s.nunsat ≠ 0) (hm : most_constrained_var F s = (v : Int))
    (hfirst : try_value F pf (dfs F pf fuel (l + 1)) v (first_try s v) (branch_entry v s)
      = some (false, s2)) :
    (s2.in_conflict v = [] → dfs F pf (fuel + 1) l s = some (false, s2))
    ∧ (s2.in_conflict v ≠ [] → dfs F pf (fuel + 1) l s
        = try_value F pf (dfs F pf fuel (l + 1)) v (second_try s v) (augment_conflict v s2)) := by
  have hne : most_constrained_var F s ≠ -1 := by rw [hm]; omega
  have hv : (most_constrained_var F s).toNat = v := by rw [hm]; rfl
  rw [dfs_eq_branch F pf fuel l s h0 hne, hv, dfs_branch_eq, hfirst]
  dsimp only
  constructor
  · intro he
    have : in_conflict_set s2 v = false := by simp [in_conflict_set, he]
    rw [this]
    rfl
  · intro he
    have : in_conflict_set s2 v = true := by
      unfold in_conflict_set
      cases h : s2.in_conflict v with
      | nil => exact absurd h he
      | cons a rest => rfl
    rw [this]
    rfl

/-- Witness for C14, both cases.  On `p cnf 3 3 / 3 -2 0 / 2 -1 0 / -3 0` the root
branches on variable 1, the first `try_value(1, -1, 0)` fails with
`in_conflict[1] = {0}`, and `dfs(0)` is the second `try_value`.  On
`p cnf 3 3 / 1 0 / -1 2 0 / -2 3 0` the root branches on variable 0, the first
`try_value(0, -1, 0)` fails with `in_conflict[0]` empty, and `dfs(0)` returns failure
in the state that call left. -/
theorem dfs_backjump_decision_witness :
    ((first_try_state 3 backjump_example 5 4 1).in_conflict 1 = [0]
      ∧ dfs (load_formula 3 backjump_example) 5 5 0 (init_state backjump_example)
        = try_value (load_formula 3 backjump_example) 5
            (dfs (load_formula 3 backjump_example) 5 4 1) 1
            (second_try (init_state backjump_example) 1)
            (augment_conflict 1 (first_try_state 3 backjump_example 5 4 1)))
    ∧ ((first_try_state 3 chain_example 5 4 0).in_conflict 0 = []
      ∧ dfs (load_formula 3 chain_example) 5 5 0 (init_state chain_example)
        = some (false, first_try_state 3 chain_example 5 4 0)) := by
  have hA : (first_try_state 3 backjump_example 5 4 1).in_conflict 1 = [0] := by decide!
  have hB : (first_try_state 3 chain_example 5 4 0).in_conflict 0 = [] := by decide!
  refine ⟨⟨hA, ?_⟩, ⟨hB, ?_⟩⟩
  · refine (dfs_backjump_decision (load_formula 3 backjump_example) 5 4 0
      (init_state backjump_example) (first_try_state 3 backjump_example 5 4 1) 1
      (by decide!) (by decide!) ?_).2 (by rw [hA]; simp)
    exact option_eq_some_getD _ _ false (by decide!)
  · refine (dfs_backjump_decision (load_formula 3 chain_example) 5 4 0
      (init_state chain_example) (first_try_state 3 chain_example 5 4 0) 0
      (by decide!) (by decide!) ?_).1 hB
    exact option_eq_some_getD _ _ false (by decide!)

/-! ## C15: a failed `assign` -/

/-- C15 as stated fails: on `p cnf 2 2 / 1 2 0 / -1 0`, in the state where variable 1 is
true, variable 0 is unset and `satisfier[0]` is `1` (it names the unset variable 0),
I1, I2 and I3 hold, `assign(0, 1)` fails on clause 1, and its roll-back
`unassign_upto(0, 1, 2)` clears `satisfier[0]` and increments `nunsat`. -/
theorem failed_assign_clears_satisfier :
    RemAccurate (load_formula 2 [[1, 2], [-1]]) (stale_satisfier_state [[1, 2], [-1]])
    ∧ SatisfierAccurate (load_formula 2 [[1, 2], [-1]]) (stale_satisfier_state [[1, 2], [-1]])
    ∧ NunsatAccurate (load_formula 2 [[1, 2], [-1]]) (stale_satisfier_state [[1, 2], [-1]])
    ∧ (stale_satisfier_state [[1, 2], [-1]]).assn 0 = 0
    ∧ (assign (load_formula 2 [[1, 2], [-1]]) 0 1 (stale_satisfier_state [[1, 2], [-1]])).1
        = false
    ∧ (stale_satisfier_state [[1, 2], [-1]]).satisfier 0 = 1
    ∧ (assign (load_formula 2 [[1, 2], [-1]]) 0 1
        (stale_satisfier_state [[1, 2], [-1]])).2.satisfier 0 = 0
    ∧ (stale_satisfier_state [[1, 2], [-1]]).nunsat = 1
    ∧ (assign (load_formula 2 [[1, 2], [-1]]) 0 1
        (stale_satisfier_state [[1, 2], [-1]])).2.nunsat = 2 := by
  refine ⟨?_, ?_, ?_, by decide!, by decide!, by decide!, by decide!, by decide!, by decide!⟩
  · unfold RemAccurate unset_count; decide!
  · unfold SatisfierAccurate; decide!
  · unfold NunsatAccurate zero_count; decide!

/-- C15, amended: when the occurrence lists agree with the clauses, `v` is unset and
no `satisfier[c]` names `v` (as in every state the search reaches, where a nonzero
satisfier names a set variable), a failing `assign(v, sign)` leaves `assn`, `rem`,
`satisfier` and `nunsat` equal to their values before the call; in particular `v` is
unset again and no clause is left marked as satisfied by `v`. -/
theorem failed_assign_atomic (F : Formula) (hwf : WellFormed F) (s s' : State) (v : Nat)
    (sign : Int) (hsign : sign = 1 ∨ sign = -1) (hv : s.assn v = 0)
    (hsat : ∀ c : Nat, s.satisfier c ≠ (v : Int) + 1)
    (hres : assign F v sign s = (false, s')) :
    s'.assn = s.assn ∧ s'.rem = s.rem ∧ s'.satisfier = s.satisfier ∧ s'.nunsat = s.nunsat
      ∧ s'.assn v = 0 ∧ ∀ c : Nat, s'.satisfier c ≠ (v : Int) + 1 := by
  have hs0 : sign ≠ 0 := by rcases hsign with h | h <;> rw [h] <;> decide
  have h := assign_false_core hwf hsat hv hs0 hres
  refine ⟨h.assn, h.rem, h.satisfier, h.nunsat, ?_, ?_⟩
  · rw [h.assn]; exact hv
  · intro c; rw [h.satisfier]; exact hsat c

/-- Witness for C15 (amended): on `p cnf 2 2 / 1 2 0 / 1 0` from the loader's state,
`assign(0, -1)` shortens clause 0, fails on clause 1 and rolls everything back. -/
theorem failed_assign_atomic_witness :
    (init_state [[1, 2], [1]]).assn 0 = 0
    ∧ (assign (load_formula 2 [[1, 2], [1]]) 0 (-1) (init_state [[1, 2], [1]])).1 = false
    ∧ (assign (load_formula 2 [[1, 2], [1]]) 0 (-1) (init_state [[1, 2], [1]])).2.rem
        = (init_state [[1, 2], [1]]).rem := by
  have hf : (assign (load_formula 2 [[1, 2], [1]]) 0 (-1) (init_state [[1, 2], [1]])).1
      = false := by decide!
  refine ⟨rfl, hf, ?_⟩
  exact (failed_assign_atomic (load_formula 2 [[1, 2], [1]])
    (load_formula_well_formed 2 _ (by decide)) (init_state [[1, 2], [1]]) _ 0 (-1)
    (Or.inr rfl) rfl (fun c h => by
      have : (0 : Int) = ((0 : Nat) : Int) + 1 := h
      omega)
    (Prod.ext hf rfl)).2.1

/-! ## C17: the queue restore point -/

theorem undo_loop_npropped_at {F : Formula} (hwf : WellFormed F) (low : Nat) :
    ∀ (k : Nat) (s : State), (undo_loop F low k s).npropped_at = s.npropped_at := by
  intro k
  induction k with
  | zero => intro s; rfl
  | succ k ih =>
    intro s
    rw [undo_loop]
    rw [ih, (unassign_frame hwf _ _ _).2.2, (backprop_conflict_frame F _ _ s).2.2.2]

theorem undo_unit_propagations_npropped_at {F : Formula} (hwf : WellFormed F) (low high : Nat)
    (s : State) : (undo_unit_propagations F low high s).npropped_at = s.npropped_at :=
  undo_loop_npropped_at hwf low (high - low) s

theorem do_unit_propagations_false_npropped (F : Formula) (frm : Nat) :
    ∀ (fuel i : Nat) (s t : State), do_unit_propagations F frm fuel i s = some (false, t) →
      t.npropped = frm := by
  intro fuel
  induction fuel with
  | zero => intro i s t hres; simp [do_unit_propagations] at hres
  | succ fuel ih =>
    intro i s t hres
    rw [do_unit_propagations] at hres
    by_cases hi : i < s.npropped
    · rw [if_pos hi] at hres
      dsimp only at hres
      cases hE : assign F (varid (s.propagation_queue i)) (sign_of (s.propagation_queue i))
          (clear_conflict (varid (s.propagation_queue i)) s) with
      | mk bA s2 =>
        rw [hE] at hres
        cases bA with
        | false =>
          simp only [Option.some.injEq, Prod.mk.injEq, true_and] at hres
          subst hres
          rfl
        | true => exact ih (i + 1) s2 t hres
    · rw [if_neg hi] at hres
      simp at hres

/-- C17 as stated fails when the failure comes from `assign`: on
`p cnf 2 4 / -2 0 / -2 0 / -1 2 0 / 2 0` the root call `dfs(0)` stamps
`npropped_at[1] = 0`, its `try_value(1, -1, 0)` fails inside `assign` after clause 2
has queued the literal `-1`, and on return `npropped = 1` while `npropped_at[1] = 0`;
`dfs(0)` then returns failure in that state. -/
theorem queue_not_restored_after_failed_assign :
    (assign (load_formula 2 stale_queue_example) 1 (first_try (init_state stale_queue_example) 1)
        (branch_entry 1 (init_state stale_queue_example))).1 = false
    ∧ (try_value (load_formula 2 stale_queue_example) 5
        (dfs (load_formula 2 stale_queue_example) 5 4 1) 1
        (first_try (init_state stale_queue_example) 1)
        (branch_entry 1 (init_state stale_queue_example))).map
          (fun r => (r.1, r.2.npropped, r.2.npropped_at 1)) = some (false, 1, 0)
    ∧ (dfs (load_formula 2 stale_queue_example) 5 5 0 (init_state stale_queue_example)).map
          (fun r => (r.1, r.2.npropped, r.2.npropped_at 1)) = some (false, 1, 0) := by
  refine ⟨by decide!, by decide!, by decide!⟩

/-! ## C18: the postcondition of `augment_conflict` -/

theorem augment_inner_conflict (v : Nat) :
    ∀ (L : List Nat) (s : State) (u w : Nat),
      u ∈ (augment_inner v L s).conflict w ↔ (w = v ∧ u ∈ L ∧ u ≠ v) ∨ u ∈ s.conflict w := by
  intro L
  induction L with
  | nil => intro s u w; simp [augment_inner]
  | cons it rest ih =>
    intro s u w
    unfold augment_inner
    split_ifs with hne
    · rw [ih, mem_conflict_insert_edge, List.mem_cons]
      constructor
      · rintro (⟨h1, h2, h3⟩ | ⟨h1, h2⟩ | h)
        · exact Or.inl ⟨h1, Or.inr h2, h3⟩
        · exact Or.inl ⟨h1, Or.inl h2, by rw [h2]; exact hne⟩
        · exact Or.inr h
      · rintro (⟨h1, h2 | h2, h3⟩ | h)
        · exact Or.inr (Or.inl ⟨h1, h2⟩)
        · exact Or.inl ⟨h1, h2, h3⟩
        · exact Or.inr (Or.inr h)
    · rw [ih, List.mem_cons]
      have hit : it = v := by simpa using hne
      constructor
      · rintro (⟨h1, h2, h3⟩ | h)
        · exact Or.inl ⟨h1, Or.inr h2, h3⟩
        · exact Or.inr h
      · rintro (⟨h1, h2 | h2, h3⟩ | h)
        · exact absurd (h2.trans hit) h3
        · exact Or.inl ⟨h1, h2, h3⟩
        · exact Or.inr h

theorem augment_inner_in_conflict (v : Nat) :
    ∀ (L : List Nat) (s : State) (x w : Nat),
      x ∈ (augment_inner v L s).in_conflict w
        ↔ (x = v ∧ w ∈ L ∧ w ≠ v) ∨ x ∈ s.in_conflict w := by
  intro L
  induction L with
  | nil => intro s x w; simp [augment_inner]
  | cons it rest ih =>
    intro s x w
    unfold augment_inner
    split_ifs with hne
    · rw [ih, mem_in_conflict_insert_edge, List.mem_cons]
      constructor
      · rintro (⟨h1, h2, h3⟩ | ⟨h1, h2⟩ | h)
        · exact Or.inl ⟨h1, Or.inr h2, h3⟩
        · exact Or.inl ⟨h1, Or.inl h2, by rw [h2]; exact hne⟩
        · exact Or.inr h
      · rintro (⟨h1, h2 | h2, h3⟩ | h)
        · exact Or.inr (Or.inl ⟨h1, h2⟩)
        · exact Or.inl ⟨h1, h2, h3⟩
        · exact Or.inr (Or.inr h)
    · rw [ih, List.mem_cons]
      have hit : it = v := by simpa using hne
      constructor
      · rintro (⟨h1, h2, h3⟩ | h)
        · exact Or.inl ⟨h1, Or.inr h2, h3⟩
        · exact Or.inr h
      · rintro (⟨h1, h2 | h2, h3⟩ | h)
        · exact absurd (h2.trans hit) h3
        · exact Or.inl ⟨h1, h2, h3⟩
        · exact Or.inr h

theorem augment_outer_conflict (v : Nat) :
    ∀ (O : List Nat) (s : State) (u w : Nat), v ∉ O →
      (u ∈ (augment_outer v O s).conflict w
        ↔ (w = v ∧ ∃ o ∈ O, u ∈ s.conflict o ∧ u ≠ v) ∨ u ∈ s.conflict w) := by
  intro O
  induction O with
  | nil => intro s u w _; simp [augment_outer]
  | cons o rest ih =>
    intro s u w hv
    have hov : o ≠ v := fun h => hv (by rw [h]; exact List.mem_cons_self _ _)
    have hrest : v ∉ rest := fun h => hv (List.mem_cons_of_mem _ h)
    have hkeep : ∀ (o' : Nat), o' ≠ v → ∀ u' : Nat,
        u' ∈ (augment_inner v (s.conflict o) s).conflict o' ↔ u' ∈ s.conflict o' := by
      intro o' ho' u'
      rw [augment_inner_conflict]
      constructor
      · rintro (⟨h1, _⟩ | h)
        · exact absurd h1 ho'
        · exact h
      · intro h; exact Or.inr h
    unfold augment_outer
    rw [ih _ u w hrest, augment_inner_conflict]
    constructor
    · rintro (⟨h1, o', ho', h2, h3⟩ | ⟨h1, h2, h3⟩ | h)
      · have hne' : o' ≠ v := fun h => hrest (by rw [← h]; exact ho')
        exact Or.inl ⟨h1, o', List.mem_cons_of_mem _ ho', (hkeep o' hne' u).1 h2, h3⟩
      · exact Or.inl ⟨h1, o, List.mem_cons_self _ _, h2, h3⟩
      · exact Or.inr h
    · rintro (⟨h1, o', ho', h2, h3⟩ | h)
      · rcases List.mem_cons.1 ho' with h4 | h4
        · subst h4
          exact Or.inr (Or.inl ⟨h1, h2, h3⟩)
        · have hne' : o' ≠ v := fun h => hrest (by rw [← h]; exact h4)
          exact Or.inl ⟨h1, o', h4, (hkeep o' hne' u).2 h2, h3⟩
      · exact Or.inr (Or.inr h)

theorem augment_outer_in_conflict (v : Nat) :
    ∀ (O : List Nat) (s : State) (x w : Nat), v ∉ O →
      (x ∈ (augment_outer v O s).in_conflict w
        ↔ (x = v ∧ w ≠ v ∧ ∃ o ∈ O, w ∈ s.conflict o) ∨ x ∈ s.in_conflict w) := by
  intro O
  induction O with
  | nil => intro s x w _; simp [augment_outer]
  | cons o rest ih =>
    intro s x w hv
    have hov : o ≠ v := fun h => hv (by rw [h]; exact List.mem_cons_self _ _)
    have hrest : v ∉ rest := fun h => hv (List.mem_cons_of_mem _ h)
    have hkeep : ∀ (o' : Nat), o' ≠ v → ∀ u' : Nat,
        u' ∈ (augment_inner v (s.conflict o) s).conflict o' ↔ u' ∈ s.conflict o' := by
      intro o' ho' u'
      rw [augment_inner_conflict]
      constructor
      · rintro (⟨h1, _⟩ | h)
        · exact absurd h1 ho'
        · exact h
      · intro h; exact Or.inr h
    unfold augment_outer
    rw [ih _ x w hrest, augment_inner_in_conflict]
    constructor
    · rintro (⟨h1, h2, o', ho', h3⟩ | ⟨h1, h2, h3⟩ | h)
      · have hne' : o' ≠ v := fun h => hrest (by rw [← h]; exact ho')
        exact Or.inl ⟨h1, h2, o', List.mem_cons_of_mem _ ho', (hkeep o' hne' w).1 h3⟩
      · exact Or.inl ⟨h1, h3, o, List.mem_cons_self _ _, h2⟩
      · exact Or.inr h
    · rintro (⟨h1, h2, o', ho', h3⟩ | h)
      · rcases List.mem_cons.1 ho' with h4 | h4
        · subst h4
          exact Or.inr (Or.inl ⟨h1, h3, h2⟩)
        · have hne' : o' ≠ v := fun h => hrest (by rw [← h]; exact h4)
          exact Or.inl ⟨h1, h2, o', h4, (hkeep o' hne' w).2 h3⟩
      · exact Or.inr (Or.inr h)

theorem augment_outer_conflict_other (v x : Nat) (hx : x ≠ v) (O : List Nat) (s : State) :
    (augment_outer v O s).conflict x = s.conflict x := by
  apply augment_outer_keeps (fun t => t.conflict x = s.conflict x) v _ O s rfl
  intro t w _ ht
  show Function.update t.conflict v (set_insert w (t.conflict v)) x = s.conflict x
  rw [Function.update_noteq hx]
  exact ht

/-- C18: in a tracker state where `v` is not a member of `in_conflict[v]`, after
`augment_conflict(v)`: the members of `conflict[v]` are the old ones together with,
for every `u` in the old `in_conflict[v]`, the members of `conflict[u]` other than
`v`; for `w ≠ v`, `in_conflict[w]` has gained `v` exactly when `w` is such a lifted
member and has otherwise kept its members; `in_conflict[v]` is empty; and `conflict[x]`
is unchanged for every `x ≠ v`. -/
theorem augment_conflict_post (v : Nat) (s : State) (hv : v ∉ s.in_conflict v) :
    (∀ w : Nat, w ∈ (augment_conflict v s).conflict v
        ↔ w ∈ s.conflict v ∨ ∃ u ∈ s.in_conflict v, w ∈ s.conflict u ∧ w ≠ v)
    ∧ (∀ w x : Nat, w ≠ v → (x ∈ (augment_conflict v s).in_conflict w
        ↔ x ∈ s.in_conflict w ∨ (x = v ∧ ∃ u ∈ s.in_conflict v, w ∈ s.conflict u)))
    ∧ (augment_conflict v s).in_conflict v = []
    ∧ (∀ x : Nat, x ≠ v → (augment_conflict v s).conflict x = s.conflict x) := by
  refine ⟨?_, ?_, ?_, ?_⟩
  · intro w
    show w ∈ (augment_outer v (s.in_conflict v) s).conflict v ↔ _
    rw [augment_outer_conflict v _ s w v hv]
    constructor
    · rintro (⟨_, h⟩ | h)
      · exact Or.inr h
      · exact Or.inl h
    · rintro (h | h)
      · exact Or.inr h
      · exact Or.inl ⟨rfl, h⟩
  · intro w x hw
    show x ∈ Function.update (augment_outer v (s.in_conflict v) s).in_conflict v [] w ↔ _
    rw [Function.update_noteq hw, augment_outer_in_conflict v _ s x w hv]
    constructor
    · rintro (⟨h1, _, h2⟩ | h)
      · exact Or.inr ⟨h1, h2⟩
      · exact Or.inl h
    · rintro (h | ⟨h1, h2⟩)
      · exact Or.inr h
      · exact Or.inl ⟨h1, hw, h2⟩
  · show Function.update (augment_outer v (s.in_conflict v) s).in_conflict v [] v = []
    rw [Function.update_same]
  · intro x hx
    exact augment_outer_conflict_other v x hx _ s

/-- Witness for C18: with `conflict[0] = {1, 2}` and `in_conflict[1] = {0}`,
`augment_conflict(1)` lifts 2 into `conflict[1]` and adds 1 to `in_conflict[2]`. -/
theorem augment_conflict_post_witness :
    (1 ∉ augment_example_state.in_conflict 1)
    ∧ 2 ∈ (augment_conflict 1 augment_example_state).conflict 1
    ∧ 1 ∈ (augment_conflict 1 augment_example_state).in_conflict 2
    ∧ (augment_conflict 1 augment_example_state).in_conflict 1 = []
    ∧ (augment_conflict 1 augment_example_state).conflict 0 = [1, 2] := by
  have hv : 1 ∉ augment_example_state.in_conflict 1 := by decide
  have h := augment_conflict_post 1 augment_example_state hv
  refine ⟨hv, ?_, ?_, h.2.2.1, ?_⟩
  · exact (h.1 2).2 (Or.inr ⟨0, by decide, by decide, by decide⟩)
  · exact (h.2.1 2 1 (by decide)).2 (Or.inr ⟨rfl, 0, by decide, by decide⟩)
  · rw [h.2.2.2 0 (by decide)]; rfl

/-! ## C20: the index used for the tallies -/

theorem modify_loop_untouched (inc : Int) :
    ∀ (L : List Int) (s : State) (k : Int), k ∉ L →
      (modify_loop inc L s).nneg_app k = s.nneg_app k
      ∧ (modify_loop inc L s).npos_app k = s.npos_app k := by
  intro L
  induction L with
  | nil => intro s k _; exact ⟨rfl, rfl⟩
  | cons lit rest ih =>
    intro s k hk
    have hne : k ≠ lit := fun h => hk (by rw [h]; exact List.mem_cons_self _ _)
    have hrest : k ∉ rest := fun h => hk (List.mem_cons_of_mem _ h)
    unfold modify_loop
    split_ifs with hneg
    · exact ⟨((ih _ k hrest).1).trans (Function.update_noteq hne _ _), (ih _ k hrest).2⟩
    · exact ⟨(ih _ k hrest).1, ((ih _ k hrest).2).trans (Function.update_noteq hne _ _)⟩

/-- The cell that `modify_signed_appearances(c, inc)` changes for a literal `l` of a
clause without repeated literals is the cell at index `l` itself: `nneg_app[l]` for a
negative `l`, `npos_app[l]` for a positive one. -/
theorem modify_loop_writes_at_literal (inc : Int) :
    ∀ (L : List Int) (s : State) (l : Int), L.Nodup → l ∈ L →
      (l < 0 → (modify_loop inc L s).nneg_app l = s.nneg_app l + inc)
      ∧ (¬ l < 0 → (modify_loop inc L s).npos_app l = s.npos_app l + inc) := by
  intro L
  induction L with
  | nil => intro s l _ hl; simp at hl
  | cons lit rest ih =>
    intro s l hnd hl
    obtain ⟨hnot, hnd'⟩ := List.nodup_cons.1 hnd
    unfold modify_loop
    rcases List.mem_cons.1 hl with h | h
    · subst h
      split_ifs with hneg
      · refine ⟨fun _ => ?_, fun h => absurd hneg h⟩
        rw [(modify_loop_untouched inc rest _ l hnot).1]
        exact Function.update_same _ _ _
      · refine ⟨fun h => absurd h hneg, fun _ => ?_⟩
        rw [(modify_loop_untouched inc rest _ l hnot).2]
        exact Function.update_same _ _ _
    · have hne : l ≠ lit := fun h' => hnot (by rw [← h']; exact h)
      split_ifs with hneg
      · refine ⟨fun hl0 => ((ih _ l hnd' h).1 hl0).trans ?_, fun hl0 => (ih _ l hnd' h).2 hl0⟩
        show Function.update s.nneg_app lit (s.nneg_app lit + inc) l + inc = _
        rw [Function.update_noteq hne]
      · refine ⟨fun hl0 => (ih _ l hnd' h).1 hl0, fun hl0 => ((ih _ l hnd' h).2 hl0).trans ?_⟩
        show Function.update s.npos_app lit (s.npos_app lit + inc) l + inc = _
        rw [Function.update_noteq hne]

/-- C20 fails on the code: `modify_signed_appearances` indexes the tallies with the
literal.  On `p cnf 1 1 / -1 0` the run `dfs(0)` assigns `-1` to variable 0,
`mark_signed_appearances(0)` adds 1 to `nneg_app[-1]` (index `-1`, below the array),
and the run ends SAT with that cell at 1 where the loader left 0.  On
`p cnf 1 1 / 1 0` it adds 1 to `npos_app[1]`, index `V = 1`, one past the array. -/
theorem tally_index_out_of_bounds :
    (init_state [[-1]]).nneg_app (-1) = 0
    ∧ (mark_signed_appearances (load_formula 1 [[-1]]) 0 (init_state [[-1]])).nneg_app (-1) = 1
    ∧ (dfs (load_formula 1 [[-1]]) 5 5 0 (init_state [[-1]])).map
        (fun r => (r.1, r.2.nneg_app (-1))) = some (true, 1)
    ∧ (init_state [[1]]).npos_app 1 = 0
    ∧ (load_formula 1 [[1]]).V = 1
    ∧ (mark_signed_appearances (load_formula 1 [[1]]) 0 (init_state [[1]])).npos_app 1 = 1
    ∧ (dfs (load_formula 1 [[1]]) 5 5 0 (init_state [[1]])).map
        (fun r => (r.1, r.2.npos_app 1)) = some (true, 1) := by
  refine ⟨by decide!, by decide!, by decide!, by decide!, rfl, by decide!, by decide!⟩

/-! ## C12: the capacity of the propagation queue -/

theorem range_filter_succ (n : Nat) (p : Nat → Bool) :
    ((List.range (n + 1)).filter p).length
      = ((List.range n).filter p).length + (if p n = true then 1 else 0) := by
  rw [List.range_succ, List.filter_append, List.length_append]
  by_cases h : p n = true
  · simp [h]
  · simp [h]

theorem range_filter_le (n : Nat) (p : Nat → Bool) : ((List.range n).filter p).length ≤ n := by
  have := List.length_filter_le p (List.range n)
  simpa using this

theorem range_filter_mono (p q : Nat → Bool) :
    ∀ n : Nat, (∀ i : Nat, i < n → p i = true → q i = true) →
      ((List.range n).filter p).length ≤ ((List.range n).filter q).length := by
  intro n
  induction n with
  | zero => intro _; simp
  | succ n ih =>
    intro h
    rw [range_filter_succ, range_filter_succ]
    have h1 := ih (fun i hi => h i (by omega))
    have h2 := h n (by omega)
    by_cases hp : p n = true
    · rw [if_pos hp, if_pos (h2 hp)]; omega
    · rw [if_neg hp]; split_ifs <;> omega

theorem range_filter_strict (p q : Nat → Bool) (c : Nat) (hp : p c = false) (hq : q c = true) :
    ∀ n : Nat, c < n → (∀ i : Nat, i < n → p i = true → q i = true) →
      ((List.range n).filter p).length + 1 ≤ ((List.range n).filter q).length := by
  intro n
  induction n with
  | zero => intro hc; omega
  | succ n ih =>
    intro hc h
    rw [range_filter_succ, range_filter_succ]
    by_cases hcn : c = n
    · subst hcn
      have h1 := range_filter_mono p q c (fun i hi => h i (by omega))
      rw [if_neg (by rw [hp]; decide), if_pos hq]
      omega
    · have h1 := ih (by omega) (fun i hi => h i (by omega))
      have h2 := h n (by omega)
      by_cases hpn : p n = true
      · rw [if_pos hpn, if_pos (h2 hpn)]; omega
      · rw [if_neg hpn]; split_ifs <;> omega

theorem low_count_le (C : Nat) (rem : Nat → Int) : low_count C rem ≤ C :=
  range_filter_le C _

theorem low_count_dec (C c : Nat) (rem : Nat → Int) :
    low_count C rem ≤ low_count C (Function.update rem c (rem c - 1)) := by
  apply range_filter_mono
  intro i _ hi
  simp only [decide_eq_true_eq] at hi ⊢
  by_cases h : i = c
  · subst h; rw [Function.update_same]; omega
  · rw [Function.update_noteq h]; exact hi

theorem low_count_dec_strict (C c : Nat) (rem : Nat → Int) (hc : c < C) (h2 : rem c = 2) :
    low_count C rem + 1 ≤ low_count C (Function.update rem c (rem c - 1)) := by
  apply range_filter_strict _ _ c _ _ C hc
  · intro i _ hi
    simp only [decide_eq_true_eq] at hi ⊢
    by_cases h : i = c
    · subst h; rw [Function.update_same]; omega
    · rw [Function.update_noteq h]; exact hi
  · simp [h2]
  · simp [h2]

theorem QueueAbove.above_refl (B : Nat) (s : State) : QueueAbove B s s := fun _ _ => rfl

theorem QueueAbove.above_trans {B : Nat} {s t u : State} (h1 : QueueAbove B s t)
    (h2 : QueueAbove B t u) : QueueAbove B s u :=
  fun j hj => (h2 j hj).trans (h1 j hj)

theorem SameQueue.above {s t : State} (h : SameQueue s t) (B : Nat) : QueueAbove B s t :=
  fun j _ => by rw [h.propagation_queue]

theorem enqueue_loop_write (c : Nat) :
    ∀ (L : List Int) (s : State), (enqueue_loop c L s).npropped ≤ s.npropped + 1
      ∧ ∀ j : Nat, j ≠ s.npropped →
          (enqueue_loop c L s).propagation_queue j = s.propagation_queue j := by
  intro L
  induction L with
  | nil => intro s; exact ⟨Nat.le_succ _, fun _ _ => rfl⟩
  | cons lit rest ih =>
    intro s
    unfold enqueue_loop
    split_ifs with h
    · exact ⟨le_refl _, fun j hj => Function.update_noteq hj _ _⟩
    · exact ih s

theorem unassign_step_queue (F : Formula) (v : Nat) (sign : Int) (a : Int) (t : State) :
    SameQueue t (unassign_step F v sign a t) := by
  unfold unassign_step
  dsimp only
  split_ifs
  · obtain ⟨_, _, _, _, h5, _, _⟩ := clear_satisfier_frame F (a.natAbs - 1)
      (rem_inc (a.natAbs - 1) t)
    exact ⟨h5.propagation_queue, h5.npropped, h5.propping_clause⟩
  · exact ⟨rfl, rfl, rfl⟩
  · obtain ⟨_, h2, _, _⟩ := unassign_own_tally_frame v sign (rem_inc (a.natAbs - 1) t)
    exact ⟨h2.propagation_queue, h2.npropped, h2.propping_clause⟩

theorem unassign_loop_queue (F : Formula) (v : Nat) (sign : Int) (L : List Int) (t : State) :
    SameQueue t (unassign_loop F v sign L t) := by
  induction L generalizing t with
  | nil => exact SameQueue.queue_refl t
  | cons a rest ih =>
    rw [unassign_loop]
    exact (unassign_step_queue F v sign a t).queue_trans (ih _)

theorem unassign_upto_queue (F : Formula) (v : Nat) (sign : Int) (upto : Nat) (s : State) :
    SameQueue s (unassign_upto F v sign upto s) := by
  unfold unassign_upto
  split_ifs
  · exact SameQueue.queue_refl s
  · have := unassign_loop_queue F v sign ((F.appearances v).take upto)
      { s with assn := Function.update s.assn v 0 }
    exact ⟨this.propagation_queue, this.npropped, this.propping_clause⟩

theorem assign_loop_cap (F : Formula) (v : Nat) (sign : Int) :
    ∀ (L : List Int) (i : Nat) (s : State), (∀ a ∈ L, a.natAbs - 1 < F.C) → CapInv F s →
      ((assign_loop F v sign L i s).1 = true → CapInv F (assign_loop F v sign L i s).2)
      ∧ (assign_loop F v sign L i s).2.npropped ≤ F.C
      ∧ QueueAbove F.C s (assign_loop F v sign L i s).2
      ∧ s.npropped ≤ (assign_loop F v sign L i s).2.npropped := by
  intro L
  induction L with
  | nil =>
    intro i s _ h
    exact ⟨fun _ => h, le_trans h (low_count_le _ _), QueueAbove.above_refl _ s, le_refl _⟩
  | cons a rest ih =>
    intro i s hr h
    have hc : a.natAbs - 1 < F.C := hr a (List.mem_cons_self _ _)
    have hr' : ∀ b ∈ rest, b.natAbs - 1 < F.C := fun b hb => hr b (List.mem_cons_of_mem _ hb)
    have hle : s.npropped ≤ F.C := le_trans h (low_count_le _ _)
    have h1 : CapInv F (rem_dec (a.natAbs - 1) s) :=
      le_trans h (low_count_dec F.C (a.natAbs - 1) s.rem)
    have f2 := assign_own_tally_frame v sign (rem_dec (a.natAbs - 1) s)
    have h2 : CapInv F (assign_own_tally v sign (rem_dec (a.natAbs - 1) s)) := by
      unfold CapInv
      rw [f2.2.1.npropped, f2.1.rem]
      exact h1
    rw [assign_loop]
    dsimp only
    split_ifs with hpos hs0 hs0' hr0 hr1
    · have f := set_satisfier_frame F v (a.natAbs - 1) (rem_dec (a.natAbs - 1) s)
      have h3 : CapInv F (set_satisfier F v (a.natAbs - 1) (rem_dec (a.natAbs - 1) s)) := by
        unfold CapInv
        rw [f.2.2.2.2.1.npropped, f.2.1]
        exact h1
      obtain ⟨g1, g2, g3, g4⟩ := ih (i + 1) _ hr' h3
      refine ⟨g1, g2, ?_, ?_⟩
      · exact (f.2.2.2.2.1.above F.C).above_trans g3
      · rw [f.2.2.2.2.1.npropped] at g4
        exact g4
    · obtain ⟨g1, g2, g3, g4⟩ := ih (i + 1) _ hr' h1
      exact ⟨g1, g2, g3, g4⟩
    · refine ⟨fun hh => by simp at hh, ?_, ?_, ?_⟩
      · show (unassign_upto F v sign (i + 1) _).npropped ≤ F.C
        rw [(unassign_upto_queue F v sign _ _).npropped,
          (backprop_conflict_frame F v _ _).2.1.npropped, f2.2.1.npropped]
        exact hle
      · exact (f2.2.1.above F.C).above_trans
          (((backprop_conflict_frame F v _ _).2.1.above F.C).above_trans
            ((unassign_upto_queue F v sign _ _).above F.C))
      · show s.npropped ≤ (unassign_upto F v sign (i + 1) _).npropped
        rw [(unassign_upto_queue F v sign _ _).npropped,
          (backprop_conflict_frame F v _ _).2.1.npropped, f2.2.1.npropped]
        exact le_refl _
    · have hrem2 : s.rem (a.natAbs - 1) = 2 := by
        have : (assign_own_tally v sign (rem_dec (a.natAbs - 1) s)).rem (a.natAbs - 1)
            = s.rem (a.natAbs - 1) - 1 := by
          rw [f2.1.rem]
          show Function.update s.rem (a.natAbs - 1) (s.rem (a.natAbs - 1) - 1) (a.natAbs - 1) = _
          rw [Function.update_same]
        rw [this] at hr1
        omega
      have hstrict : s.npropped + 1 ≤ low_count F.C (rem_dec (a.natAbs - 1) s).rem :=
        le_trans (Nat.add_le_add_right h 1) (low_count_dec_strict F.C _ s.rem hc hrem2)
      have e1 := enqueue_loop_spec (a.natAbs - 1) (F.clauses (a.natAbs - 1))
        (assign_own_tally v sign (rem_dec (a.natAbs - 1) s))
      have e2 := enqueue_loop_write (a.natAbs - 1) (F.clauses (a.natAbs - 1))
        (assign_own_tally v sign (rem_dec (a.natAbs - 1) s))
      have hnp : (assign_own_tally v sign (rem_dec (a.natAbs - 1) s)).npropped = s.npropped :=
        f2.2.1.npropped
      have h3 : CapInv F (enqueue_unit_propagation F (a.natAbs - 1)
          (assign_own_tally v sign (rem_dec (a.natAbs - 1) s))) := by
        unfold CapInv enqueue_unit_propagation
        rw [e1.1.rem, f2.1.rem]
        have := e2.1
        rw [hnp] at this
        exact le_trans this hstrict
      obtain ⟨g1, g2, g3, g4⟩ := ih (i + 1) _ hr' h3
      refine ⟨g1, g2, ?_, ?_⟩
      · refine (f2.2.1.above F.C).above_trans (QueueAbove.above_trans ?_ g3)
        intro j hj
        unfold enqueue_unit_propagation
        apply e2.2 j
        rw [hnp]
        have := low_count_le F.C (rem_dec (a.natAbs - 1) s).rem
        omega
      · have := e1.2.2.2.2.1.le
        unfold enqueue_unit_propagation at g4
        rw [hnp] at this
        exact le_trans this g4
    · obtain ⟨g1, g2, g3, g4⟩ := ih (i + 1) _ hr' h2
      refine ⟨g1, g2, (f2.2.1.above F.C).above_trans g3, ?_⟩
      rw [f2.2.1.npropped] at g4
      exact g4
    · obtain ⟨g1, g2, g3, g4⟩ := ih (i + 1) _ hr' h2
      refine ⟨g1, g2, (f2.2.1.above F.C).above_trans g3, ?_⟩
      rw [f2.2.1.npropped] at g4
      exact g4

theorem assign_cap {F : Formula} (hr : AppsInRange F) (v : Nat) (sign : Int) (s : State)
    (h : CapInv F s) :
    ((assign F v sign s).1 = true → CapInv F (assign F v sign s).2)
    ∧ (assign F v sign s).2.npropped ≤ F.C
    ∧ QueueAbove F.C s (assign F v sign s).2
    ∧ s.npropped ≤ (assign F v sign s).2.npropped := by
  unfold assign
  split_ifs
  · exact ⟨fun _ => h, le_trans h (low_count_le _ _), QueueAbove.above_refl _ s, le_refl _⟩
  · exact assign_loop_cap F v sign (F.appearances v) 0
      { s with assn := Function.update s.assn v sign } (hr v) h

theorem unassign_queue (F : Formula) (v : Nat) (sign : Int) (s : State) :
    SameQueue s (unassign F v sign s) :=
  unassign_upto_queue F v sign _ s

theorem undo_loop_queue (F : Formula) (low : Nat) :
    ∀ (k : Nat) (s : State),
      (undo_loop F low k s).propagation_queue = s.propagation_queue := by
  intro k
  induction k with
  | zero => intro s; rfl
  | succ k ih =>
    intro s
    rw [undo_loop]
    rw [ih, (unassign_queue F _ _ _).propagation_queue,
      (backprop_conflict_frame F _ _ s).2.1.propagation_queue]

theorem undo_unit_propagations_queue (F : Formula) (low high : Nat) (s : State) :
    (undo_unit_propagations F low high s).propagation_queue = s.propagation_queue :=
  undo_loop_queue F low (high - low) s

theorem clear_conflict_cap {F : Formula} (v : Nat) {s : State} (h : CapInv F s) :
    CapInv F (clear_conflict v s) := h

theorem do_unit_propagations_cap {F : Formula} (hr : AppsInRange F) (frm : Nat) :
    ∀ (fuel i : Nat) (s : State) (r : Bool × State), CapInv F s →
      do_unit_propagations F frm fuel i s = some r →
      (r.1 = true → CapInv F r.2) ∧ QueueAbove F.C s r.2 := by
  intro fuel
  induction fuel with
  | zero => intro i s r _ hres; simp [do_unit_propagations] at hres
  | succ fuel ih =>
    intro i s r h hres
    rw [do_unit_propagations] at hres
    by_cases hi : i < s.npropped
    · rw [if_pos hi] at hres
      dsimp only at hres
      obtain ⟨a1, a2, a3, a4⟩ := assign_cap hr (varid (s.propagation_queue i))
        (sign_of (s.propagation_queue i)) (clear_conflict (varid (s.propagation_queue i)) s)
        (clear_conflict_cap _ h)
      have a3' : QueueAbove F.C s (assign F (varid (s.propagation_queue i))
          (sign_of (s.propagation_queue i))
          (clear_conflict (varid (s.propagation_queue i)) s)).2 := a3
      cases hE : assign F (varid (s.propagation_queue i)) (sign_of (s.propagation_queue i))
          (clear_conflict (varid (s.propagation_queue i)) s) with
      | mk bA s2 =>
        rw [hE] at hres a1 a3'
        cases bA with
        | false =>
          simp only [Option.some.injEq] at hres
          subst hres
          refine ⟨fun hh => by simp at hh, ?_⟩
          intro j hj
          show (undo_unit_propagations F frm i s2).propagation_queue j = s.propagation_queue j
          rw [undo_unit_propagations_queue]
          exact a3' j hj
        | true =>
          obtain ⟨g1, g2⟩ := ih (i + 1) s2 r (a1 rfl) hres
          exact ⟨g1, a3'.above_trans g2⟩
    · rw [if_neg hi] at hres
      simp only [Option.some.injEq] at hres
      subst hres
      exact ⟨fun _ => h, QueueAbove.above_refl _ s⟩

theorem do_unit_propagations_total {F : Formula} (hr : AppsInRange F) (frm : Nat) :
    ∀ (fuel i : Nat) (s : State), CapInv F s → i ≤ s.npropped → F.C + 1 ≤ fuel + i →
      ∃ r : Bool × State, do_unit_propagations F frm fuel i s = some r := by
  intro fuel
  induction fuel with
  | zero =>
    intro i s h hi hf
    have := le_trans h (low_count_le _ _)
    omega
  | succ fuel ih =>
    intro i s h hi hf
    rw [do_unit_propagations]
    by_cases hlt : i < s.npropped
    · rw [if_pos hlt]
      dsimp only
      obtain ⟨a1, _, _, a4⟩ := assign_cap hr (varid (s.propagation_queue i))
        (sign_of (s.propagation_queue i)) (clear_conflict (varid (s.propagation_queue i)) s)
        (clear_conflict_cap _ h)
      have a4' : s.npropped ≤ (assign F (varid (s.propagation_queue i))
          (sign_of (s.propagation_queue i))
          (clear_conflict (varid (s.propagation_queue i)) s)).2.npropped := a4
      cases hE : assign F (varid (s.propagation_queue i)) (sign_of (s.propagation_queue i))
          (clear_conflict (varid (s.propagation_queue i)) s) with
      | mk bA s2 =>
        rw [hE] at a1 a4'
        cases bA with
        | false => exact ⟨_, rfl⟩
        | true =>
          dsimp only
          dsimp only at a4'
          exact ih (i + 1) s2 (a1 rfl) (by omega) (by omega)
    · rw [if_neg hlt]
      exact ⟨_, rfl⟩

/-- The state in which `try_value(v, sign, l)` calls `dfs(l+1)`: the invariant holds,
`v` is set, and no variable set at the entry of `try_value` has been unset. -/
theorem try_value_mid {F : Formula} (hwf : WellFormed F) (pf : Nat)
    {v : Nat} {sign : Int} {s s1 s2 : State}
    (hinv : Inv F s) (hv : s.assn v = 0) (hstamp : s.npropped_at v = s.npropped)
    (hsign : sign = 1 ∨ sign = -1) (hA : assign F v sign s = (true, s1))
    (hD : do_unit_propagations F (s1.npropped_at v) pf (s1.npropped_at v) s1 = some (true, s2)) :
    Inv F s2 ∧ s2.assn v ≠ 0 ∧ (∀ u : Nat, s2.assn u = 0 → s.assn u = 0)
      ∧ s2.npropped_at v = s.npropped := by
  have hs0 : sign ≠ 0 := by rcases hsign with h | h <;> rw [h] <;> decide
  obtain ⟨he, _⟩ := assign_true hwf hv hA
  obtain ⟨hinv1, hassn1⟩ := assign_true_inv hwf hinv hv hsign hA
  have hstamp1 : s1.npropped_at = s.npropped_at := he.npropped_at
  have hgrow1 : QueueGrows s s1 := ⟨he.grows.le, he.grows.old⟩
  have hp0 : s1.npropped_at v = s.npropped := by rw [hstamp1, hstamp]
  rw [hp0] at hD
  have hready : PropReady F s1 s.npropped s.npropped s1 := by
    refine ⟨hinv1, Ext.ext_refl s1, le_refl _, hgrow1.le, ?_, ?_, ?_, ?_⟩
    · intro j hj1 hj2
      have := (he.fresh j hj1 hj2).1
      rw [hassn1]; exact this
    · intro j hj1 hj2; omega
    · intro j hj1 hj2
      obtain ⟨f1, c, f2, f3, f4⟩ := he.fresh j hj1 hj2
      have f1' : s1.assn (varid (s1.propagation_queue j)) = 0 := by rw [hassn1]; exact f1
      right
      have hpos := Inv.unset_count_pos (F := F) f2 f1'
      rw [← hinv1.rem c] at hpos
      exact ⟨f1', c, f2, by omega, f4 (by omega)⟩
    · intro u hu; left; exact hu
  obtain ⟨d1, _⟩ := do_unit_propagations_spec hwf hinv1 s.npropped pf s.npropped s1
    (true, s2) hready hD
  obtain ⟨p1, _, p3⟩ := d1 rfl
  have p1' : PropReady F s1 s.npropped s2.npropped s2 := p1
  have p3' : s2.npropped_at = s1.npropped_at := p3
  have h1v : s1.assn v = sign := by rw [hassn1, Function.update_same]
  refine ⟨p1'.inv, ?_, ?_, ?_⟩
  · rw [p1'.ext.assn v (by rw [h1v]; exact hs0), h1v]
    exact hs0
  · intro u hu
    by_contra hne
    have hne_v : u ≠ v := fun h => hne (by rw [h]; exact hv)
    have h1u : s1.assn u = s.assn u := by rw [hassn1, Function.update_noteq hne_v]
    have : s1.assn u ≠ 0 := by rw [h1u]; exact hne
    rw [p1'.ext.assn u this, h1u] at hu
    exact hne hu
  · rw [p3', hp0]

/-- A call `try_value(v, sign, l)` whose `assign` succeeded and that returns failure
has brought the queue length back to the snapshot. -/
theorem try_value_queue_restored {F : Formula} (hwf : WellFormed F) (pf : Nat)
    {dfs_next : State → Option (Bool × State)} (hnext : DfsSpec F dfs_next)
    {v : Nat} {sign : Int} {s : State} {r : Bool × State}
    (hinv : Inv F s) (hv : s.assn v = 0) (hstamp : s.npropped_at v = s.npropped)
    (hsign : sign = 1 ∨ sign = -1)
    (hres : try_value F pf dfs_next v sign s = some r) (hf : r.1 = false)
    (hA : (assign F v sign s).1 = true) : r.2.npropped = s.npropped := by
  obtain ⟨_, _, _, t4, _⟩ := (try_value_spec hwf pf hnext hinv hv hstamp hsign hres).2 hf
  have hst : r.2.npropped_at v = s.npropped_at v := t4 v (Or.inr rfl)
  rw [← hstamp, ← hst]
  unfold try_value at hres
  cases hE : assign F v sign s with
  | mk bA s1 =>
  rw [hE] at hres hA
  dsimp only at hA
  subst hA
  dsimp only at hres
  have he := (assign_true hwf hv hE).1
  cases hD : do_unit_propagations F (s1.npropped_at v) pf (s1.npropped_at v) s1 with
  | none => rw [hD] at hres; simp at hres
  | some rd =>
  obtain ⟨bD, s2⟩ := rd
  rw [hD] at hres
  cases bD with
  | false =>
    simp only [Option.some.injEq] at hres
    subst hres
    have h1 := do_unit_propagations_false_npropped _ _ pf _ s1 s2 hD
    have h2 := (unassign_frame hwf v sign s2).1.npropped
    show (unassign F v sign s2).npropped = (unassign F v sign s2).npropped_at v
    have hst' : (unassign F v sign s2).npropped_at v = s.npropped_at v := hst
    rw [h2, h1, hst', he.npropped_at]
  | true =>
    dsimp only at hres
    cases hN : dfs_next s2 with
    | none => rw [hN] at hres; simp at hres
    | some rn =>
    obtain ⟨bN, s3⟩ := rn
    rw [hN] at hres
    cases bN with
    | true =>
      simp only [Option.some.injEq] at hres
      subst hres
      simp at hf
    | false =>
      simp only [Option.some.injEq] at hres
      subst hres
      show (unassign F v sign
          (undo_unit_propagations F (s3.npropped_at v) s3.npropped s3)).npropped
        = (unassign F v sign
          (undo_unit_propagations F (s3.npropped_at v) s3.npropped s3)).npropped_at v
      rw [(unassign_frame hwf v sign _).1.npropped, (unassign_frame hwf v sign _).2.2,
        undo_unit_propagations_npropped_at hwf]
      rfl

theorem try_value_cap {F : Formula} (hwf : WellFormed F) (pf : Nat)
    {dfs_next : State → Option (Bool × State)} (hnext : DfsSpec F dfs_next)
    (hcap : CapSpec F dfs_next)
    {v : Nat} {sign : Int} {s : State} {r : Bool × State}
    (hinv : Inv F s) (hc : CapInv F s) (hv : s.assn v = 0)
    (hstamp : s.npropped_at v = s.npropped) (hsign : sign = 1 ∨ sign = -1)
    (hres : try_value F pf dfs_next v sign s = some r) :
    QueueAbove F.C s r.2 ∧ r.2.npropped ≤ F.C := by
  have hsC : s.npropped ≤ F.C := le_trans hc (low_count_le _ _)
  have hrest := fun (hf : r.1 = false) (hA : (assign F v sign s).1 = true) =>
    try_value_queue_restored hwf pf hnext hinv hv hstamp hsign hres hf hA
  obtain ⟨a1, a2, a3, _⟩ := assign_cap hwf.in_range v sign s hc
  unfold try_value at hres
  cases hE : assign F v sign s with
  | mk bA s1 =>
  rw [hE] at hres a1 a2 a3 hrest
  cases bA with
  | false =>
    simp only [Option.some.injEq] at hres
    subst hres
    exact ⟨a3, a2⟩
  | true =>
    dsimp only at hres a1 a3 hrest
    cases hD : do_unit_propagations F (s1.npropped_at v) pf (s1.npropped_at v) s1 with
    | none => rw [hD] at hres; simp at hres
    | some rd =>
    obtain ⟨bD, s2⟩ := rd
    rw [hD] at hres
    obtain ⟨d1, d2⟩ := do_unit_propagations_cap hwf.in_range _ pf _ s1 (bD, s2) (a1 rfl) hD
    have d2' : QueueAbove F.C s1 s2 := d2
    cases bD with
    | false =>
      simp only [Option.some.injEq] at hres
      subst hres
      refine ⟨?_, ?_⟩
      · exact a3.above_trans (d2'.above_trans ((unassign_queue F v sign s2).above F.C))
      · rw [hrest rfl rfl]; exact hsC
    | true =>
      dsimp only at hres
      obtain ⟨m1, _, _, _⟩ := try_value_mid hwf pf hinv hv hstamp hsign hE hD
      cases hN : dfs_next s2 with
      | none => rw [hN] at hres; simp at hres
      | some rn =>
      obtain ⟨bN, s3⟩ := rn
      rw [hN] at hres
      obtain ⟨n1, n2⟩ := hcap s2 (bN, s3) m1 (d1 rfl) hN
      have n1' : QueueAbove F.C s2 s3 := n1
      cases bN with
      | true =>
        simp only [Option.some.injEq] at hres
        subst hres
        exact ⟨a3.above_trans (d2'.above_trans n1'), n2⟩
      | false =>
        simp only [Option.some.injEq] at hres
        subst hres
        refine ⟨?_, ?_⟩
        · refine a3.above_trans (d2'.above_trans (n1'.above_trans ?_))
          intro j _
          show (unassign F v sign _).propagation_queue j = s3.propagation_queue j
          rw [(unassign_queue F v sign _).propagation_queue, undo_unit_propagations_queue]
        · rw [hrest rfl rfl]; exact hsC

theorem branch_entry_ready {F : Formula} {s : State} (v : Nat) (hinv : Inv F s)
    (hc : CapInv F s) :
    Inv F (branch_entry v s) ∧ CapInv F (branch_entry v s)
      ∧ (branch_entry v s).npropped_at v = (branch_entry v s).npropped
      ∧ (branch_entry v s).assn = s.assn
      ∧ (branch_entry v s).propagation_queue = s.propagation_queue
      ∧ (branch_entry v s).npropped = s.npropped := by
  have hsc : SameCore s (branch_entry v s) := ⟨rfl, rfl, rfl, rfl⟩
  refine ⟨Inv.inv_congr hsc hinv, hc, ?_, rfl, rfl, rfl⟩
  show Function.update s.npropped_at v s.npropped v = s.npropped
  rw [Function.update_same]

/-- The state from which `dfs` makes its second call of `try_value`: after a first
call that failed with `in_conflict[v]` non-empty, the assignment state and the queue
length are those of the entry. -/
theorem second_try_ready {F : Formula} (hwf : WellFormed F) (pf : Nat)
    {dfs_next : State → Option (Bool × State)} (hnext : DfsSpec F dfs_next)
    {v : Nat} {sign : Int} {s s2 : State}
    (hinv : Inv F s) (hc : CapInv F s) (hv : s.assn v = 0)
    (hstamp : s.npropped_at v = s.npropped) (hsign : sign = 1 ∨ sign = -1)
    (hres : try_value F pf dfs_next v sign s = some (false, s2))
    (hconf : in_conflict_set s2 v = true) :
    Inv F (augment_conflict v s2) ∧ CapInv F (augment_conflict v s2)
      ∧ (augment_conflict v s2).assn = s.assn
      ∧ (augment_conflict v s2).npropped_at v = (augment_conflict v s2).npropped := by
  obtain ⟨t1, _, _, t4, t5⟩ :=
    (try_value_spec hwf pf hnext hinv hv hstamp hsign hres).2 rfl
  have t1' : SameCore s s2 := t1
  have hnp : s2.npropped = s.npropped := by
    rcases t5 with h | h
    · have h' : s2.in_conflict v = [] := h
      simp [in_conflict_set, h'] at hconf
    · exact h
  have hst : s2.npropped_at v = s.npropped_at v := t4 v (Or.inr rfl)
  obtain ⟨g1, g2, _, g4⟩ := augment_conflict_frame v s2
  refine ⟨Inv.inv_congr (t1'.core_trans g1) hinv, ?_, ?_, ?_⟩
  · unfold CapInv
    rw [g2.npropped, g1.rem, hnp, t1'.rem]
    exact hc
  · rw [g1.assn, t1'.assn]
  · rw [g4, g2.npropped, hst, hnp, hstamp]

theorem dfs_branch_cap {F : Formula} (hwf : WellFormed F) (pf : Nat)
    {dfs_next : State → Option (Bool × State)} (hnext : DfsSpec F dfs_next)
    (hcap : CapSpec F dfs_next)
    {v : Nat} {s : State} {r : Bool × State}
    (hinv : Inv F s) (hc : CapInv F s) (hv : s.assn v = 0)
    (hres : dfs_branch F pf dfs_next v s = some r) :
    QueueAbove F.C s r.2 ∧ r.2.npropped ≤ F.C := by
  rw [dfs_branch_eq] at hres
  obtain ⟨b1, b2, b3, b4, b5, b6⟩ := branch_entry_ready v hinv hc
  have hv1 : (branch_entry v s).assn v = 0 := by rw [b4]; exact hv
  have hq1 : QueueAbove F.C s (branch_entry v s) := fun j _ => by rw [b5]
  have hsg1 : first_try s v = 1 ∨ first_try s v = -1 := by
    unfold first_try; split_ifs
    · exact Or.inl rfl
    · exact Or.inr rfl
  have hsg2 : second_try s v = 1 ∨ second_try s v = -1 := by
    unfold second_try; split_ifs
    · exact Or.inr rfl
    · exact Or.inl rfl
  cases hT : try_value F pf dfs_next v (first_try s v) (branch_entry v s) with
  | none => rw [hT] at hres; simp at hres
  | some rt =>
  obtain ⟨bT, s2⟩ := rt
  rw [hT] at hres
  obtain ⟨c1, c2⟩ := try_value_cap hwf pf hnext hcap b1 b2 hv1 b3 hsg1 hT
  have c1' : QueueAbove F.C (branch_entry v s) s2 := c1
  cases bT with
  | true =>
    simp only [Option.some.injEq] at hres
    subst hres
    exact ⟨hq1.above_trans c1', c2⟩
  | false =>
    dsimp only at hres
    by_cases hconf : in_conflict_set s2 v = true
    · rw [if_pos hconf] at hres
      obtain ⟨e1, e2, e3, e4⟩ := second_try_ready hwf pf hnext b1 b2 hv1 b3 hsg1 hT hconf
      have hv2 : (augment_conflict v s2).assn v = 0 := by rw [e3]; exact hv1
      obtain ⟨k1, k2⟩ := try_value_cap hwf pf hnext hcap e1 e2 hv2 e4 hsg2 hres
      refine ⟨?_, k2⟩
      exact hq1.above_trans (c1'.above_trans
        (((augment_conflict_frame v s2).2.1.above F.C).above_trans k1))
    · rw [if_neg hconf] at hres
      simp only [Option.some.injEq] at hres
      subst hres
      exact ⟨hq1.above_trans c1', c2⟩

theorem dfs_cap {F : Formula} (hwf : WellFormed F) (pf : Nat) :
    ∀ (fuel l : Nat), CapSpec F (dfs F pf fuel l) := by
  intro fuel
  induction fuel with
  | zero => intro l s r _ _ hres; simp [dfs] at hres
  | succ fuel ih =>
    intro l s r hinv hc hres
    have hsC : s.npropped ≤ F.C := le_trans hc (low_count_le _ _)
    rw [dfs] at hres
    by_cases h0 : s.nunsat = 0
    · rw [if_pos h0] at hres
      simp only [Option.some.injEq] at hres
      subst hres
      exact ⟨QueueAbove.above_refl _ s, hsC⟩
    · rw [if_neg h0] at hres
      dsimp only at hres
      by_cases hm : most_constrained_var F s = -1
      · rw [if_pos hm] at hres
        simp only [Option.some.injEq] at hres
        subst hres
        exact ⟨QueueAbove.above_refl _ s, hsC⟩
      · rw [if_neg hm] at hres
        exact dfs_branch_cap hwf pf (dfs_spec hwf pf fuel (l + 1)) (ih (l + 1)) hinv hc
          (most_constrained_var_unset F s hm).1 hres

/-! ## C19: termination of the search -/

theorem unset_vars_lt (V : Nat) (a b : Nat → Int) (v : Nat) (hv : v < V)
    (h : ∀ u : Nat, b u = 0 → a u = 0) (ha : a v = 0) (hb : b v ≠ 0) :
    unset_vars V b < unset_vars V a := by
  have := range_filter_strict (fun u => decide (b u = 0)) (fun u => decide (a u = 0)) v
    (by simp [hb]) (by simp [ha]) V hv
    (fun i _ hi => by
      simp only [decide_eq_true_eq] at hi ⊢
      exact h i hi)
  unfold unset_vars
  omega

theorem try_value_total {F : Formula} (hwf : WellFormed F) (pf : Nat) (hpf : F.C < pf)
    {dfs_next : State → Option (Bool × State)}
    {v : Nat} {sign : Int} {s : State}
    (hinv : Inv F s) (hc : CapInv F s) (hv : s.assn v = 0) (hvV : v < F.V)
    (hstamp : s.npropped_at v = s.npropped) (hsign : sign = 1 ∨ sign = -1)
    (htot : ∀ s2 : State, Inv F s2 → CapInv F s2 →
      unset_vars F.V s2.assn < unset_vars F.V s.assn →
      ∃ r : Bool × State, dfs_next s2 = some r) :
    ∃ r : Bool × State, try_value F pf dfs_next v sign s = some r := by
  obtain ⟨a1, _, _, a4⟩ := assign_cap hwf.in_range v sign s hc
  unfold try_value
  cases hE : assign F v sign s with
  | mk bA s1 =>
  rw [hE] at a1 a4
  cases bA with
  | false => exact ⟨_, rfl⟩
  | true =>
    dsimp only at a1 a4 ⊢
    have he := (assign_true hwf hv hE).1
    have hp0 : s1.npropped_at v = s.npropped := by rw [he.npropped_at, hstamp]
    obtain ⟨rd, hD⟩ := do_unit_propagations_total hwf.in_range (s1.npropped_at v) pf
      (s1.npropped_at v) s1 (a1 rfl) (by rw [hp0]; exact a4) (by omega)
    obtain ⟨bD, s2⟩ := rd
    rw [hD]
    cases bD with
    | false => exact ⟨_, rfl⟩
    | true =>
      dsimp only
      obtain ⟨m1, m2, m3, _⟩ := try_value_mid hwf pf hinv hv hstamp hsign hE hD
      have hc2 := (do_unit_propagations_cap hwf.in_range _ pf _ s1 (true, s2) (a1 rfl) hD).1 rfl
      obtain ⟨rn, hN⟩ := htot s2 m1 hc2 (unset_vars_lt F.V s.assn s2.assn v hvV m3 hv m2)
      obtain ⟨bN, s3⟩ := rn
      rw [hN]
      cases bN with
      | true => exact ⟨_, rfl⟩
      | false => exact ⟨_, rfl⟩

theorem dfs_branch_total {F : Formula} (hwf : WellFormed F) (pf : Nat) (hpf : F.C < pf)
    {dfs_next : State → Option (Bool × State)} (hnext : DfsSpec F dfs_next)
    {v : Nat} {s : State}
    (hinv : Inv F s) (hc : CapInv F s) (hv : s.assn v = 0) (hvV : v < F.V)
    (htot : ∀ s2 : State, Inv F s2 → CapInv F s2 →
      unset_vars F.V s2.assn < unset_vars F.V s.assn →
      ∃ r : Bool × State, dfs_next s2 = some r) :
    ∃ r : Bool × State, dfs_branch F pf dfs_next v s = some r := by
  rw [dfs_branch_eq]
  obtain ⟨b1, b2, b3, b4, _, _⟩ := branch_entry_ready v hinv hc
  have hv1 : (branch_entry v s).assn v = 0 := by rw [b4]; exact hv
  have hsg1 : first_try s v = 1 ∨ first_try s v = -1 := by
    unfold first_try; split_ifs
    · exact Or.inl rfl
    · exact Or.inr rfl
  have hsg2 : second_try s v = 1 ∨ second_try s v = -1 := by
    unfold second_try; split_ifs
    · exact Or.inr rfl
    · exact Or.inl rfl
  obtain ⟨rt, hT⟩ := try_value_total hwf pf hpf b1 b2 hv1 hvV b3 hsg1
    (fun s2 h1 h2 h3 => htot s2 h1 h2 (by rw [b4] at h3; exact h3))
  obtain ⟨bT, s2⟩ := rt
  rw [hT]
  cases bT with
  | true => exact ⟨_, rfl⟩
  | false =>
    dsimp only
    by_cases hconf : in_conflict_set s2 v = true
    · rw [if_pos hconf]
      obtain ⟨e1, e2, e3, e4⟩ := second_try_ready hwf pf hnext b1 b2 hv1 b3 hsg1 hT hconf
      have hv2 : (augment_conflict v s2).assn v = 0 := by rw [e3]; exact hv1
      exact try_value_total hwf pf hpf e1 e2 hv2 hvV e4 hsg2
        (fun s3 h1 h2 h3 => htot s3 h1 h2 (by rw [e3, b4] at h3; exact h3))
    · rw [if_neg hconf]
      exact ⟨_, rfl⟩

theorem dfs_total {F : Formula} (hwf : WellFormed F) (pf : Nat) (hpf : F.C < pf) :
    ∀ (fuel l : Nat) (s : State), Inv F s → CapInv F s → unset_vars F.V s.assn < fuel →
      ∃ r : Bool × State, dfs F pf fuel l s = some r := by
  intro fuel
  induction fuel with
  | zero => intro l s _ _ h; omega
  | succ fuel ih =>
    intro l s hinv hc hm
    rw [dfs]
    by_cases h0 : s.nunsat = 0
    · rw [if_pos h0]; exact ⟨_, rfl⟩
    · rw [if_neg h0]
      dsimp only
      by_cases hmc : most_constrained_var F s = -1
      · rw [if_pos hmc]; exact ⟨_, rfl⟩
      · rw [if_neg hmc]
        obtain ⟨u1, u2⟩ := most_constrained_var_unset F s hmc
        exact dfs_branch_total hwf pf hpf (dfs_spec hwf pf fuel (l + 1)) hinv hc u1 u2
          (fun s2 h1 h2 h3 => ih (l + 1) s2 h1 h2 (by omega))

theorem init_state_cap (V : Nat) (cls : List (List Int)) :
    CapInv (load_formula V cls) (init_state cls) := Nat.zero_le _

theorem unset_vars_init (V : Nat) (cls : List (List Int)) :
    unset_vars V (init_state cls).assn ≤ V := range_filter_le V _

theorem nonzero_of_in_range {V : Nat} {cls : List (List Int)}
    (hlits : ∀ cl ∈ cls, ∀ l ∈ cl, 1 ≤ l.natAbs ∧ l.natAbs ≤ V) :
    ∀ cl ∈ cls, ∀ l ∈ cl, l ≠ 0 := by
  intro cl hcl l hl h0
  have := (hlits cl hcl l hl).1
  subst h0
  simp at this

/-! ## The clause block of the loader -/

theorem write_row_lt : ∀ (cl : List Int) (base : Nat) (mem : Nat → Int) (k : Nat),
    k < base → write_row base cl mem k = mem k := by
  intro cl
  induction cl with
  | nil => intro base mem k _; rfl
  | cons v rest ih =>
    intro base mem k hk
    rw [write_row, ih (base + 1) _ k (by omega), Function.update_noteq (by omega)]

theorem write_row_ge : ∀ (cl : List Int) (base : Nat) (mem : Nat → Int) (k : Nat),
    base + cl.length ≤ k → write_row base cl mem k = mem k := by
  intro cl
  induction cl with
  | nil => intro base mem k _; rfl
  | cons v rest ih =>
    intro base mem k hk
    rw [List.length_cons] at hk
    rw [write_row, ih (base + 1) _ k (by omega), Function.update_noteq (by omega)]

theorem write_row_get : ∀ (cl : List Int) (base : Nat) (mem : Nat → Int) (j : Nat),
    j < cl.length → write_row base cl mem (base + j) = cl.getD j 0 := by
  intro cl
  induction cl with
  | nil => intro base mem j hj; simp at hj
  | cons v rest ih =>
    intro base mem j hj
    rw [write_row]
    cases j with
    | zero =>
      rw [write_row_lt rest (base + 1) _ (base + 0) (by omega)]
      simp
    | succ j =>
      rw [List.length_cons] at hj
      have := ih (base + 1) (Function.update mem base v) j (by omega)
      rw [show base + (j + 1) = base + 1 + j by omega, this]
      simp

theorem store_rows_lt : ∀ (cls : List (List Int)) (i : Nat) (mem : Nat → Int) (k : Nat),
    k < i * MAX_CLAUSE_SIZE → store_rows cls i mem k = mem k := by
  intro cls
  induction cls with
  | nil => intro i mem k _; rfl
  | cons cl rest ih =>
    intro i mem k hk
    rw [store_rows, ih (i + 1) _ k (by rw [Nat.add_mul, Nat.one_mul]; omega),
      write_row_lt cl _ mem k hk]

/-- The part of a clause that lies inside its own row is read back as it was written:
the rows after it start past the end of the row. -/
theorem store_rows_row : ∀ (cls : List (List Int)) (i : Nat) (mem : Nat → Int) (c j : Nat),
    c < cls.length → j < MAX_CLAUSE_SIZE → j < (cls.getD c []).length →
    store_rows cls i mem ((i + c) * MAX_CLAUSE_SIZE + j) = (cls.getD c []).getD j 0 := by
  intro cls
  induction cls with
  | nil => intro i mem c j hc; simp at hc
  | cons cl rest ih =>
    intro i mem c j hc hlen hj
    rw [store_rows]
    cases c with
    | zero =>
      rw [List.getD_cons_zero] at hj ⊢
      have hlt : (i + 0) * MAX_CLAUSE_SIZE + j < (i + 1) * MAX_CLAUSE_SIZE := by
        rw [Nat.add_zero, Nat.add_mul, Nat.one_mul]; omega
      rw [store_rows_lt rest (i + 1) _ _ hlt, Nat.add_zero,
        write_row_get cl _ mem j hj]
    | succ c =>
      rw [List.getD_cons_succ] at hj ⊢
      rw [List.length_cons] at hc
      have := ih (i + 1) (write_row (i * MAX_CLAUSE_SIZE) cl mem) c j (by omega) hlen hj
      rw [show i + (c + 1) = i + 1 + c by omega]
      exact this

theorem read_row_eq (mem : Nat → Int) (c : Nat) (cl : List Int)
    (h : ∀ j : Nat, j < cl.length → mem (c * MAX_CLAUSE_SIZE + j) = cl.getD j 0) :
    read_row mem c cl.length = cl := by
  unfold read_row
  apply List.ext_getElem
  · simp
  · intro j h1 h2
    simp only [List.getElem_map, List.getElem_range]
    rw [h j h2]
    simp [List.getD_eq_getElem?_getD, h2]

theorem stored_rows_length (cls : List (List Int)) : (stored_rows cls).length = cls.length := by
  simp [stored_rows]

theorem stored_rows_getD (cls : List (List Int)) (c : Nat) :
    (stored_rows cls).getD c []
      = if c < cls.length then
          read_row (store_rows cls 0 (fun _ => 0)) c (cls.getD c []).length
        else [] := by
  unfold stored_rows
  by_cases hc : c < cls.length
  · rw [if_pos hc]
    simp [List.getD_eq_getElem?_getD, hc]
  · rw [if_neg hc]
    apply getD_nil_of_le
    simp only [List.length_map, List.length_range]
    omega

theorem stored_rows_row_length (cls : List (List Int)) (c : Nat) :
    ((stored_rows cls).getD c []).length = (cls.getD c []).length := by
  rw [stored_rows_getD]
  by_cases hc : c < cls.length
  · rw [if_pos hc]; simp [read_row]
  · rw [if_neg hc, getD_nil_of_le cls c (by omega)]

/-- A clause of at most `MAX_CLAUSE_SIZE` literals is stored as it was read. -/
theorem stored_rows_intact (cls : List (List Int)) (c : Nat)
    (hlen : (cls.getD c []).length ≤ MAX_CLAUSE_SIZE) :
    (stored_rows cls).getD c [] = cls.getD c [] := by
  rw [stored_rows_getD]
  by_cases hc : c < cls.length
  · rw [if_pos hc]
    apply read_row_eq
    intro j hj
    have := store_rows_row cls 0 (fun _ => 0) c j hc (by omega) hj
    rw [Nat.zero_add] at this
    exact this
  · rw [if_neg hc, getD_nil_of_le cls c (by omega)]

/-- When no clause has more than `MAX_CLAUSE_SIZE` literals the clause block holds the
input. -/
theorem stored_rows_eq (cls : List (List Int))
    (h : ∀ cl ∈ cls, cl.length ≤ MAX_CLAUSE_SIZE) : stored_rows cls = cls := by
  apply List.ext_getElem
  · exact stored_rows_length cls
  · intro c h1 h2
    have hlen : (cls.getD c []).length ≤ MAX_CLAUSE_SIZE := by
      have := getD_mem_of_lt cls c h2
      exact h _ this
    have := stored_rows_intact cls c hlen
    simp only [List.getD_eq_getElem?_getD, List.getElem?_eq_getElem h1,
      List.getElem?_eq_getElem h2, Option.getD_some] at this
    exact this

theorem store_rows_untouched : ∀ (cls : List (List Int)) (i : Nat) (mem : Nat → Int) (k : Nat),
    (∀ c : Nat, c < cls.length →
      ¬ ((i + c) * MAX_CLAUSE_SIZE ≤ k
          ∧ k < (i + c) * MAX_CLAUSE_SIZE + (cls.getD c []).length)) →
    store_rows cls i mem k = mem k := by
  intro cls
  induction cls with
  | nil => intro i mem k _; rfl
  | cons cl rest ih =>
    intro i mem k h
    rw [store_rows]
    have h0 := h 0 (by simp)
    rw [Nat.add_zero, List.getD_cons_zero] at h0
    rw [ih (i + 1) _ k ?_]
    · by_cases hk : k < i * MAX_CLAUSE_SIZE
      · exact write_row_lt cl _ mem k hk
      · exact write_row_ge cl _ mem k (by omega)
    · intro c hc
      have := h (c + 1) (by simpa using hc)
      rw [List.getD_cons_succ, show i + (c + 1) = i + 1 + c by omega] at this
      exact this

/-- Every cell inside the stretch written for some clause holds a literal of the
input. -/
theorem store_rows_written : ∀ (cls : List (List Int)) (i : Nat) (mem : Nat → Int) (k : Nat),
    (∃ c : Nat, c < cls.length ∧ (i + c) * MAX_CLAUSE_SIZE ≤ k
        ∧ k < (i + c) * MAX_CLAUSE_SIZE + (cls.getD c []).length) →
    ∃ cl ∈ cls, store_rows cls i mem k ∈ cl := by
  intro cls
  induction cls with
  | nil => rintro i mem k ⟨c, hc, _⟩; simp at hc
  | cons cl rest ih =>
    rintro i mem k ⟨c, hc, h1, h2⟩
    rw [store_rows]
    by_cases hlater : ∃ c' : Nat, c' < rest.length ∧ (i + 1 + c') * MAX_CLAUSE_SIZE ≤ k
        ∧ k < (i + 1 + c') * MAX_CLAUSE_SIZE + (rest.getD c' []).length
    · obtain ⟨d, hd, hmem⟩ := ih (i + 1) (write_row (i * MAX_CLAUSE_SIZE) cl mem) k hlater
      exact ⟨d, List.mem_cons_of_mem _ hd, hmem⟩
    · have hun := store_rows_untouched rest (i + 1) (write_row (i * MAX_CLAUSE_SIZE) cl mem) k
        (fun c' hc' hh => hlater ⟨c', hc', hh.1, hh.2⟩)
      rw [hun]
      cases c with
      | zero =>
        rw [Nat.add_zero] at h1 h2
        rw [List.getD_cons_zero] at h2
        refine ⟨cl, List.mem_cons_self _ _, ?_⟩
        have hj : k - i * MAX_CLAUSE_SIZE < cl.length := by omega
        have := write_row_get cl (i * MAX_CLAUSE_SIZE) mem (k - i * MAX_CLAUSE_SIZE) hj
        rw [show i * MAX_CLAUSE_SIZE + (k - i * MAX_CLAUSE_SIZE) = k by omega] at this
        rw [this, List.getD_eq_getElem?_getD, List.getElem?_eq_getElem hj, Option.getD_some]
        exact List.getElem_mem _
      | succ c =>
        exfalso
        apply hlater
        rw [List.length_cons] at hc
        rw [List.getD_cons_succ] at h2
        refine ⟨c, by omega, ?_, ?_⟩
        · rw [show i + 1 + c = i + (c + 1) by omega]; exact h1
        · rw [show i + 1 + c = i + (c + 1) by omega]; exact h2

/-- Every literal of a stored row is a literal of the input. -/
theorem stored_rows_mem (cls : List (List Int)) :
    ∀ row ∈ stored_rows cls, ∀ l ∈ row, ∃ cl ∈ cls, l ∈ cl := by
  intro row hrow l hl
  unfold stored_rows at hrow
  obtain ⟨c, hc, rfl⟩ := List.mem_map.1 hrow
  unfold read_row at hl
  obtain ⟨j, hj, rfl⟩ := List.mem_map.1 hl
  rw [List.mem_range] at hc hj
  apply store_rows_written cls 0 (fun _ => 0)
  exact ⟨c, hc, by rw [Nat.zero_add]; omega, by rw [Nat.zero_add]; omega⟩

theorem stored_rows_nonzero (cls : List (List Int)) (h : ∀ cl ∈ cls, ∀ l ∈ cl, l ≠ 0) :
    ∀ row ∈ stored_rows cls, ∀ l ∈ row, l ≠ 0 := by
  intro row hrow l hl
  obtain ⟨cl, hcl, hmem⟩ := stored_rows_mem cls row hrow l hl
  exact h cl hcl l hmem

theorem stored_rows_in_range (V : Nat) (cls : List (List Int))
    (h : ∀ cl ∈ cls, ∀ l ∈ cl, 1 ≤ l.natAbs ∧ l.natAbs ≤ V) :
    ∀ row ∈ stored_rows cls, ∀ l ∈ row, 1 ≤ l.natAbs ∧ l.natAbs ≤ V := by
  intro row hrow l hl
  obtain ⟨cl, hcl, hmem⟩ := stored_rows_mem cls row hrow l hl
  exact h cl hcl l hmem

theorem read_row_ext (mem : Nat → Int) (c n : Nat) (L : List Int) (hn : L.length = n)
    (h : ∀ j : Nat, j < n → mem (c * MAX_CLAUSE_SIZE + j) = L.getD j 0) :
    read_row mem c n = L := by
  subst hn
  exact read_row_eq mem c L h

theorem list_eq_three (L : List (List Int)) (h : L.length = 3) :
    L = [L.getD 0 [], L.getD 1 [], L.getD 2 []] := by
  match L, h with
  | [a, b, c], _ => rfl

/-- The clause block after the first pass on the input with a clause of 1001 literals:
the last literal of clause 0, written to `clauses[0][1000]`, is the cell
`clauses[1][0]`, which the first literal of clause 1 overwrites. -/
theorem long_clause_stored :
    stored_rows long_clause_example = [List.replicate 1000 1 ++ [-1], [-1, 2], [-1, -2]] := by
  have h1 : (stored_rows long_clause_example).getD 1 [] = [-1, 2] :=
    stored_rows_intact long_clause_example 1 (by decide!)
  have h2 : (stored_rows long_clause_example).getD 2 [] = [-1, -2] :=
    stored_rows_intact long_clause_example 2 (by decide!)
  have h0 : (stored_rows long_clause_example).getD 0 [] = List.replicate 1000 1 ++ [-1] := by
    rw [stored_rows_getD, if_pos (by decide!)]
    apply read_row_ext _ 0 _ _ (by decide!)
    intro j hj
    have hj' : j < 1001 := by
      have e : (long_clause_example.getD 0 []).length = 1001 := by decide!
      rw [e] at hj; exact hj
    by_cases hlt : j < 1000
    · have := store_rows_row long_clause_example 0 (fun _ => 0) 0 j (by decide!) hlt hj
      rw [Nat.zero_add] at this
      rw [this]
      show (List.replicate 1000 (1 : Int) ++ [1]).getD j 0
        = (List.replicate 1000 (1 : Int) ++ [-1]).getD j 0
      have hl : j < (List.replicate 1000 (1 : Int)).length := by
        rw [List.length_replicate]; exact hlt
      rw [List.getD_append _ _ _ _ hl, List.getD_append _ _ _ _ hl]
    · have hj1000 : j = 1000 := by omega
      subst hj1000
      have := store_rows_row long_clause_example 0 (fun _ => 0) 1 0 (by decide!) (by decide)
        (by decide!)
      have e : (0 + 1) * MAX_CLAUSE_SIZE + 0 = 0 * MAX_CLAUSE_SIZE + 1000 := by decide
      rw [e] at this
      rw [this]
      decide!
  have hl3 : (stored_rows long_clause_example).length = 3 := stored_rows_length _
  rw [list_eq_three _ hl3, h0, h1, h2]

/-! ## The search with arbitrary tally contents -/

theorem dfs_branch_eq_branch_on (F : Formula) (pf : Nat)
    (dfs_next : State → Option (Bool × State)) (v : Nat) (s : State) :
    dfs_branch F pf dfs_next v s
      = branch_on F pf dfs_next dfs_next v (first_try s v) (second_try s v) s := rfl

/-- With the tallies of the embedding as the view, `dfs_seen` is `dfs`. -/
theorem dfs_seen_own (F : Formula) (pf : Nat) :
    ∀ (fuel : Nat) (path : List Bool) (l : Nat) (s : State),
      dfs_seen F pf own_tallies fuel path l s = dfs F pf fuel l s := by
  intro fuel
  induction fuel with
  | zero => intro path l s; rfl
  | succ fuel ih =>
    intro path l s
    rw [dfs_seen, dfs]
    have hsee : see (own_tallies path s) s = s := rfl
    rw [hsee]
    have h1 : dfs_seen F pf own_tallies fuel (path ++ [false]) (l + 1) = dfs F pf fuel (l + 1) :=
      funext (fun s' => ih _ _ s')
    have h2 : dfs_seen F pf own_tallies fuel (path ++ [true]) (l + 1) = dfs F pf fuel (l + 1) :=
      funext (fun s' => ih _ _ s')
    rw [h1, h2]
    rfl

theorem first_try_sign (s : State) (v : Nat) : first_try s v = 1 ∨ first_try s v = -1 := by
  unfold first_try; split_ifs
  · exact Or.inl rfl
  · exact Or.inr rfl

theorem second_try_sign (s : State) (v : Nat) : second_try s v = 1 ∨ second_try s v = -1 := by
  unfold second_try; split_ifs
  · exact Or.inr rfl
  · exact Or.inl rfl

theorem branch_on_spec {F : Formula} (hwf : WellFormed F) (pf : Nat)
    {next1 next2 : State → Option (Bool × State)} (hnext1 : DfsSpec F next1)
    (hnext2 : DfsSpec F next2) {v : Nat} {ft st : Int} {s : State} {r : Bool × State}
    (hft : ft = 1 ∨ ft = -1) (hst : st = 1 ∨ st = -1)
    (hinv : Inv F s) (hv : s.assn v = 0)
    (hres : branch_on F pf next1 next2 v ft st s = some r) : DfsPost F s r := by
  unfold branch_on at hres
  have hcore1 : SameCore s (branch_entry v s) := ⟨rfl, rfl, rfl, rfl⟩
  have hq1 : SameQueue s (branch_entry v s) := ⟨rfl, rfl, rfl⟩
  have hst1 : (branch_entry v s).npropped_at = Function.update s.npropped_at v s.npropped := rfl
  have hstv : (branch_entry v s).npropped_at v = (branch_entry v s).npropped := by
    rw [hst1, Function.update_same, hq1.npropped]
  have hv1 : (branch_entry v s).assn v = 0 := by rw [hcore1.assn]; exact hv
  generalize branch_entry v s = s1 at *
  cases hT : try_value F pf next1 v ft s1 with
  | none => rw [hT] at hres; simp at hres
  | some rt =>
  obtain ⟨bT, s2⟩ := rt
  rw [hT] at hres
  obtain ⟨t1, t2⟩ := try_value_spec hwf pf hnext1 (Inv.inv_congr hcore1 hinv) hv1 hstv hft hT
  cases bT with
  | true =>
    simp only [Option.some.injEq] at hres
    subst hres
    exact ⟨fun _ => t1 rfl, fun hh => by simp at hh⟩
  | false =>
    dsimp only at hres
    obtain ⟨m1, m2, m3, m4, m5⟩ := t2 rfl
    have m1' : SameCore s1 s2 := m1
    have m2' : QueueGrows s1 s2 := m2
    have hstamp2 : ∀ u : Nat, s.assn u ≠ 0 → s2.npropped_at u = s.npropped_at u := by
      intro u hu
      have hne : u ≠ v := by rintro rfl; exact hu hv
      have := m4 u (Or.inl (by rw [hcore1.assn]; exact hu))
      rw [this, hst1, Function.update_noteq hne]
    by_cases hc : in_conflict_set s2 v = true
    · rw [if_pos hc] at hres
      have hne := in_conflict_set_true hc
      have hnp : s2.npropped = s1.npropped := by
        rcases m5 with h | h
        · exact absurd h hne
        · exact h
      obtain ⟨a1, a2, a3, a4⟩ := augment_conflict_frame v s2
      have hcoreA : SameCore s (augment_conflict v s2) := (hcore1.core_trans m1').core_trans a1
      have hstA : (augment_conflict v s2).npropped_at v = (augment_conflict v s2).npropped := by
        rw [a4, a2.npropped, hnp]
        have := m4 v (Or.inr rfl)
        rw [this]; exact hstv
      have hvA : (augment_conflict v s2).assn v = 0 := by rw [hcoreA.assn]; exact hv
      obtain ⟨e1, e2⟩ := try_value_spec hwf pf hnext2 (Inv.inv_congr hcoreA hinv) hvA hstA
        hst hres
      refine ⟨e1, fun hh => ?_⟩
      obtain ⟨n1, n2, n3, n4, _⟩ := e2 hh
      have hgrowA : QueueGrows s (augment_conflict v s2) :=
        ((SameQueue.grows hq1).grows_trans m2').grows_trans (SameQueue.grows a2)
      refine ⟨hcoreA.core_trans n1, hgrowA.grows_trans n2, ?_, ?_⟩
      · intro j hj1 hj2
        apply n3 j _ hj2
        rw [a2.npropped, hnp, hq1.npropped]; exact hj1
      · intro u hu
        have := n4 u (Or.inl (by rw [hcoreA.assn]; exact hu))
        rw [this, a4]
        exact hstamp2 u hu
    · rw [if_neg hc] at hres
      simp only [Option.some.injEq] at hres
      subst hres
      refine ⟨fun hh => by simp at hh, fun _ => ⟨hcore1.core_trans m1',
        (SameQueue.grows hq1).grows_trans m2', ?_, hstamp2⟩⟩
      intro j hj1 hj2
      apply m3 j _ hj2
      rw [hq1.npropped]; exact hj1

theorem most_constrained_var_seen (F : Formula) (t : (Int → Int) × (Int → Int)) (s : State)
    (h : most_constrained_var F (see t s) ≠ -1) :
    s.assn (most_constrained_var F (see t s)).toNat = 0
      ∧ (most_constrained_var F (see t s)).toNat < F.V :=
  most_constrained_var_unset F (see t s) h

/-- The contract of `dfs`, whatever the tally arrays hold at each call. -/
theorem dfs_seen_spec {F : Formula} (hwf : WellFormed F) (pf : Nat)
    (tv : List Bool → State → (Int → Int) × (Int → Int)) :
    ∀ (fuel : Nat) (path : List Bool) (l : Nat), DfsSpec F (dfs_seen F pf tv fuel path l) := by
  intro fuel
  induction fuel with
  | zero =>
    intro path l s r _ hres
    simp [dfs_seen] at hres
  | succ fuel ih =>
    intro path l s r hinv hres
    rw [dfs_seen] at hres
    by_cases h0 : s.nunsat = 0
    · rw [if_pos h0] at hres
      simp only [Option.some.injEq] at hres
      subst hres
      exact ⟨fun _ => ⟨hinv, h0⟩, fun hh => by simp at hh⟩
    · rw [if_neg h0] at hres
      dsimp only at hres
      by_cases hm : most_constrained_var F (see (tv path s) s) = -1
      · rw [if_pos hm] at hres
        simp only [Option.some.injEq] at hres
        subst hres
        exact ⟨fun hh => by simp at hh, fun _ => ⟨SameCore.core_refl s, QueueGrows.grows_refl s,
          fun j h1 h2 => by have h2' : j < s.npropped := h2; omega, fun _ _ => rfl⟩⟩
      · rw [if_neg hm] at hres
        exact branch_on_spec hwf pf (ih _ (l + 1)) (ih _ (l + 1)) (first_try_sign _ _)
          (second_try_sign _ _) hinv (most_constrained_var_seen F _ s hm).1 hres

/-! ## C1: soundness of the SAT answer, on the clause block of the loader -/

theorem init_rows_inv (V : Nat) (cls : List (List Int)) :
    Inv (load_rows V cls) (init_rows cls) := by
  have hc : SameCore (init_state (stored_rows cls)) (init_rows cls) := ⟨rfl, rfl, rfl, rfl⟩
  exact Inv.inv_congr hc (init_state_inv V (stored_rows cls))

theorem load_rows_well_formed (V : Nat) (cls : List (List Int))
    (h : ∀ cl ∈ cls, ∀ l ∈ cl, l ≠ 0) : WellFormed (load_rows V cls) :=
  load_formula_well_formed V (stored_rows cls) (stored_rows_nonzero cls h)

/-- An input whose clauses all have at most `MAX_CLAUSE_SIZE` literals fits the arrays
of the loader as soon as the two `int` products do. -/
theorem input_fits_of_short (V : Nat) (cls : List (List Int))
    (hlen : ∀ cl ∈ cls, cl.length ≤ MAX_CLAUSE_SIZE)
    (hC : cls.length * MAX_CLAUSE_SIZE < 2 ^ 31) (hV : V * cls.length < 2 ^ 31) :
    InputFits V cls := by
  refine ⟨?_, ?_, hC, hV⟩
  · intro c hc
    have h1 : (cls.getD c []).length ≤ MAX_CLAUSE_SIZE := hlen _ (getD_mem_of_lt cls c hc)
    have h2 : (c + 1) * MAX_CLAUSE_SIZE ≤ cls.length * MAX_CLAUSE_SIZE :=
      Nat.mul_le_mul_right _ hc
    rw [Nat.add_mul, Nat.one_mul] at h2
    omega
  · intro v _
    rw [stored_rows_eq cls hlen]

theorem long_clause_fits : InputFits 2 long_clause_example := by
  refine ⟨by decide!, ?_, by decide!, by decide!⟩
  rw [long_clause_stored]
  decide!

theorem long_clause_run :
    (dfs_seen (load_rows 2 long_clause_example) 5 own_tallies 5 [] 0
        (init_rows long_clause_example)).map (fun r => (r.1, r.2.assn 0, r.2.assn 1))
      = some (true, -1, 0) := by
  unfold load_rows init_rows
  rw [long_clause_stored]
  decide!


/-- C1 as stated fails on an input with a clause of more than `MAX_CLAUSE_SIZE`
literals.  On `p cnf 2 3`, clause 0 the literal `1` written 1001 times, then `-1 2 0`
and `-1 -2 0`: every literal is nonzero of magnitude at most 2 and the input fits the
arrays of the loader, but the first literal `-1` of clause 1 overwrites the cell
`clauses[0][1000]`, so the search runs on the row `1 ... 1 -1`.  `dfs(0)` returns
`true` with `assn[0] = -1` and variable 1 unset; no literal of the input clause 0 is
then true and the reported vector makes that clause false.  (With two variables every
tally cell that the run touches is a cell of its own, and the tallies are read at the
root only, so the view `own_tallies` is what the run sees.) -/
theorem long_clause_falsified :
    (∀ cl ∈ long_clause_example, ∀ l ∈ cl, l ≠ 0 ∧ 1 ≤ l.natAbs ∧ l.natAbs ≤ 2)
    ∧ InputFits 2 long_clause_example
    ∧ (dfs_seen (load_rows 2 long_clause_example) 5 own_tallies 5 [] 0
          (init_rows long_clause_example)).map (fun r => (r.1, r.2.assn 0, r.2.assn 1))
        = some (true, -1, 0)
    ∧ (∀ s : State, s.assn 0 = -1 →
        (¬ ∃ l ∈ long_clause_example.getD 0 [], s.assn (varid l) = lit_sign l)
        ∧ eval_clause (report s) (long_clause_example.getD 0 []) = false) := by
  refine ⟨by decide!, long_clause_fits, long_clause_run, ?_⟩
  intro s hs
  have hall : ∀ l ∈ long_clause_example.getD 0 [], l = 1 := by
    intro l hl
    have hl' : l ∈ List.replicate 1000 (1 : Int) ++ [1] := hl
    rcases List.mem_append.1 hl' with h | h
    · exact (List.mem_replicate.1 h).2
    · exact List.mem_singleton.1 h
  constructor
  · rintro ⟨l, hl, h⟩
    rw [hall l hl] at h
    have h0 : varid 1 = 0 := rfl
    have h1 : lit_sign 1 = 1 := rfl
    rw [h0, h1, hs] at h
    exact absurd h (by decide)
  · unfold eval_clause
    rw [List.any_eq_false]
    intro l hl
    rw [hall l hl]
    have h0 : varid 1 = 0 := rfl
    rw [if_pos (by decide), h0]
    unfold report
    rw [hs]
    decide

/-- C1, amended.  For every input of `V` variables whose literals are nonzero with
magnitude in `[1..V]` and which fits the arrays of the loader, whatever the tally
arrays hold each time `dfs` reads them: if `dfs(0)`, run from the state the loader
builds, returns `true`, then every row of the clause block (the clauses the search
works on) contains a literal `l` with `assn[|l|-1]` equal to the sign of `l`; and every
input clause of at most `MAX_CLAUSE_SIZE` literals contains such a literal and is made
true by the reported 0/1 vector under the pure clause evaluator. -/
theorem dfs_sat_sound (V : Nat) (cls : List (List Int))
    (hlits : ∀ cl ∈ cls, ∀ l ∈ cl, l ≠ 0 ∧ 1 ≤ l.natAbs ∧ l.natAbs ≤ V)
    (_hfit : InputFits V cls)
    (tv : List Bool → State → (Int → Int) × (Int → Int)) (pf fuel : Nat) (r : Bool × State)
    (hrun : dfs_seen (load_rows V cls) pf tv fuel [] 0 (init_rows cls) = some r)
    (htrue : r.1 = true) :
    (∀ row ∈ stored_rows cls, ∃ l ∈ row, r.2.assn (varid l) = lit_sign l)
    ∧ (∀ c : Nat, c < cls.length → (cls.getD c []).length ≤ MAX_CLAUSE_SIZE →
        (∃ l ∈ cls.getD c [], r.2.assn (varid l) = lit_sign l)
        ∧ eval_clause (report r.2) (cls.getD c []) = true) := by
  have hwf : WellFormed (load_rows V cls) :=
    load_rows_well_formed V cls (fun cl hcl l hl => (hlits cl hcl l hl).1)
  obtain ⟨hpost, _⟩ :=
    dfs_seen_spec hwf pf tv fuel [] 0 (init_rows cls) r (init_rows_inv V cls) hrun
  obtain ⟨hinv, hzero⟩ := hpost htrue
  have hrow : ∀ c : Nat, c < cls.length →
      ∃ l ∈ (stored_rows cls).getD c [], r.2.assn (varid l) = lit_sign l := by
    intro c hc
    have hz : zero_count (load_rows V cls).C r.2.satisfier = 0 := by
      rw [← hinv.nunsat]; exact hzero
    have hC : (load_rows V cls).C = cls.length := stored_rows_length cls
    have hne := zero_count_eq_zero _ _ hz c (by rw [hC]; exact hc)
    obtain ⟨l, hl, _, h2⟩ := hinv.sat c hne
    exact ⟨l, hl, h2⟩
  constructor
  · intro row hmem
    obtain ⟨c, hc1, hc2⟩ := exists_getD_of_mem (stored_rows cls) row hmem
    rw [stored_rows_length] at hc1
    obtain ⟨l, hl, h⟩ := hrow c hc1
    rw [hc2] at hl
    exact ⟨l, hl, h⟩
  · intro c hc hlen
    obtain ⟨l, hl, h⟩ := hrow c hc
    rw [stored_rows_intact cls c hlen] at hl
    exact ⟨⟨l, hl, h⟩, eval_clause_of_lit hl h⟩

/-- Witness for C1 (amended): on `p cnf 2 2 / 1 2 0 / -1 2 0` the run returns, returns
`true`, and the reported vector satisfies the clause `-1 2`. -/
theorem dfs_sat_sound_witness :
    (∀ cl ∈ [[1, 2], [-1, 2]], ∀ l ∈ cl, l ≠ 0 ∧ 1 ≤ l.natAbs ∧ l.natAbs ≤ 2)
    ∧ InputFits 2 [[1, 2], [-1, 2]]
    ∧ (dfs_seen (load_rows 2 [[1, 2], [-1, 2]]) 5 own_tallies 5 [] 0
        (init_rows [[1, 2], [-1, 2]])).map Prod.fst = some true
    ∧ eval_clause (report ((dfs_seen (load_rows 2 [[1, 2], [-1, 2]]) 5 own_tallies 5 [] 0
        (init_rows [[1, 2], [-1, 2]])).getD (false, init_state [])).2) [-1, 2] = true := by
  have hl : ∀ cl ∈ [[1, 2], [-1, 2]], ∀ l ∈ cl, l ≠ 0 ∧ 1 ≤ l.natAbs ∧ l.natAbs ≤ 2 := by
    decide
  have hfit : InputFits 2 [[1, 2], [-1, 2]] :=
    input_fits_of_short 2 _ (by decide) (by decide) (by decide)
  have hsome : (dfs_seen (load_rows 2 [[1, 2], [-1, 2]]) 5 own_tallies 5 [] 0
      (init_rows [[1, 2], [-1, 2]])).map Prod.fst = some true := by decide!
  have hrun := option_eq_some_getD _ (false, init_state []) true hsome
  have h := ((dfs_sat_sound 2 [[1, 2], [-1, 2]] hl hfit own_tallies 5 5 _ hrun rfl).2 1
    (by decide) (by decide)).2
  dsimp only at h
  exact ⟨hl, hfit, hsome, h⟩

/-! ## C13: the occurrence lists, built from the clause block -/

/-- The second pass of the loader over the rows `cls` of the clause block:
`appearances[v]` lists the occurrences of `v` in the rows, in ascending row order and
in-row order, each encoded as `c+1` (positive) or `-(c+1)` (negative). -/
theorem load_formula_appearances (V : Nat) (cls : List (List Int))
    (hlits : ∀ cl ∈ cls, ∀ l ∈ cl, 1 ≤ l.natAbs ∧ l.natAbs ≤ V) (v : Nat) :
    (load_formula V cls).appearances v = occurrences v cls 0
    ∧ ((load_formula V cls).appearances v).length = occurrence_count v cls
    ∧ (∀ c : Nat, ((c : Int) + 1) ∈ (load_formula V cls).appearances v
        ↔ ((v : Int) + 1) ∈ (load_formula V cls).clauses c)
    ∧ (∀ c : Nat, (-((c : Int) + 1)) ∈ (load_formula V cls).appearances v
        ↔ (-((v : Int) + 1)) ∈ (load_formula V cls).clauses c) := by
  have hnz : ∀ cl ∈ cls, ∀ l ∈ cl, l ≠ 0 := by
    intro cl hcl l hl h0
    have := (hlits cl hcl l hl).1
    subst h0
    simp at this
  have hwf := load_formula_well_formed V cls hnz
  have heq : (load_formula V cls).appearances v = occurrences v cls 0 := by
    show fill_appearances cls 0 (fun _ => []) v = occurrences v cls 0
    rw [fill_appearances_eq v cls hnz]
    rfl
  refine ⟨heq, ?_, ?_, ?_⟩
  · rw [heq, occurrences_length]
  · intro c
    rw [mem_appearances_iff hwf v c _ (natAbs_succ_sub c)]
    constructor
    · rintro ⟨l, hl, hlv, hla⟩
      have h0 := hwf.nonzero c l hl
      have hpos : ¬ l < 0 := by
        intro hneg
        unfold app_enc at hla
        rw [if_pos hneg] at hla
        omega
      have : l = (v : Int) + 1 := by unfold varid at hlv; omega
      rw [← this]; exact hl
    · intro h
      refine ⟨(v : Int) + 1, h, by unfold varid; omega, ?_⟩
      unfold app_enc
      rw [if_neg (by omega)]
  · intro c
    rw [mem_appearances_iff hwf v c _ (natAbs_neg_succ_sub c)]
    constructor
    · rintro ⟨l, hl, hlv, hla⟩
      have h0 := hwf.nonzero c l hl
      have hneg : l < 0 := by
        by_contra hneg
        unfold app_enc at hla
        rw [if_neg hneg] at hla
        omega
      have : l = -((v : Int) + 1) := by unfold varid at hlv; omega
      rw [← this]; exact hl
    · intro h
      refine ⟨-((v : Int) + 1), h, by unfold varid; omega, ?_⟩
      unfold app_enc
      rw [if_pos (by omega)]

theorem long_clause_appearances :
    (load_rows 2 long_clause_example).appearances 0 = List.replicate 1000 1 ++ [-1, -2, -3] := by
  unfold load_rows
  rw [long_clause_stored]
  decide!

/-- C13 as stated fails on an input with a clause of more than `MAX_CLAUSE_SIZE`
literals.  On `p cnf 2 3`, clause 0 the literal `1` written 1001 times, then `-1 2 0`
and `-1 -2 0` (literals of magnitude at most 2, an input that fits the arrays of the
loader), the occurrences of variable 0 are `1` (1001 times), `-2`, `-3`, but the second
pass reads the cell `clauses[0][1000]` after the first literal of clause 1 has
overwritten it: `appearances[0]` is `1` (1000 times), `-1`, `-2`, `-3`.  So `-(0+1)` is
in `appearances[0]` although the literal `-1` is not in the input clause 0. -/
theorem appearances_clobbered :
    (∀ cl ∈ long_clause_example, ∀ l ∈ cl, 1 ≤ l.natAbs ∧ l.natAbs ≤ 2)
    ∧ InputFits 2 long_clause_example
    ∧ (load_rows 2 long_clause_example).appearances 0 = List.replicate 1000 1 ++ [-1, -2, -3]
    ∧ occurrences 0 long_clause_example 0 = List.replicate 1001 1 ++ [-2, -3]
    ∧ (-(((0 : Nat) : Int) + 1)) ∈ (load_rows 2 long_clause_example).appearances 0
    ∧ (-(((0 : Nat) : Int) + 1)) ∉ long_clause_example.getD 0 [] := by
  refine ⟨by decide!, long_clause_fits, long_clause_appearances, by decide!, ?_, by decide!⟩
  rw [long_clause_appearances]
  decide!

/-- C13, amended.  For every input with literals of magnitude in `[1..V]` that fits the
arrays of the loader: `appearances[v]` lists the occurrences of `v` in the rows of the
clause block (`clauses[c][0 .. csizes[c]-1]`, as the second pass reads them), in
ascending clause order and in-clause order, each encoded as `c+1` (positive) or
`-(c+1)` (negative); `napps[v]`, its length, is the number of these occurrences; `c+1`
is in `appearances[v]` iff the literal `v+1` is in row `c`, `-(c+1)` iff `-(v+1)` is.
Row `c` is the input clause `c` whenever that clause has at most `MAX_CLAUSE_SIZE`
literals; when every clause has, `appearances[v]` lists the occurrences of `v` in the
input clauses and `napps[v]` is their number. -/
theorem appearances_built (V : Nat) (cls : List (List Int))
    (hlits : ∀ cl ∈ cls, ∀ l ∈ cl, 1 ≤ l.natAbs ∧ l.natAbs ≤ V) (_hfit : InputFits V cls)
    (v : Nat) :
    (load_rows V cls).appearances v = occurrences v (stored_rows cls) 0
    ∧ ((load_rows V cls).appearances v).length = occurrence_count v (stored_rows cls)
    ∧ (∀ c : Nat, ((c : Int) + 1) ∈ (load_rows V cls).appearances v
        ↔ ((v : Int) + 1) ∈ (load_rows V cls).clauses c)
    ∧ (∀ c : Nat, (-((c : Int) + 1)) ∈ (load_rows V cls).appearances v
        ↔ (-((v : Int) + 1)) ∈ (load_rows V cls).clauses c)
    ∧ (∀ c : Nat, (cls.getD c []).length ≤ MAX_CLAUSE_SIZE →
        (load_rows V cls).clauses c = cls.getD c [])
    ∧ ((∀ cl ∈ cls, cl.length ≤ MAX_CLAUSE_SIZE) →
        (load_rows V cls).appearances v = occurrences v cls 0
        ∧ ((load_rows V cls).appearances v).length = occurrence_count v cls) := by
  obtain ⟨h1, h2, h3, h4⟩ :=
    load_formula_appearances V (stored_rows cls) (stored_rows_in_range V cls hlits) v
  refine ⟨h1, h2, h3, h4, ?_, ?_⟩
  · intro c hlen
    exact stored_rows_intact cls c hlen
  · intro hshort
    have he : stored_rows cls = cls := stored_rows_eq cls hshort
    have h1' : (load_rows V cls).appearances v = occurrences v (stored_rows cls) 0 := h1
    have h2' : ((load_rows V cls).appearances v).length
        = occurrence_count v (stored_rows cls) := h2
    constructor
    · rw [h1', he]
    · rw [h2', he]

/-- Witness for C13 (amended): on `p cnf 2 3 / 1 -2 0 / -1 0 / 2 1 0` the occurrence
list of variable 0 is `[1, -2, 3]`, and `2+1` is in it as the literal `1` is in
clause 2. -/
theorem appearances_built_witness :
    (∀ cl ∈ [[1, -2], [-1], [2, 1]], ∀ l ∈ cl, 1 ≤ l.natAbs ∧ l.natAbs ≤ 2)
    ∧ InputFits 2 [[1, -2], [-1], [2, 1]]
    ∧ (load_rows 2 [[1, -2], [-1], [2, 1]]).appearances 0 = [1, -2, 3]
    ∧ (((2 : Nat) : Int) + 1) ∈ (load_rows 2 [[1, -2], [-1], [2, 1]]).appearances 0 := by
  have hl : ∀ cl ∈ [[1, -2], [-1], [2, 1]], ∀ l ∈ cl, 1 ≤ l.natAbs ∧ l.natAbs ≤ 2 := by
    decide
  have hfit : InputFits 2 [[1, -2], [-1], [2, 1]] :=
    input_fits_of_short 2 _ (by decide) (by decide) (by decide)
  have h := appearances_built 2 [[1, -2], [-1], [2, 1]] hl hfit 0
  refine ⟨hl, hfit, ?_, ?_⟩
  · rw [(h.2.2.2.2.2 (by decide)).1]; decide
  · exact (h.2.2.1 2).2 (by decide!)

/-! ## C16: backtracking restores the assignment state -/

/-- C16: on the formula that the loader builds from an input with nonzero literals
that fits its arrays, whatever the tally arrays hold each time `dfs` reads them: the
invariant of the assignment state holds in the initial state, and from every state `s`
that satisfies it (every call of `dfs` in the run is made in such a state) a call
`dfs(l)` that returns `false` leaves `assn`, `rem`, `satisfier` and `nunsat` as it
found them, and so does every call `try_value(v, sign, l)` on an unset `v` whose
snapshot `npropped_at[v]` is the current queue length. -/
theorem backtracking_restores_core (V : Nat) (cls : List (List Int))
    (hnz : ∀ cl ∈ cls, ∀ l ∈ cl, l ≠ 0) (_hfit : InputFits V cls)
    (tv : List Bool → State → (Int → Int) × (Int → Int)) (pf fuel : Nat) (path : List Bool)
    (l : Nat) (s : State) (hinv : Inv (load_rows V cls) s) :
    Inv (load_rows V cls) (init_rows cls)
    ∧ (∀ r : Bool × State, dfs_seen (load_rows V cls) pf tv fuel path l s = some r →
        r.1 = false → SameCore s r.2)
    ∧ (∀ (v : Nat) (sign : Int) (r : Bool × State), s.assn v = 0 →
        s.npropped_at v = s.npropped → sign = 1 ∨ sign = -1 →
        try_value (load_rows V cls) pf (dfs_seen (load_rows V cls) pf tv fuel path (l + 1))
          v sign s = some r →
        r.1 = false → SameCore s r.2) := by
  have hwf := load_rows_well_formed V cls hnz
  refine ⟨init_rows_inv V cls, ?_, ?_⟩
  · intro r hres hf
    exact ((dfs_seen_spec hwf pf tv fuel path l s r hinv hres).2 hf).1
  · intro v sign r hv hstamp hsign hres hf
    exact ((try_value_spec hwf pf (dfs_seen_spec hwf pf tv fuel path (l + 1)) hinv hv hstamp
      hsign hres).2 hf).1

/-- Witness for C16: on `p cnf 3 3 / 3 -2 0 / 2 -1 0 / -3 0` the run `dfs(0)` tries
both values of variable 1, with a propagation and a nested `dfs` under the first,
returns `false`, and ends with the assignment state of the initial state. -/
theorem backtracking_restores_core_witness :
    (∀ cl ∈ backjump_example, ∀ l ∈ cl, l ≠ 0)
    ∧ InputFits 3 backjump_example
    ∧ (dfs_seen (load_rows 3 backjump_example) 5 own_tallies 5 [] 0
        (init_rows backjump_example)).map Prod.fst = some false
    ∧ SameCore (init_rows backjump_example)
        ((dfs_seen (load_rows 3 backjump_example) 5 own_tallies 5 [] 0
          (init_rows backjump_example)).getD (true, init_state [])).2 := by
  have hnz : ∀ cl ∈ backjump_example, ∀ l ∈ cl, l ≠ 0 := by
    unfold backjump_example; decide
  have hfit : InputFits 3 backjump_example :=
    input_fits_of_short 3 _ (by unfold backjump_example; decide) (by decide) (by decide)
  have hf : (dfs_seen (load_rows 3 backjump_example) 5 own_tallies 5 [] 0
      (init_rows backjump_example)).map Prod.fst = some false := by decide!
  have hrun := option_eq_some_getD _ (true, init_state []) false hf
  have h := (backtracking_restores_core 3 backjump_example hnz hfit own_tallies 5 5 [] 0
    (init_rows backjump_example) (init_rows_inv 3 backjump_example)).2.1 _ hrun rfl
  dsimp only at h
  exact ⟨hnz, hfit, hf, h⟩

/-! ## C17: the queue restore point -/

/-- C17, amended: on the formula that the loader builds from an input with nonzero
literals that fits its arrays, whatever the tally arrays hold each time `dfs` reads
them, from a state `s` that satisfies the invariant of the assignment state, with `v`
unset and the snapshot `npropped_at[v] = npropped` taken, a call
`try_value(v, sign, l)` that returns failure keeps the snapshot `npropped_at[v]` and
leaves `npropped` at or above it; `npropped` is back at the snapshot whenever the
`assign(v, sign)` of the call succeeded (the failure came from `do_unit_propagations`
or from the recursive `dfs`), and whenever `in_conflict[v]` is non-empty on return (the
only case in which `dfs` goes on to the second value). -/
theorem queue_restored_unless_assign_failed (V : Nat) (cls : List (List Int))
    (hnz : ∀ cl ∈ cls, ∀ l ∈ cl, l ≠ 0) (_hfit : InputFits V cls)
    (tv : List Bool → State → (Int → Int) × (Int → Int)) (pf fuel : Nat) (path : List Bool)
    (l : Nat) (s : State) (v : Nat) (sign : Int)
    (r : Bool × State) (hinv : Inv (load_rows V cls) s) (hv : s.assn v = 0)
    (hstamp : s.npropped_at v = s.npropped) (hsign : sign = 1 ∨ sign = -1)
    (hres : try_value (load_rows V cls) pf (dfs_seen (load_rows V cls) pf tv fuel path (l + 1))
      v sign s = some r)
    (hf : r.1 = false) :
    r.2.npropped_at v = s.npropped_at v
    ∧ r.2.npropped_at v ≤ r.2.npropped
    ∧ ((assign (load_rows V cls) v sign s).1 = true → r.2.npropped = r.2.npropped_at v)
    ∧ (r.2.in_conflict v ≠ [] → r.2.npropped = r.2.npropped_at v) := by
  have hwf := load_rows_well_formed V cls hnz
  have hnext := dfs_seen_spec hwf pf tv fuel path (l + 1)
  obtain ⟨_, t2, _, t4, t5⟩ := (try_value_spec hwf pf hnext hinv hv hstamp hsign hres).2 hf
  have hst : r.2.npropped_at v = s.npropped_at v := t4 v (Or.inr rfl)
  refine ⟨hst, ?_, ?_, ?_⟩
  · rw [hst, hstamp]; exact t2.le
  · intro hA
    rw [hst, hstamp]
    exact try_value_queue_restored hwf pf hnext hinv hv hstamp hsign hres hf hA
  · intro hne
    rcases t5 with h | h
    · exact absurd h hne
    · rw [hst, hstamp]; exact h

/-- Witness for C17 (amended): on `p cnf 3 3 / 3 -2 0 / 2 -1 0 / -3 0` the root's first
`try_value(1, -1, 0)` passes `assign`, fails later, and returns with
`npropped = npropped_at[1]`. -/
theorem queue_restored_unless_assign_failed_witness :
    (∀ cl ∈ backjump_example, ∀ l ∈ cl, l ≠ 0)
    ∧ InputFits 3 backjump_example
    ∧ (assign (load_rows 3 backjump_example) 1 (first_try (init_rows backjump_example) 1)
        (branch_entry 1 (init_rows backjump_example))).1 = true
    ∧ (try_value (load_rows 3 backjump_example) 5
        (dfs_seen (load_rows 3 backjump_example) 5 own_tallies 4 [false] 1) 1
        (first_try (init_rows backjump_example) 1)
        (branch_entry 1 (init_rows backjump_example))).map Prod.fst = some false
    ∧ ((try_value (load_rows 3 backjump_example) 5
        (dfs_seen (load_rows 3 backjump_example) 5 own_tallies 4 [false] 1) 1
        (first_try (init_rows backjump_example) 1)
        (branch_entry 1 (init_rows backjump_example))).getD
          (false, init_state [])).2.npropped
      = ((try_value (load_rows 3 backjump_example) 5
        (dfs_seen (load_rows 3 backjump_example) 5 own_tallies 4 [false] 1) 1
        (first_try (init_rows backjump_example) 1)
        (branch_entry 1 (init_rows backjump_example))).getD
          (false, init_state [])).2.npropped_at 1 := by
  have hnz : ∀ cl ∈ backjump_example, ∀ l ∈ cl, l ≠ 0 := by
    unfold backjump_example; decide
  have hfit : InputFits 3 backjump_example :=
    input_fits_of_short 3 _ (by unfold backjump_example; decide) (by decide) (by decide)
  have hA : (assign (load_rows 3 backjump_example) 1
      (first_try (init_rows backjump_example) 1)
      (branch_entry 1 (init_rows backjump_example))).1 = true := by decide!
  have hfalse : (try_value (load_rows 3 backjump_example) 5
        (dfs_seen (load_rows 3 backjump_example) 5 own_tallies 4 [false] 1) 1
        (first_try (init_rows backjump_example) 1)
        (branch_entry 1 (init_rows backjump_example))).map Prod.fst = some false := by decide!
  have hrun := option_eq_some_getD _ (false, init_state []) false hfalse
  have hc : SameCore (init_rows backjump_example)
      (branch_entry 1 (init_rows backjump_example)) := ⟨rfl, rfl, rfl, rfl⟩
  have h := (queue_restored_unless_assign_failed 3 backjump_example hnz hfit own_tallies 5 4
    [false] 0 (branch_entry 1 (init_rows backjump_example)) 1
    (first_try (init_rows backjump_example) 1)
    _ (Inv.inv_congr hc (init_rows_inv 3 backjump_example)) rfl rfl
    (by decide!) hrun rfl).2.2.1 hA
  dsimp only at h
  exact ⟨hnz, hfit, hA, hfalse, h⟩

/-! ## C12 and C19: the size of the propagation queue -/

theorem queue_cells_eq (V C : Nat) (h : V * C < 2 ^ 31) : queue_cells V C = V * C := by
  unfold queue_cells int_mul
  have h1 : ((V : Int) * (C : Int) + 2 ^ 31) % 2 ^ 32 = (V : Int) * (C : Int) + 2 ^ 31 := by
    apply Int.emod_eq_of_lt
    · positivity
    · have : ((V * C : Nat) : Int) < 2 ^ 31 := by exact_mod_cast h
      push_cast at this
      omega
  rw [h1]
  have h2 : (V : Int) * (C : Int) + 2 ^ 31 - 2 ^ 31 = ((V * C : Nat) : Int) := by
    push_cast; ring
  rw [h2, Int.toNat_ofNat]

theorem count_tallies_append (a b : List (List Int)) (t : (Int → Int) × (Int → Int)) :
    count_tallies (a ++ b) t = count_tallies b (count_tallies a t) := by
  induction a generalizing t with
  | nil => rfl
  | cons cl rest ih => exact ih (count_clause cl t)

theorem count_tallies_nils (n : Nat) (t : (Int → Int) × (Int → Int)) :
    count_tallies (List.replicate n []) t = t := by
  induction n with
  | zero => rfl
  | succ n ih => exact ih

theorem fill_appearances_append (a b : List (List Int)) (i : Nat) (apps : Nat → List Int) :
    fill_appearances (a ++ b) i apps
      = fill_appearances b (i + a.length) (fill_appearances a i apps) := by
  induction a generalizing i apps with
  | nil => rfl
  | cons cl rest ih =>
    show fill_appearances (rest ++ b) (i + 1) (fill_clause i cl apps) = _
    rw [ih]
    have : i + 1 + rest.length = i + (cl :: rest).length := by
      rw [List.length_cons]; omega
    rw [this]
    rfl

theorem fill_appearances_nils (n i : Nat) (apps : Nat → List Int) :
    fill_appearances (List.replicate n []) i apps = apps := by
  induction n generalizing i with
  | zero => rfl
  | succ n ih => exact ih (i + 1)

theorem getD_append_nils (a : List (List Int)) (n c : Nat) :
    (a ++ List.replicate n []).getD c [] = a.getD c [] := by
  by_cases hc : c < a.length
  · rw [List.getD_append _ _ _ _ hc]
  · rw [getD_nil_of_le a c (by omega)]
    by_cases hc2 : c < (a ++ List.replicate n []).length
    · have hm := getD_mem_of_lt _ c hc2
      rcases List.mem_append.1 hm with h | h
      · have hlen : c - a.length < (List.replicate n ([] : List Int)).length := by
          rw [List.length_append] at hc2; omega
        rw [List.getD_append_right _ _ _ _ (by omega)]
        have := getD_mem_of_lt _ _ hlen
        exact (List.mem_replicate.1 this).2
      · exact (List.mem_replicate.1 h).2
    · exact getD_nil_of_le _ c (by omega)

/-- Empty clauses at the end of the input add nothing to the occurrence lists: the
formula store differs in `C` only. -/
theorem load_formula_padded (V : Nat) (a : List (List Int)) (n : Nat) :
    load_formula V (a ++ List.replicate n [])
      = { load_formula V a with C := a.length + n } := by
  unfold load_formula
  have h1 : (fun c => (a ++ List.replicate n ([] : List Int)).getD c [])
      = fun c => a.getD c [] := funext (getD_append_nils a n)
  have h2 : fill_appearances (a ++ List.replicate n []) 0 (fun _ => [])
      = fill_appearances a 0 (fun _ => []) := by
    rw [fill_appearances_append, fill_appearances_nils]
  rw [h1, h2, List.length_append, List.length_replicate]

theorem init_state_padded (a : List (List Int)) (n : Nat) :
    init_state (a ++ List.replicate n [])
      = { init_state a with nunsat := ((a.length + n : Nat) : Int) } := by
  unfold init_state
  have h1 : (fun c => (((a ++ List.replicate n ([] : List Int)).getD c []).length : Int))
      = fun c => ((a.getD c []).length : Int) := by
    funext c; rw [getD_append_nils]
  rw [h1, count_tallies_append, count_tallies_nils, List.length_append, List.length_replicate]

theorem wrap_example_short : ∀ cl ∈ wrap_example, cl.length ≤ MAX_CLAUSE_SIZE := by
  intro cl hcl
  rcases List.mem_append.1 hcl with h | h
  · have h2 : cl = [1, 2] ∨ cl = [-1, 3] := by simpa using h
    rcases h2 with h3 | h3 <;> rw [h3] <;> decide
  · rw [(List.mem_replicate.1 h).2]; exact Nat.zero_le _

theorem wrap_example_formula :
    load_rows 46341 wrap_example
      = { load_formula 46341 [[1, 2], [-1, 3]] with C := 2 + 46339 } := by
  unfold load_rows
  rw [stored_rows_eq _ wrap_example_short]
  exact load_formula_padded 46341 [[1, 2], [-1, 3]] 46339

theorem wrap_example_state :
    init_rows wrap_example
      = { init_state [[1, 2], [-1, 3]] with nunsat := ((2 + 46339 : Nat) : Int) } := by
  unfold init_rows
  rw [stored_rows_eq _ wrap_example_short]
  have h := init_state_padded [[1, 2], [-1, 3]] 46339
  have ht : count_tallies wrap_example (fun _ => 0, fun _ => 0)
      = count_tallies [[1, 2], [-1, 3]] (fun _ => 0, fun _ => 0) := by
    unfold wrap_example
    rw [count_tallies_append, count_tallies_nils]
  rw [ht]
  unfold wrap_example
  rw [h]
  rfl

theorem most_constrained_var_eq (F : Formula) (s : State) :
    most_constrained_var F s = (most_constrained_loop s F.V).2 := rfl

theorem wrap_example_in_range :
    ∀ cl ∈ wrap_example, ∀ l ∈ cl, 1 ≤ l.natAbs ∧ l.natAbs ≤ 46341 := by
  intro cl hcl
  rcases List.mem_append.1 hcl with h | h
  · have h2 : cl = [1, 2] ∨ cl = [-1, 3] := by simpa using h
    rcases h2 with h3 | h3 <;> rw [h3] <;> decide
  · rw [(List.mem_replicate.1 h).2]
    intro l hl
    simp at hl

theorem wrap_example_once : ∀ cl ∈ wrap_example, (cl.map varid).Nodup := by
  intro cl hcl
  rcases List.mem_append.1 hcl with h | h
  · have h2 : cl = [1, 2] ∨ cl = [-1, 3] := by simpa using h
    rcases h2 with h3 | h3 <;> rw [h3] <;> decide
  · rw [(List.mem_replicate.1 h).2]
    exact List.nodup_nil

/-- C12 fails on the program for an input with `V * C ≥ 2^31`.  On
`p cnf 46341 46341 / 1 2 0 / -1 3 0` followed by 46339 empty clauses (literals of
magnitude in `[1..V]`, no variable twice in a clause) the `int` product `V*C` that
`main` hands to `calloc` is `-2147479015`, so the queue has no cell; and the
`assign(0, -1)` that the root call `dfs(0)` makes first finds clause 0 with one unset
literal and stores the literal `2` at `propagation_queue[0]`, raising `npropped`
to 1. -/
theorem queue_size_wraps :
    (∀ cl ∈ wrap_example, ∀ l ∈ cl, 1 ≤ l.natAbs ∧ l.natAbs ≤ 46341)
    ∧ (∀ cl ∈ wrap_example, (cl.map varid).Nodup)
    ∧ wrap_example.length = 46341
    ∧ int_mul 46341 46341 = -2147479015
    ∧ queue_cells 46341 46341 = 0
    ∧ (assign (load_rows 46341 wrap_example) 0 (-1)
        (branch_entry 0 (init_rows wrap_example))).2.npropped = 1
    ∧ (assign (load_rows 46341 wrap_example) 0 (-1)
        (branch_entry 0 (init_rows wrap_example))).2.propagation_queue 0 = 2 := by
  refine ⟨wrap_example_in_range, wrap_example_once, ?_, by decide, by decide, ?_, ?_⟩
  · unfold wrap_example
    rw [List.length_append, List.length_replicate]
    rfl
  · rw [wrap_example_formula, wrap_example_state]; decide!
  · rw [wrap_example_formula, wrap_example_state]; decide!

theorem branch_on_cap {F : Formula} (hwf : WellFormed F) (pf : Nat)
    {next1 next2 : State → Option (Bool × State)} (hnext1 : DfsSpec F next1)
    (hnext2 : DfsSpec F next2) (hcap1 : CapSpec F next1) (hcap2 : CapSpec F next2)
    {v : Nat} {ft st : Int} {s : State} {r : Bool × State}
    (hft : ft = 1 ∨ ft = -1) (hst : st = 1 ∨ st = -1)
    (hinv : Inv F s) (hc : CapInv F s) (hv : s.assn v = 0)
    (hres : branch_on F pf next1 next2 v ft st s = some r) :
    QueueAbove F.C s r.2 ∧ r.2.npropped ≤ F.C := by
  unfold branch_on at hres
  obtain ⟨b1, b2, b3, b4, b5, b6⟩ := branch_entry_ready v hinv hc
  have hv1 : (branch_entry v s).assn v = 0 := by rw [b4]; exact hv
  have hq1 : QueueAbove F.C s (branch_entry v s) := fun j _ => by rw [b5]
  cases hT : try_value F pf next1 v ft (branch_entry v s) with
  | none => rw [hT] at hres; simp at hres
  | some rt =>
  obtain ⟨bT, s2⟩ := rt
  rw [hT] at hres
  obtain ⟨c1, c2⟩ := try_value_cap hwf pf hnext1 hcap1 b1 b2 hv1 b3 hft hT
  have c1' : QueueAbove F.C (branch_entry v s) s2 := c1
  cases bT with
  | true =>
    simp only [Option.some.injEq] at hres
    subst hres
    exact ⟨hq1.above_trans c1', c2⟩
  | false =>
    dsimp only at hres
    by_cases hconf : in_conflict_set s2 v = true
    · rw [if_pos hconf] at hres
      obtain ⟨e1, e2, e3, e4⟩ := second_try_ready hwf pf hnext1 b1 b2 hv1 b3 hft hT hconf
      have hv2 : (augment_conflict v s2).assn v = 0 := by rw [e3]; exact hv1
      obtain ⟨k1, k2⟩ := try_value_cap hwf pf hnext2 hcap2 e1 e2 hv2 e4 hst hres
      refine ⟨?_, k2⟩
      exact hq1.above_trans (c1'.above_trans
        (((augment_conflict_frame v s2).2.1.above F.C).above_trans k1))
    · rw [if_neg hconf] at hres
      simp only [Option.some.injEq] at hres
      subst hres
      exact ⟨hq1.above_trans c1', c2⟩

/-- The capacity contract of `dfs`, whatever the tally arrays hold at each call. -/
theorem dfs_seen_cap {F : Formula} (hwf : WellFormed F) (pf : Nat)
    (tv : List Bool → State → (Int → Int) × (Int → Int)) :
    ∀ (fuel : Nat) (path : List Bool) (l : Nat), CapSpec F (dfs_seen F pf tv fuel path l) := by
  intro fuel
  induction fuel with
  | zero => intro path l s r _ _ hres; simp [dfs_seen] at hres
  | succ fuel ih =>
    intro path l s r hinv hc hres
    have hsC : s.npropped ≤ F.C := le_trans hc (low_count_le _ _)
    rw [dfs_seen] at hres
    by_cases h0 : s.nunsat = 0
    · rw [if_pos h0] at hres
      simp only [Option.some.injEq] at hres
      subst hres
      exact ⟨QueueAbove.above_refl _ s, hsC⟩
    · rw [if_neg h0] at hres
      dsimp only at hres
      by_cases hm : most_constrained_var F (see (tv path s) s) = -1
      · rw [if_pos hm] at hres
        simp only [Option.some.injEq] at hres
        subst hres
        exact ⟨QueueAbove.above_refl _ s, hsC⟩
      · rw [if_neg hm] at hres
        exact branch_on_cap hwf pf (dfs_seen_spec hwf pf tv fuel _ (l + 1))
          (dfs_seen_spec hwf pf tv fuel _ (l + 1)) (ih _ (l + 1)) (ih _ (l + 1))
          (first_try_sign _ _) (second_try_sign _ _) hinv hc
          (most_constrained_var_seen F _ s hm).1 hres

theorem branch_on_total {F : Formula} (hwf : WellFormed F) (pf : Nat) (hpf : F.C < pf)
    {next1 next2 : State → Option (Bool × State)} (hnext1 : DfsSpec F next1)
    {v : Nat} {ft st : Int} {s : State}
    (hft : ft = 1 ∨ ft = -1) (hst : st = 1 ∨ st = -1)
    (hinv : Inv F s) (hc : CapInv F s) (hv : s.assn v = 0) (hvV : v < F.V)
    (htot1 : ∀ s2 : State, Inv F s2 → CapInv F s2 →
      unset_vars F.V s2.assn < unset_vars F.V s.assn →
      ∃ r : Bool × State, next1 s2 = some r)
    (htot2 : ∀ s2 : State, Inv F s2 → CapInv F s2 →
      unset_vars F.V s2.assn < unset_vars F.V s.assn →
      ∃ r : Bool × State, next2 s2 = some r) :
    ∃ r : Bool × State, branch_on F pf next1 next2 v ft st s = some r := by
  unfold branch_on
  obtain ⟨b1, b2, b3, b4, _, _⟩ := branch_entry_ready v hinv hc
  have hv1 : (branch_entry v s).assn v = 0 := by rw [b4]; exact hv
  obtain ⟨rt, hT⟩ := try_value_total hwf pf hpf b1 b2 hv1 hvV b3 hft
    (fun s2 h1 h2 h3 => htot1 s2 h1 h2 (by rw [b4] at h3; exact h3))
  obtain ⟨bT, s2⟩ := rt
  rw [hT]
  cases bT with
  | true => exact ⟨_, rfl⟩
  | false =>
    dsimp only
    by_cases hconf : in_conflict_set s2 v = true
    · rw [if_pos hconf]
      obtain ⟨e1, e2, e3, e4⟩ := second_try_ready hwf pf hnext1 b1 b2 hv1 b3 hft hT hconf
      have hv2 : (augment_conflict v s2).assn v = 0 := by rw [e3]; exact hv1
      exact try_value_total hwf pf hpf e1 e2 hv2 hvV e4 hst
        (fun s3 h1 h2 h3 => htot2 s3 h1 h2 (by rw [e3, b4] at h3; exact h3))
    · rw [if_neg hconf]
      exact ⟨_, rfl⟩

/-- Termination of `dfs`, whatever the tally arrays hold at each call: with more units
of loop fuel than clauses and more levels than unset variables, the call returns. -/
theorem dfs_seen_total {F : Formula} (hwf : WellFormed F) (pf : Nat) (hpf : F.C < pf)
    (tv : List Bool → State → (Int → Int) × (Int → Int)) :
    ∀ (fuel : Nat) (path : List Bool) (l : Nat) (s : State), Inv F s → CapInv F s →
      unset_vars F.V s.assn < fuel →
      ∃ r : Bool × State, dfs_seen F pf tv fuel path l s = some r := by
  intro fuel
  induction fuel with
  | zero => intro path l s _ _ h; omega
  | succ fuel ih =>
    intro path l s hinv hc hm
    rw [dfs_seen]
    by_cases h0 : s.nunsat = 0
    · rw [if_pos h0]; exact ⟨_, rfl⟩
    · rw [if_neg h0]
      dsimp only
      by_cases hmc : most_constrained_var F (see (tv path s) s) = -1
      · rw [if_pos hmc]; exact ⟨_, rfl⟩
      · rw [if_neg hmc]
        obtain ⟨u1, u2⟩ := most_constrained_var_seen F _ s hmc
        exact branch_on_total hwf pf hpf (dfs_seen_spec hwf pf tv fuel _ (l + 1))
          (first_try_sign _ _) (second_try_sign _ _) hinv hc u1 u2
          (fun s2 h1 h2 h3 => ih _ (l + 1) s2 h1 h2 (by omega))
          (fun s2 h1 h2 h3 => ih _ (l + 1) s2 h1 h2 (by omega))

theorem init_rows_cap (V : Nat) (cls : List (List Int)) :
    CapInv (load_rows V cls) (init_rows cls) := Nat.zero_le _

theorem dfs_seen_no_variable (F : Formula) (hV : F.V = 0) (pf : Nat)
    (tv : List Bool → State → (Int → Int) × (Int → Int)) (fuel : Nat) (path : List Bool)
    (l : Nat) (s : State) (r : Bool × State)
    (hres : dfs_seen F pf tv fuel path l s = some r) : r.2 = s := by
  cases fuel with
  | zero => simp [dfs_seen] at hres
  | succ fuel =>
    rw [dfs_seen] at hres
    by_cases h0 : s.nunsat = 0
    · rw [if_pos h0] at hres
      simp only [Option.some.injEq] at hres
      subst hres
      rfl
    · rw [if_neg h0] at hres
      dsimp only at hres
      have hm : most_constrained_var F (see (tv path s) s) = -1 := by
        rw [most_constrained_var_eq, hV]
        rfl
      rw [if_pos hm] at hres
      simp only [Option.some.injEq] at hres
      subst hres
      rfl

/-- Where the product `V*C` does not wrap, the claim of C12 holds.  For an input with
literals of magnitude in `[1..V]` that fits the arrays of the loader, whatever the
tally arrays hold each time `dfs` reads them, in every run `dfs(0)` from the loader's
state that returns, the queue has `V*C` cells, no cell of `propagation_queue` at an
index `≥ V*C` has been written and the queue length on return is at most `V*C`.  (The
only writes to the queue are those of `enqueue_unit_propagation`, at index `npropped`
and of a nonzero literal, and the loader leaves every cell at 0.) -/
theorem queue_capacity (V : Nat) (cls : List (List Int))
    (hlits : ∀ cl ∈ cls, ∀ l ∈ cl, 1 ≤ l.natAbs ∧ l.natAbs ≤ V) (hfit : InputFits V cls)
    (tv : List Bool → State → (Int → Int) × (Int → Int)) (pf fuel : Nat) (r : Bool × State)
    (hrun : dfs_seen (load_rows V cls) pf tv fuel [] 0 (init_rows cls) = some r) :
    queue_cells V cls.length = V * cls.length
    ∧ r.2.npropped ≤ queue_cells V cls.length
    ∧ (∀ j : Nat, queue_cells V cls.length ≤ j → r.2.propagation_queue j = 0) := by
  have hcells := queue_cells_eq V cls.length hfit.2.2.2
  rw [hcells]
  refine ⟨rfl, ?_⟩
  have hwf := load_rows_well_formed V cls (nonzero_of_in_range hlits)
  obtain ⟨h1, h2⟩ := dfs_seen_cap hwf pf tv fuel [] 0 (init_rows cls) r (init_rows_inv V cls)
    (init_rows_cap V cls) hrun
  have hC : (load_rows V cls).C = cls.length := stored_rows_length cls
  rw [hC] at h1 h2
  have h1' : ∀ j : Nat, cls.length ≤ j → r.2.propagation_queue j = 0 := fun j hj => h1 j hj
  rcases Nat.eq_zero_or_pos V with hV | hV
  · have hs := dfs_seen_no_variable (load_rows V cls) hV pf tv fuel [] 0 (init_rows cls) r hrun
    constructor
    · rw [hs]; exact Nat.zero_le _
    · intro j _; rw [hs]; rfl
  · have hle : cls.length ≤ V * cls.length := Nat.le_mul_of_pos_left _ hV
    exact ⟨le_trans h2 hle, fun j hj => h1' j (le_trans hle hj)⟩

/-- Where the product `V*C` does not wrap, the claim of C19 holds.  For an input with
literals of magnitude in `[1..V]` that fits the arrays of the loader, whatever the
tally arrays hold each time `dfs` reads them, the run `dfs(0)` from the loader's state
terminates: with room for `V + 1` nested calls of `dfs` (the levels `0..V`) and for
`C + 1` loop tests in each `do_unit_propagations`, the run returns a result. -/
theorem dfs_terminates (V : Nat) (cls : List (List Int))
    (hlits : ∀ cl ∈ cls, ∀ l ∈ cl, 1 ≤ l.natAbs ∧ l.natAbs ≤ V) (_hfit : InputFits V cls)
    (tv : List Bool → State → (Int → Int) × (Int → Int))
    (pf fuel : Nat) (hpf : cls.length < pf) (hfuel : V < fuel) :
    ∃ r : Bool × State,
      dfs_seen (load_rows V cls) pf tv fuel [] 0 (init_rows cls) = some r := by
  have hwf := load_rows_well_formed V cls (nonzero_of_in_range hlits)
  have hC : (load_rows V cls).C = cls.length := stored_rows_length cls
  exact dfs_seen_total hwf pf (by rw [hC]; exact hpf) tv fuel [] 0 (init_rows cls)
    (init_rows_inv V cls) (init_rows_cap V cls)
    (lt_of_le_of_lt (range_filter_le V _) hfuel)

end Sat
